import Mathlib

/-!
# Verification of the `.pak` archive container (`Sources/Shared/IO/PakFile.cpp`)

A shallow embedding of the `.pak` single-file archive format: the path
normalizer/hasher (`FileNameToHash`), the reader (`PakFile`: footer parsing,
recursive index materialization, `FindItem`, `FileExists`, `OpenFile`,
directory enumeration) and the writer (`PakWriter`: `AddFile`,
`FindOrCreateParentItem`, `Finalize`).

Modelling conventions:
* machine bytes are `Nat` (values < 256 where produced by the code);
  a C++ string is a `List Nat` of its bytes;
* streams are byte lists with explicit positions; file offsets are absolute
  byte positions (the output file starts with the 8-byte optional header, so
  positions in the model equal positions in the real file);
* the external xxHash3 collaborator is an arbitrary parameter
  `hash : List Nat → Nat`; the 64-bit truncation and the `memcpy`/`memcmp`
  byte order (little-endian host) are modelled explicitly;
* the external compression codecs (Deflate/LZ4/Zstd) are abstract
  `compress`/`decompress` functions; the round-trip property of a codec is a
  hypothesis of theorems that need it, never an axiom;
* `DEATH_ASSERT(cond, msg, ret)` is modelled as `if ¬cond then return ret`
  (spec §7: read/write-path failures are local returns);
  `DEATH_DEBUG_ASSERT` has no release-build effect and is not modelled;
* the deflate-compressed-index branch (`ReadIndexFromStreamDeflateCompressed`)
  is modelled in the configuration without zlib (`#else return nullptr`),
  and the writer is used with `useCompressedIndex = false` throughout; no
  claim quantifies over index compression.
-/

namespace Pak

/-- A byte of a C++ buffer. Values produced by the code are < 256. -/
abbrev Byte := Nat

/-- A byte string (contents of a `String`/`StringView`/stream). -/
abbrev Bytes := List Nat

/-! ## String comparison (Death::Containers::StringView)

`operator<` of `StringView` (spec §3: "bytewise memcmp … lexicographic string
compare"): `memcmp` over the common prefix, then the shorter string is
smaller. Equality is size equality plus `memcmp == 0`, i.e. list equality. -/

/-- Lexicographic (memcmp-style, unsigned bytes) strict comparison of byte
strings, as performed by `StringView::operator<`. -/
def ltBytes : Bytes → Bytes → Bool
  | [], [] => false
  | [], _ :: _ => true
  | _ :: _, [] => false
  | a :: as, b :: bs => if a < b then true else if b < a then false else ltBytes as bs

/-- Non-strict name order used to model `std::sort` with comparator
`a.Name < b.Name` (the sorted output satisfies `¬(x_{i+1} < x_i)`). -/
def leBytes (a b : Bytes) : Bool := ! ltBytes b a

/-! ## Constants of `PakFile.cpp` -/

/-- `OptionalHeader` (8 bytes written by the `PakWriter` constructor). -/
def optionalHeader : Bytes := [0xEF, 0xBB, 0xBF, 0xF0, 0x9F, 0x8C, 0xAA, 0x3A]

/-- `Signature` (4 bytes of the footer). -/
def signature : Bytes := [0xF0, 0x9F, 0x8C, 0xAA]

/-- `Version = 1`. -/
def version : Nat := 1

/-- `FooterSize = sizeof(Signature) + 2 + 2 + 8 = 16`. -/
def footerSize : Nat := 16

/-- `MaxDepth = 64`. -/
def maxDepth : Nat := 64

/-- `HashIndexLength = 8`. -/
def hashIndexLength : Nat := 8

/-! ## Item flags

`PakFile::ItemFlags` is declared in `PakFile.h` (not part of the sources at
hand). Modelled from the spec §3: "`Flags`: bit set — `Directory`, and
mutually-exclusive-in-practice compression kinds `DeflateCompressed` /
`Lz4Compressed` / `Lzma2Compressed` / `ZstdCompressed`"; the concrete bit
values are a modelling choice (distinct single bits), no claim depends on
them. `PakFileFlags` (footer flags) are from `PakFile.cpp` itself. -/

def flagDirectory : Nat := 0x01
def flagDeflateCompressed : Nat := 0x02
def flagLz4Compressed : Nat := 0x04
def flagLzma2Compressed : Nat := 0x08
def flagZstdCompressed : Nat := 0x10

/-- `(item.Flags & ItemFlags::Directory) == ItemFlags::Directory`. -/
def isDirFlag (flags : Nat) : Bool := flags &&& flagDirectory == flagDirectory

/-- `PakFile::HasCompressedSize`: any compression bit set. -/
def hasCompressedSize (flags : Nat) : Bool :=
  flags &&& (flagDeflateCompressed ||| flagLz4Compressed |||
    flagLzma2Compressed ||| flagZstdCompressed) != 0

/-- Footer flag `PakFileFlags::DeflateCompressedIndex = 0x01`. -/
def pakFlagDeflateCompressedIndex : Nat := 0x01

/-- Footer flag `PakFileFlags::HashIndex = 0x04`. -/
def pakFlagHashIndex : Nat := 0x04

/-! ## Items

`PakFile::Item` (declared in `PakFile.h`): `Name`, `Flags`, `Offset`,
`UncompressedSize`, `Size`, `ChildItems`. Default-constructed items have
zero/empty fields. -/

/-- One directory or file entry of the archive index. -/
inductive Item : Type where
  | mk (name : Bytes) (flags : Nat) (offset : Nat)
       (uncompressedSize : Nat) (size : Nat) (children : List Item)
  deriving Repr

def Item.name : Item → Bytes
  | .mk n _ _ _ _ _ => n

def Item.flags : Item → Nat
  | .mk _ f _ _ _ _ => f

def Item.offset : Item → Nat
  | .mk _ _ o _ _ _ => o

def Item.uncompressedSize : Item → Nat
  | .mk _ _ _ u _ _ => u

def Item.size : Item → Nat
  | .mk _ _ _ _ s _ => s

def Item.children : Item → List Item
  | .mk _ _ _ _ _ c => c

/-- A default-constructed `PakFile::Item()` (all fields zero/empty). -/
def defaultItem : Item := .mk [] 0 0 0 0 []

@[simp] theorem Item.name_mk (n : Bytes) (f o u s : Nat) (c : List Item) :
    (Item.mk n f o u s c).name = n := rfl
@[simp] theorem Item.flags_mk (n : Bytes) (f o u s : Nat) (c : List Item) :
    (Item.mk n f o u s c).flags = f := rfl
@[simp] theorem Item.offset_mk (n : Bytes) (f o u s : Nat) (c : List Item) :
    (Item.mk n f o u s c).offset = o := rfl
@[simp] theorem Item.uncompressedSize_mk (n : Bytes) (f o u s : Nat) (c : List Item) :
    (Item.mk n f o u s c).uncompressedSize = u := rfl
@[simp] theorem Item.size_mk (n : Bytes) (f o u s : Nat) (c : List Item) :
    (Item.mk n f o u s c).size = s := rfl
@[simp] theorem Item.children_mk (n : Bytes) (f o u s : Nat) (c : List Item) :
    (Item.mk n f o u s c).children = c := rfl

/-- Every item is its constructor applied to its fields. -/
theorem Item.eta (it : Item) :
    Item.mk it.name it.flags it.offset it.uncompressedSize it.size it.children
      = it := by
  cases it
  rfl

/-! ## LEB128 varints

`Stream::WriteVariableUint32/64` and `ReadVariableUint32/64`.
Modelled from the spec: §6 describes them as "LEB128-style varints"
(their implementation lives in `Stream.cpp`, which is not among the sources
at hand): 7-bit groups, least significant first, high bit = continuation. -/

/-- LEB128 encoding, on a step budget (the value strictly shrinks by `/128`
each step, so a budget of `n` always suffices for `n`). -/
def writeVarNatAux : Nat → Nat → Bytes
  | 0, n => [n]
  | fuel + 1, n =>
    if n < 128 then [n] else (n % 128 + 128) :: writeVarNatAux fuel (n / 128)

/-- LEB128 encoding of a natural number. -/
def writeVarNat (n : Nat) : Bytes := writeVarNatAux n n

/-- The encoding does not depend on the budget once it covers the value. -/
theorem writeVarNatAux_congr :
    ∀ f1 : Nat, ∀ n f2 : Nat, n ≤ f1 → n ≤ f2 →
      writeVarNatAux f1 n = writeVarNatAux f2 n := by
  intro f1
  induction f1 with
  | zero =>
    intro n f2 h1 _
    interval_cases n
    cases f2 <;> simp [writeVarNatAux]
  | succ f ih =>
    intro n f2 h1 h2
    cases f2 with
    | zero =>
      interval_cases n
      simp [writeVarNatAux]
    | succ f2' =>
      by_cases h : n < 128
      · simp [writeVarNatAux, h]
      · rw [writeVarNatAux, writeVarNatAux, if_neg h, if_neg h]
        congr 1
        have hlt := Nat.div_lt_self (show 0 < n by omega) (show 1 < 128 by omega)
        exact ih (n / 128) f2' (by omega) (by omega)

/-- The canonical recursion equation of `writeVarNat` (LEB128: low 7-bit
group first, high bit marks continuation). -/
theorem writeVarNat_eq (n : Nat) :
    writeVarNat n =
      if n < 128 then [n] else (n % 128 + 128) :: writeVarNat (n / 128) := by
  by_cases h : n < 128
  · rw [if_pos h, writeVarNat]
    cases n with
    | zero => rfl
    | succ m => simp [writeVarNatAux, h]
  · rw [if_neg h, writeVarNat, writeVarNat]
    obtain ⟨m, rfl⟩ : ∃ m, n = m + 1 := ⟨n - 1, by omega⟩
    rw [writeVarNatAux, if_neg h]
    congr 1
    have hlt := Nat.div_lt_self (show 0 < m + 1 by omega) (show 1 < 128 by omega)
    exact writeVarNatAux_congr m ((m + 1) / 128) ((m + 1) / 128) (by omega) le_rfl

/-- LEB128 decoding from the head of a byte list; returns the value and the
number of bytes consumed. -/
def readVarAux : Bytes → Option (Nat × Nat)
  | [] => none
  | c :: rest =>
    if c < 128 then some (c, 1)
    else
      match readVarAux rest with
      | some (v, k) => some (c % 128 + 128 * v, k + 1)
      | none => none

theorem writeVarNat_ne_nil (n : Nat) : writeVarNat n ≠ [] := by
  rw [writeVarNat_eq]
  split <;> simp

theorem readVarAux_append (n : Nat) (rest : Bytes) :
    readVarAux (writeVarNat n ++ rest) = some (n, (writeVarNat n).length) := by
  induction n using Nat.strong_induction_on with
  | _ n ih =>
    rw [writeVarNat_eq]
    split
    · next h => simp [readVarAux, h]
    · next h =>
      have hlt : n / 128 < n := Nat.div_lt_self (by omega) (by omega)
      have hge : ¬ (n % 128 + 128 < 128) := by omega
      have hmod : (n % 128 + 128) % 128 = n % 128 := by omega
      simp only [List.cons_append, readVarAux, if_neg hge, List.append_eq,
        ih (n / 128) hlt, hmod, List.length_cons]
      exact congrArg (fun m => some (m, (writeVarNat (n / 128)).length + 1))
        (Nat.mod_add_div n 128)

/-! ## Byte-level stream primitives -/

/-- Little-endian bytes of a 16-bit value (`WriteValue<uint16_t>(FromLE …)`;
the host is modelled as little-endian). -/
def le16 (n : Nat) : Bytes := [n % 256, n / 256 % 256]

/-- Little-endian bytes of a 64-bit value. This is also the byte image that
`std::memcpy(p, &hash, 8)` produces for a `uint64_t` on the (little-endian)
host, used for flat-index names. -/
def le64 (n : Nat) : Bytes :=
  [n % 256, n / 256 % 256, n / 256 ^ 2 % 256, n / 256 ^ 3 % 256,
   n / 256 ^ 4 % 256, n / 256 ^ 5 % 256, n / 256 ^ 6 % 256, n / 256 ^ 7 % 256]

/-- Read `n` bytes at absolute position `pos`; `none` when the stream is too
short (the model makes short reads explicit failures). -/
def readBytesAt (b : Bytes) (pos n : Nat) : Option Bytes :=
  if pos + n ≤ b.length then some ((b.drop pos).take n) else none

/-- Read a varint at absolute position `pos`; returns value and next position. -/
def readVarAt (b : Bytes) (pos : Nat) : Option (Nat × Nat) :=
  match readVarAux (b.drop pos) with
  | some (v, k) => some (v, pos + k)
  | none => none

/-- Decode two little-endian bytes. -/
def readLE16At (b : Bytes) (pos : Nat) : Option Nat := do
  let bs ← readBytesAt b pos 2
  pure (bs.getD 0 0 + 256 * bs.getD 1 0)

/-- Decode eight little-endian bytes. -/
def readLE64At (b : Bytes) (pos : Nat) : Option Nat := do
  let bs ← readBytesAt b pos 8
  pure (bs.getD 0 0 + 256 * bs.getD 1 0 + 256 ^ 2 * bs.getD 2 0 +
    256 ^ 3 * bs.getD 3 0 + 256 ^ 4 * bs.getD 4 0 + 256 ^ 5 * bs.getD 5 0 +
    256 ^ 6 * bs.getD 6 0 + 256 ^ 7 * bs.getD 7 0)

/-! ## Path normalization and hashing (`FileNameToHash`)

`FileNameToHash` copies the path into a scratch buffer translating `\` → `/`,
skipping a `/` that directly follows another one, and case-folding via
`c += (uint8(c - 'A') < 26) << 5`, then feeds the written bytes to xxHash3.
The xxHash3 collaborator itself (`Shared/Cryptography/xxHash.h`) is external;
it is an arbitrary parameter `hash`. -/

/-- Byte code of `/`. -/
def slash : Nat := 47

/-- Byte code of `\`. -/
def backslash : Nat := 92

/-- Is the byte a path separator (`/` or `\`)? -/
def isSep (c : Nat) : Bool := c == slash || c == backslash

/-- `c += (uint8(c - 'A') < 26) << 5`: fold ASCII `A`–`Z` to lowercase.
The `uint8` wraparound of `c - 'A'` is modelled as `(c + 256 - 65) % 256`. -/
def foldLower (c : Nat) : Nat :=
  if (c + 256 - 65) % 256 < 26 then c + 32 else c

/-- The loop body of `FileNameToHash`: slash unification, duplicate-slash
skipping (tracked by `lastWasSlash`), case folding. Returns the bytes the
loop writes into `normalizedFileName`. -/
def normalizeAux : Bytes → Bool → Bytes
  | [], _ => []
  | c :: cs, lastWasSlash =>
    let c' := if c == backslash then slash else c
    if c' == slash then
      if lastWasSlash then normalizeAux cs true
      else foldLower slash :: normalizeAux cs true
    else foldLower c' :: normalizeAux cs false

/-- The normalized byte sequence hashed by `FileNameToHash`. -/
def normalizePath (fileName : Bytes) : Bytes := normalizeAux fileName false

/-- `FileNameToHash`, parametrized by the external xxHash3 collaborator. -/
def fileNameToHash (hash : Bytes → Nat) (fileName : Bytes) : Nat :=
  hash (normalizePath fileName)

/-! Spec-side canonical form for claim C7 ("two strings denoting the same
logical path — differing only in slash style, in runs of consecutive
separators, or in ASCII letter case"). These definitions follow the
*claim's words*, to be compared with `normalizePath` from the source. -/

/-- Spec wording: unify slash style (`\` ↦ `/`). -/
def specUnifySlashes (p : Bytes) : Bytes :=
  p.map (fun c => if c == backslash then slash else c)

/-- Spec wording: collapse each run of consecutive `/` into a single `/`. -/
def specCollapseSlashes : Bytes → Bytes
  | [] => []
  | c :: cs =>
    if c == slash then
      slash :: specCollapseSlashes (cs.dropWhile (· == slash))
    else c :: specCollapseSlashes cs
  termination_by l => l.length
  decreasing_by
    · exact Nat.lt_succ_of_le (List.dropWhile_sublist _).length_le
    · simp

/-- Spec wording: fold ASCII `A`–`Z` to lowercase. -/
def specLowercase (p : Bytes) : Bytes := p.map foldLower

/-- The claim's canonical form of a path: unified slashes, collapsed runs,
lowercased. Two strings denote the same logical path iff their canonical
forms coincide. -/
def specCanonPath (p : Bytes) : Bytes :=
  specLowercase (specCollapseSlashes (specUnifySlashes p))

/-! ## Reader: index parsing (`ReadIndexFromStream`, `ConstructsItemsFromIndex`) -/

/-- `INT16_MAX` (mount-point length guard). -/
def int16Max : Nat := 32767

/-- `INT32_MAX` (item-name length guard). -/
def int32Max : Nat := 2147483647

/-- Outcome of `ReadIndexFromStream` on one index block, including the side
effects on the owning member array and `_mountPoint`:
* `mount`: `some mp` once `_mountPoint` has been assigned (root block only);
* `items`: contents of the owning array after the call (`[]` when the array
  was never allocated, default-padded when an assert fired mid-loop);
* `next`: `some pos` after the full block was read (a non-null C++ return);
  `none` models a `DEATH_ASSERT`/short-read `nullptr` return. -/
structure BlockOut where
  mount : Option Bytes
  items : List Item
  next : Option Nat

/-- Parse an item's name: 8 raw bytes in flat mode; varint length + bytes in
tree mode, with the `nameLength == 0 || nameLength < INT32_MAX` guard. -/
def readItemName (useHash : Bool) (b : Bytes) (p1 : Nat) : Option (Bytes × Nat) :=
  if useHash then
    match readBytesAt b p1 hashIndexLength with
    | none => none
    | some bs => some (bs, p1 + hashIndexLength)
  else
    match readVarAt b p1 with
    | none => none
    | some (nameLength, p) =>
      if nameLength == 0 || nameLength < int32Max then
        match readBytesAt b p nameLength with
        | none => none
        | some bs => some (bs, p + nameLength)
      else none

/-- Parse an item's sizes: nothing for directories (fields stay 0); a varint
uncompressed size and — when a compression flag is set — a varint compressed
size otherwise. -/
def readItemSizes (flags : Nat) (b : Bytes) (p3 : Nat) : Option (Nat × Nat × Nat) :=
  if isDirFlag flags then some (0, 0, p3)
  else
    match readVarAt b p3 with
    | none => none
    | some (uncompressedSize, p4) =>
      if hasCompressedSize flags then
        match readVarAt b p4 with
        | none => none
        | some (size, p5) => some (uncompressedSize, size, p5)
      else some (uncompressedSize, 0, p4)

/-- Parse one item descriptor (the body of the `for` loop of
`ReadIndexFromStream`): flags (varint); name; offset (varint); sizes. -/
def readItemAt (useHash : Bool) (b : Bytes) (pos : Nat) : Option (Item × Nat) := do
  let (flags, p1) ← readVarAt b pos
  let (name, p2) ← readItemName useHash b p1
  let (offset, p3) ← readVarAt b p2
  let (uncompressedSize, size, p4) ← readItemSizes flags b p3
  pure (Item.mk name flags offset uncompressedSize size [], p4)

/-- Parse `count` item descriptors. On failure at item `i` the owning array
keeps the `i` parsed items followed by default-constructed ones
(`Array<Item>(itemCount)` pre-allocates). Returns the stored array and, on
full success, the next position. -/
def readItemsAt (useHash : Bool) (b : Bytes) : Nat → Nat → List Item × Option Nat
  | 0, pos => ([], some pos)
  | count + 1, pos =>
    match readItemAt useHash b pos with
    | none => (List.replicate (count + 1) defaultItem, none)
    | some (it, p') =>
      match readItemsAt useHash b count p' with
      | (rest, next) => (it :: rest, next)

/-- `ReadIndexFromStream`. For the root block (`parentItem == nullptr`) the
mount point is read first (guarded by `mountPointLength < INT16_MAX`; a
trailing path separator is appended when missing — `FileSystem::PathSeparator`
is modelled as `/`). -/
def readIndexFromStream (useHash : Bool) (isRoot : Bool) (b : Bytes) (pos : Nat) :
    BlockOut :=
  let afterMount : Option (Option Bytes × Nat) :=
    if isRoot then
      match readVarAt b pos with
      | none => none
      | some (mountPointLength, p) =>
        if mountPointLength < int16Max then
          match readBytesAt b p mountPointLength with
          | none => none
          | some mp =>
            let mp' := if !mp.isEmpty && !isSep (mp.getLastD 0) then mp ++ [slash] else mp
            some (some mp', p + mountPointLength)
        else none
    else some (none, pos)
  match afterMount with
  | none => ⟨none, [], none⟩
  | some (mount, p) =>
    match readVarAt b p with
    | none => ⟨mount, [], none⟩
    | some (itemCount, p') =>
      let (items, next) := readItemsAt useHash b itemCount p'
      ⟨mount, items, next⟩

/-! `ConstructsItemsFromIndex` recurses on a `depth` counter guarded by
`depth < MaxDepth`. The recursion is represented through the remaining
budget `maxDepth - depth` (a `fuel` that is `0` exactly when the guard
fails), which makes the recursion well-founded; the `depth`-shaped wrapper
`constructsItemsFromIndex` below restores the source signature. -/

/-- Body of `ConstructsItemsFromIndex`, on the remaining depth budget:
guard (`fuel = 0` ⟺ `depth ≥ MaxDepth`: the assert returns, nothing is
populated), read the block, then the `for (auto& item : *items)` loop: each
directory item gets its `ChildItems` populated from the block at its offset,
one nesting level deeper. A `nullptr` from `ReadIndexFromStream` skips the
loop but keeps whatever was stored in the owning array. The deflate-
compressed-index branch is modelled in the configuration without zlib
(`nullptr`). Returns the final contents of the owning array, plus the mount
point for the root call. -/
def constructsAux (useHash deflateCompressed : Bool) (b : Bytes)
    (pos : Nat) (isRoot : Bool) : (fuel : Nat) → List Item × Option Bytes
  | 0 => ([], none)
  | fuel + 1 =>
    if deflateCompressed then ([], none)
    else
      let out := readIndexFromStream useHash isRoot b pos
      match out.next with
      | none => (out.items, out.mount)
      | some _ =>
        (out.items.map (fun it =>
          if isDirFlag it.flags then
            Item.mk it.name it.flags it.offset it.uncompressedSize it.size
              (constructsAux useHash deflateCompressed b it.offset false fuel).1
          else it), out.mount)

/-- `ConstructsItemsFromIndex` with the source's `depth` argument
(`depth < MaxDepth` ⟺ positive remaining budget). -/
def constructsItemsFromIndex (useHash deflateCompressed : Bool) (b : Bytes)
    (pos : Nat) (isRoot : Bool) (depth : Nat) : List Item × Option Bytes :=
  constructsAux useHash deflateCompressed b pos isRoot (maxDepth - depth)

/-! ## Reader: `PakFile` construction and queries -/

/-- The observable state of a constructed `PakFile`: `pathSet` is whether
`_path` was assigned (`IsValid()` returns `!_path.empty()`; the archive path
handed to the constructor is nonempty). -/
structure PakState where
  pathSet : Bool
  useHashIndex : Bool
  mountPoint : Bytes
  rootItems : List Item
  deriving Repr

/-- A `PakFile` on which construction failed before `_path` was assigned. -/
def invalidPak : PakState := ⟨false, false, [], []⟩

/-- The `PakFile(StringView path)` constructor over the archive bytes:
size guard, footer (signature, version, flags, root index offset), then
recursive index materialization. `_path` is assigned *before*
`ConstructsItemsFromIndex` runs. -/
def pakOpen (b : Bytes) : PakState :=
  if b.length ≤ footerSize + 8 then invalidPak
  else
    let pos := b.length - footerSize
    match readBytesAt b pos 4 with
    | none => invalidPak
    | some sig =>
      if sig ≠ signature then invalidPak
      else
        match readLE16At b (pos + 4), readLE16At b (pos + 6), readLE64At b (pos + 8) with
        | some fileVersion, some fileFlags, some rootIndexOffset =>
          if fileVersion ≠ version then invalidPak
          else if ¬ rootIndexOffset < b.length then invalidPak
          else
            let useHash := fileFlags &&& pakFlagHashIndex == pakFlagHashIndex
            let deflate := fileFlags &&& pakFlagDeflateCompressedIndex ==
              pakFlagDeflateCompressedIndex
            let (items, mount) :=
              constructsItemsFromIndex useHash deflate b rootIndexOffset true 0
            ⟨true, useHash, mount.getD [], items⟩
        | _, _, _ => invalidPak

/-- `IsValid()`: `!_path.empty()`. -/
def PakState.isValid (s : PakState) : Bool := s.pathSet

/-- `std::lower_bound` over an items array with a strict comparator `lt`
(its contract: the first element for which `lt el` is false; the arrays the
code searches are sorted by the writer). Followed by the exact-match test. -/
def lowerBoundFind (items : List Item) (lt : Item → Bool) (eq : Item → Bool) :
    Option Item :=
  match items.find? (fun it => ! lt it) with
  | none => none
  | some it => if eq it then some it else none

/-- Result of `FindItem`: `diverged` marks the case in which the C++ `while
(true)` loop never exits (no value is ever returned). -/
inductive FindOutcome where
  | found (it : Item)
  | notFound
  | diverged
  deriving Repr

/-- The tree-mode `while (true)` loop of `FindItem`, with explicit fuel: one
iteration finds the first separator, skips an empty component, otherwise
binary-searches the current array; on a match it either returns (no separator
left) or descends into `ChildItems`. Exhausted fuel means the loop ran
forever (each iteration with a nonempty component consumes path bytes, so
`path.length + 1` fuel decides termination). -/
def findItemLoop (items : List Item) (path : Bytes) : Nat → FindOutcome
  | 0 => .diverged
  | fuel + 1 =>
    let sepIdx := path.findIdx? (fun c => isSep c)
    let name := path.take (sepIdx.getD path.length)
    if name.isEmpty then
      findItemLoop items (path.drop ((sepIdx.getD path.length) + 1)) fuel
    else
      match lowerBoundFind items (fun it => ltBytes it.name name)
          (fun it => it.name == name) with
      | none => .notFound
      | some it =>
        match sepIdx with
        | none => .found it
        | some i => findItemLoop it.children (path.drop (i + 1)) fuel

/-- `FindItem`: trim leading separators; flat mode hashes the whole remaining
path once and binary-searches the root array by the raw 8 hash bytes
(`memcmp` against the `uint64_t`'s little-endian host bytes); tree mode runs
the component loop. -/
def findItem (hash : Bytes → Nat) (s : PakState) (path : Bytes) : FindOutcome :=
  let path := path.dropWhile (fun c => isSep c)
  if s.useHashIndex then
    let hashedPath := le64 (fileNameToHash hash path)
    match lowerBoundFind s.rootItems (fun it => ltBytes it.name hashedPath)
        (fun it => it.name == hashedPath) with
    | none => .notFound
    | some it => .found it
  else
    findItemLoop s.rootItems path (path.length + 1)

/-- `FileExists`: found and not a directory. `none` when `FindItem` diverges
(the real call never returns). -/
def fileExists (hash : Bytes → Nat) (s : PakState) (path : Bytes) : Option Bool :=
  match findItem hash s path with
  | .found it => some (! isDirFlag it.flags)
  | .notFound => some false
  | .diverged => none

/-- `DirectoryExists`: found and a directory. -/
def directoryExists (hash : Bytes → Nat) (s : PakState) (path : Bytes) : Option Bool :=
  match findItem hash s path with
  | .found it => some (isDirFlag it.flags)
  | .notFound => some false
  | .diverged => none

/-- An external compression codec (spec §6: compressing writer wrappers and
decompressing reader wrappers are collaborators outside this component). -/
structure Codec where
  compress : Bytes → Bytes
  decompress : Bytes → Bytes

/-- The codec collaborators for the three supported methods (all modelled as
available, i.e. compiled in). -/
structure Codecs where
  deflate : Codec
  lz4 : Codec
  zstd : Codec

/-- What `OpenFile` yields. `diverged` when the underlying `FindItem` loops
forever. `opened length content`: a stream whose `GetSize()` is `length` and
whose byte sequence reads as `content`. -/
inductive OpenResult where
  | diverged
  | failed
  | opened (length : Nat) (content : Bytes)
  deriving Repr, DecidableEq

/-- The byte range `[off, off + len)` of an archive file (the view a
`BoundedFileStream` reads). -/
def sliceBytes (b : Bytes) (off len : Nat) : Bytes := (b.drop off).take len

/-- `OpenFile` over the archive bytes `b` (the file `_path` refers to):
reject empty paths and paths ending in a separator; reject missing items and
directories; dispatch on the compression flag — compressed content is a
`CompressedBoundedStream` over `[Offset, Offset+Size)` exposing
`UncompressedSize` as its length and inflating on read; uncompressed content
is a `BoundedFileStream` over `[Offset, Offset+UncompressedSize)`. -/
def openFile (hash : Bytes → Nat) (codecs : Codecs) (b : Bytes) (s : PakState)
    (path : Bytes) : OpenResult :=
  if path.isEmpty || isSep (path.getLastD 0) then .failed
  else
    match findItem hash s path with
    | .diverged => .diverged
    | .notFound => .failed
    | .found it =>
      if isDirFlag it.flags then .failed
      else if it.flags &&& flagDeflateCompressed == flagDeflateCompressed then
        .opened it.uncompressedSize
          (codecs.deflate.decompress (sliceBytes b it.offset it.size))
      else if it.flags &&& flagLz4Compressed == flagLz4Compressed then
        .opened it.uncompressedSize
          (codecs.lz4.decompress (sliceBytes b it.offset it.size))
      else if it.flags &&& flagZstdCompressed == flagZstdCompressed then
        .opened it.uncompressedSize
          (codecs.zstd.decompress (sliceBytes b it.offset it.size))
      else
        .opened it.uncompressedSize (sliceBytes b it.offset it.uncompressedSize)

/-! ## Reader: directory enumeration (`PakFile::Directory::Impl`) -/

/-- `FileSystem::EnumerationOptions` filters. -/
structure EnumerationOptions where
  skipDirectories : Bool := false
  skipFiles : Bool := false

/-- `Directory::Impl::Open` + repeated `Increment()`: the sequence of child
names the cursor yields. Hash-index mode cannot enumerate and yields nothing
immediately; otherwise the cursor walks the root array (empty path) or a
found directory's `ChildItems`, filtered by the skip options. (Name
truncation to `MaxPathLength` and the directory-prefix copied in front of
each name are not modelled; the claims concern only which entries appear.)
`none` when the underlying `FindItem` diverges. -/
def dirEnumerate (hash : Bytes → Nat) (s : PakState) (path : Bytes)
    (options : EnumerationOptions) : Option (List Bytes) :=
  if s.useHashIndex then some []
  else
    let childItems? : Option (Option (List Item)) :=
      if path.isEmpty then some (some s.rootItems)
      else
        match findItem hash s path with
        | .diverged => none
        | .notFound => some none
        | .found it => some (some it.children)
    match childItems? with
    | none => none
    | some none => some []
    | some (some childItems) =>
      some ((childItems.filter (fun it =>
        ! ((options.skipDirectories && isDirFlag it.flags) ||
           (options.skipFiles && ! isDirFlag it.flags)))).map Item.name)

/-! ## Writer: `PakWriter` -/

/-- `PakPreferredCompression` (declared in `PakFile.h`; modelled from the
spec §4.6 / §2: none, Deflate, LZ4, Zstd). -/
inductive PakPreferredCompression where
  | none
  | deflate
  | lz4
  | zstd
  deriving Repr, DecidableEq

/-- The writer's in-memory state. `output` is the byte content of the output
stream (`GetPosition()` = its length; the constructor wrote the 8-byte
optional header first). -/
structure PakWriter where
  output : Bytes
  rootItems : List Item
  mountPoint : Bytes
  useHashIndex : Bool
  useCompressedIndex : Bool
  finalized : Bool
  alreadyExisted : Bool
  deriving Repr

/-- `PakWriter(path, useHashIndex, useCompressedIndex)`. -/
def pakWriterNew (useHashIndex useCompressedIndex alreadyExisted : Bool) : PakWriter :=
  ⟨optionalHeader, [], [], useHashIndex, useCompressedIndex, false, alreadyExisted⟩

/-- `SetMountPoint`. -/
def setMountPoint (w : PakWriter) (mp : Bytes) : PakWriter :=
  { w with mountPoint := mp }

/-- Split a path at its separators, the way `FindOrCreateParentItem`'s loop
does with `findAny`: every (possibly empty) text before a separator becomes a
directory name — empty components are *not* skipped here — and the text after
the last separator is what remains of `path` when the loop exits. (One-pass
formulation: a separator starts a new empty component in front; a non-
separator byte is prepended to the first component, or to the leaf when no
separator follows.) -/
def splitSep : Bytes → List Bytes × Bytes
  | [] => ([], [])
  | c :: cs =>
    if isSep c then ([] :: (splitSep cs).1, (splitSep cs).2)
    else
      match splitSep cs with
      | ([], leaf) => ([], c :: leaf)
      | (d :: ds, leaf) => ((c :: d) :: ds, leaf)

/-- How one `AddFile` call ends. The C++ function collapses this to `bool`
(`added` ↦ `true`); the distinct failure exits are kept apart so that each
`DEATH_ASSERT` return can be named. -/
inductive AddResult where
  | invalidPath   -- empty path or trailing separator
  | duplicate     -- "File already exists in the .pak file"
  | copyFailed    -- `uncompressedSize > 0` assert
  | tooBig        -- `< UINT32_MAX` assert
  | added
  deriving Repr, DecidableEq

/-- The combined effect of `FindOrCreateParentItem` and the remainder of
`AddFile` on the item tree: walk `dirs`, reusing the first item whose `Name`
matches the component (no directory-flag check!) or appending a fresh
directory `Item`; at the owning array, fail with `duplicate` if any item's
`Name` equals `dupKey`; otherwise append `file` — but only when `ok` (the
content-copy and size asserts, which fire after the walk yet before the
append). Returns the updated array and the outcome. -/
def addFileTree (dupKey : Bytes) (file : Item) (ok : AddResult) :
    List Item → List Bytes → List Item × AddResult
  | items, [] =>
    if items.any (fun it => it.name == dupKey) then (items, .duplicate)
    else if ok = .added then (items ++ [file], .added)
    else (items, ok)
  | items, d :: ds =>
    match h : items.findIdx? (fun it => it.name == d) with
    | some i =>
      let foundItem := items.getD i defaultItem
      let (children', r) := addFileTree dupKey file ok foundItem.children ds
      (items.set i (Item.mk foundItem.name foundItem.flags foundItem.offset
        foundItem.uncompressedSize foundItem.size children'), r)
    | none =>
      let (children', r) := addFileTree dupKey file ok [] ds
      (items ++ [Item.mk d flagDirectory 0 0 0 children'], r)

/-- The bytes `AddFile` sends to the output stream for the given content and
preferred compression, together with the `ItemFlags` it sets and the
`uncompressedSize`/`size` pair it measures (`size = 0` for uncompressed
content; for compressed content it is the output-position delta, i.e. the
compressed byte count). -/
def addFilePayload (codecs : Codecs) (content : Bytes)
    (pc : PakPreferredCompression) : Bytes × Nat × Nat × Nat :=
  match pc with
  | .deflate =>
    let stored := codecs.deflate.compress content
    (stored, flagDeflateCompressed, content.length, stored.length)
  | .lz4 =>
    let stored := codecs.lz4.compress content
    (stored, flagLz4Compressed, content.length, stored.length)
  | .zstd =>
    let stored := codecs.zstd.compress content
    (stored, flagZstdCompressed, content.length, stored.length)
  | .none => (content, 0, content.length, 0)

/-- `UINT32_MAX`. -/
def uint32Max : Nat := 4294967295

/-- `AddFile(stream, path, preferredCompression)`. Order of effects, as in
the source: path-shape assert; `FindOrCreateParentItem` (tree mode only; may
create directory items; also trims leading separators from `path` through the
by-reference parameter); duplicate check against the owning array
(`item.Name == path`, i.e. against the remaining leaf in tree mode and the
raw path in flat mode); content copy to the output (even when a later assert
fails); `uncompressedSize > 0` and `< UINT32_MAX` asserts; append of the new
item (`Name` = leaf in tree mode, raw little-endian hash bytes in flat
mode). -/
def addFile (hash : Bytes → Nat) (codecs : Codecs) (w : PakWriter)
    (content : Bytes) (path : Bytes) (pc : PakPreferredCompression) :
    PakWriter × AddResult :=
  if path.isEmpty || isSep (path.getLastD 0) then (w, .invalidPath)
  else
    let (stored, flags, uncompressedSize, size) := addFilePayload codecs content pc
    let ok : AddResult :=
      if uncompressedSize = 0 then .copyFailed
      else if uncompressedSize ≥ uint32Max ∨ size ≥ uint32Max then .tooBig
      else .added
    let offset := w.output.length
    if w.useHashIndex then
      let file := Item.mk (le64 (fileNameToHash hash path)) flags offset
        uncompressedSize size []
      let (items', r) := addFileTree path file ok w.rootItems []
      ({ w with rootItems := items',
                output := if r = .duplicate then w.output else w.output ++ stored }, r)
    else
      let trimmed := path.dropWhile (fun c => isSep c)
      let (dirs, leaf) := splitSep trimmed
      let file := Item.mk leaf flags offset uncompressedSize size []
      let (items', r) := addFileTree leaf file ok w.rootItems dirs
      ({ w with rootItems := items',
                output := if r = .duplicate then w.output else w.output ++ stored }, r)

/-- The `bool` the C++ `AddFile` actually returns. -/
def addFileB (hash : Bytes → Nat) (codecs : Codecs) (w : PakWriter)
    (content : Bytes) (path : Bytes) (pc : PakPreferredCompression) :
    PakWriter × Bool :=
  let (w', r) := addFile hash codecs w content path pc
  (w', r = .added)

/-! ## Writer: `Finalize`

`Finalize` collects every directory item reachable from the root into a
worklist in breadth-first discovery order, then processes the worklist in
reverse: assign the directory's `Offset` (the current output position), sort
its `ChildItems` by name, serialize the child descriptor array. Then the
sorted root block (mount point + items) is written, and the 16-byte footer.

Addresses (index paths from the root array) identify worklist entries; the
breadth-first queue is the concatenation of the per-depth levels of directory
addresses, each level listing addresses in the discovery order of its
parents. Reverse-queue processing only ever sorts arrays strictly below the
addresses that remain, so the remaining addresses stay valid. -/

/-- The item at an address (a nonempty list of indices from the root array). -/
def getItemAt (items : List Item) : List Nat → Option Item
  | [] => none
  | [i] => items.get? i
  | i :: addr =>
    match items.get? i with
    | none => none
    | some it => getItemAt it.children addr

/-- Replace the item at an address. -/
def setItemAt (items : List Item) : List Nat → Item → List Item
  | [], _ => items
  | [i], new => items.set i new
  | i :: addr, new =>
    match items.get? i with
    | none => items
    | some it =>
      items.set i (Item.mk it.name it.flags it.offset it.uncompressedSize it.size
        (setItemAt it.children addr new))

mutual

/-- A size measure of an item (computable, used as a worklist-depth bound). -/
def itemSize : Item → Nat
  | .mk _ _ _ _ _ c => 1 + itemsSize c

/-- A size measure of an item forest. -/
def itemsSize : List Item → Nat
  | [] => 1
  | it :: rest => 1 + itemSize it + itemsSize rest

end

/-- Indices of the directory items of a sibling array, in order. -/
def dirIdxs (items : List Item) : List Nat :=
  (List.range items.length).filter (fun i => isDirFlag ((items.getD i defaultItem).flags))

/-- Addresses of the directory children of the item at address `a`. -/
def dirChildAddrs (tree : List Item) (a : List Nat) : List (List Nat) :=
  match getItemAt tree a with
  | none => []
  | some it => (dirIdxs it.children).map (fun i => a ++ [i])

/-- The breadth-first worklist of `Finalize`, level by level: `frontier` is
one level of directory addresses (in discovery order); the next level is the
concatenation of every frontier directory's directory-children addresses —
exactly the order in which the C++ loop appends to `queuedDirectories` while
scanning it. `fuel` bounds the number of levels; levels are no deeper than
the tree size, so callers pass `sizeOf tree`. -/
def bfsAux (tree : List Item) : Nat → List (List Nat) → List (List Nat)
  | 0, _ => []
  | fuel + 1, frontier =>
    if frontier.isEmpty then []
    else frontier ++ bfsAux tree fuel (frontier.flatMap (dirChildAddrs tree))

/-- The breadth-first worklist `queuedDirectories` of `Finalize`: all
directory addresses, grouped by depth, in discovery order. -/
def dirQueue (items : List Item) : List (List Nat) :=
  bfsAux items (itemsSize items) ((dirIdxs items).map (fun i => [i]))

/-- `hasFiles` of `Finalize`: a non-directory item at the root, or among the
children of any queued directory. -/
def hasFilesB (items : List Item) : Bool :=
  items.any (fun it => ! isDirFlag it.flags) ||
  (dirQueue items).any (fun addr =>
    match getItemAt items addr with
    | some it => it.children.any (fun c => ! isDirFlag c.flags)
    | none => false)

/-- `WriteItemDescription`: flags (varint); name (8 raw bytes in flat mode,
varint length + bytes in tree mode); offset (varint); for non-directories the
uncompressed size (varint) and, when a compression flag is set, the
compressed size (varint). -/
def writeItemDescription (useHash : Bool) (it : Item) : Bytes :=
  writeVarNat it.flags ++
  (if useHash then it.name else writeVarNat it.name.length ++ it.name) ++
  writeVarNat it.offset ++
  (if isDirFlag it.flags then []
   else writeVarNat it.uncompressedSize ++
     (if hasCompressedSize it.flags then writeVarNat it.size else []))

/-- A directory index block: item count (varint) + item descriptors. -/
def writeDirBlock (useHash : Bool) (children : List Item) : Bytes :=
  writeVarNat children.length ++ children.flatMap (writeItemDescription useHash)

/-- The root index block: mount-point length + bytes, then the item array. -/
def writeRootBlock (useHash : Bool) (mountPoint : Bytes) (items : List Item) :
    Bytes :=
  writeVarNat mountPoint.length ++ mountPoint ++
  writeVarNat items.length ++ items.flatMap (writeItemDescription useHash)

/-- `std::sort(…, [](a, b) { return a.Name < b.Name; })`, modelled as
insertion sort on the non-strict order `leBytes` (ties — possible only for
equal flat-index hash names — are placed in an unspecified order by
`std::sort`; the model fixes one). -/
def sortByName (items : List Item) : List Item :=
  items.insertionSort (fun a b => leBytes a.name b.name)

/-- One step of the reverse worklist loop of `Finalize`: for the directory at
`addr`, record the current output position as its `Offset`, sort its
`ChildItems`, and append the serialized child block. -/
def finalizeStep (useHash : Bool) (st : List Item × Bytes) (addr : List Nat) :
    List Item × Bytes :=
  let (tree, out) := st
  match getItemAt tree addr with
  | none => st
  | some it =>
    let sorted := sortByName it.children
    let tree' := setItemAt tree addr
      (Item.mk it.name it.flags out.length it.uncompressedSize it.size sorted)
    (tree', out ++ writeDirBlock useHash sorted)

/-- The 16-byte footer: signature, version, flags, root index offset. -/
def writeFooter (useHash useCompressedIndex : Bool) (rootIndexOffset : Nat) :
    Bytes :=
  signature ++ le16 version ++
  le16 ((if useHash then pakFlagHashIndex else 0) |||
        (if useCompressedIndex then pakFlagDeflateCompressedIndex else 0)) ++
  le64 rootIndexOffset

/-- `Finalize()`. Returns the final content of the output file, or `none`
when it was deleted (nothing was added and the file did not pre-exist).
When nothing was added but the file pre-existed, or when the mount-point
assert fires, the partially written output is left behind. The claims use
`useCompressedIndex = false`; with it set, each block would pass through a
`DeflateWriter` (zlib collaborator), which the model scopes out. -/
def finalize (w : PakWriter) : Option Bytes :=
  let queue := dirQueue w.rootItems
  if ¬ hasFilesB w.rootItems then
    if w.alreadyExisted then some w.output else none
  else
    let (tree, out) := queue.reverse.foldl (finalizeStep w.useHashIndex)
      (w.rootItems, w.output)
    let rootIndexOffset := out.length
    if w.mountPoint.length ≥ int16Max then some out
    else
      let sortedRoot := sortByName tree
      some (out ++ writeRootBlock w.useHashIndex w.mountPoint sortedRoot ++
        writeFooter w.useHashIndex w.useCompressedIndex rootIndexOffset)

/-! ## C7: path-hash invariance -/

theorem foldLower_slash : foldLower slash = slash := by decide

theorem normalizeAux_cons (c : Nat) (cs : Bytes) (b : Bool) :
    normalizeAux (c :: cs) b =
      (if (if c == backslash then slash else c) == slash then
        (if b then normalizeAux cs true
         else foldLower slash :: normalizeAux cs true)
       else foldLower (if c == backslash then slash else c) ::
         normalizeAux cs false) := by
  by_cases h : (if c == backslash then slash else c) == slash <;>
    cases b <;> simp only [normalizeAux, h, if_true, if_false, ite_true, ite_false]

theorem specUnifySlashes_cons (c : Nat) (cs : Bytes) :
    specUnifySlashes (c :: cs) =
      (if c == backslash then slash else c) :: specUnifySlashes cs := rfl

/-- The source's one-pass normalization loop equals the claim's
unify-collapse-lowercase composition, in both slash states. -/
theorem normalizeAux_eq_spec (p : Bytes) :
    normalizeAux p false =
      (specCollapseSlashes (specUnifySlashes p)).map foldLower ∧
    normalizeAux p true =
      (specCollapseSlashes ((specUnifySlashes p).dropWhile (· == slash))).map
        foldLower := by
  induction p with
  | nil => constructor <;> simp [normalizeAux, specUnifySlashes, specCollapseSlashes]
  | cons c cs ih =>
    rw [normalizeAux_cons, normalizeAux_cons, specUnifySlashes_cons]
    set u := if c == backslash then slash else c with hu
    by_cases hc : u = slash
    · have hcb : (u == slash) = true := by simp [hc]
      rw [hcb]
      rw [show specCollapseSlashes (u :: specUnifySlashes cs)
          = slash :: specCollapseSlashes ((specUnifySlashes cs).dropWhile (· == slash))
          by rw [specCollapseSlashes]; simp [hcb, hc]]
      rw [show (u :: specUnifySlashes cs).dropWhile (· == slash)
          = (specUnifySlashes cs).dropWhile (· == slash) by
            simp [List.dropWhile, hcb]]
      refine ⟨?_, ?_⟩ <;> simp [foldLower_slash, ih.2]
    · have hcb : (u == slash) = false := by simp [hc]
      rw [hcb]
      rw [show specCollapseSlashes (u :: specUnifySlashes cs)
          = u :: specCollapseSlashes (specUnifySlashes cs) by
            rw [specCollapseSlashes]; simp [hcb]]
      rw [show (u :: specUnifySlashes cs).dropWhile (· == slash)
          = u :: specUnifySlashes cs by simp [List.dropWhile, hcb]]
      rw [show specCollapseSlashes (u :: specUnifySlashes cs)
          = u :: specCollapseSlashes (specUnifySlashes cs) by
            rw [specCollapseSlashes]; simp [hcb]]
      refine ⟨?_, ?_⟩ <;> simp [ih.1]

/-- The normalized buffer hashed by `FileNameToHash` is the claim's canonical
form of the path (with case folded after collapsing — the two commute since
folding never produces or consumes a separator). -/
theorem normalizePath_eq_canon (p : Bytes) : normalizePath p = specCanonPath p := by
  have := (normalizeAux_eq_spec p).1
  simpa [normalizePath, specCanonPath, specLowercase] using this

/-- C7 — Path-hash invariance: two path strings that denote the same logical
path — differing only in slash style (`\` vs `/`), in runs of consecutive
separators, or in ASCII letter case — receive the same hash from
`FileNameToHash`, whatever the (external) 64-bit hash function is. -/
theorem C7_path_hash_invariance (hash : Bytes → Nat) (p q : Bytes)
    (h : specCanonPath p = specCanonPath q) :
    fileNameToHash hash p = fileNameToHash hash q := by
  unfold fileNameToHash
  rw [normalizePath_eq_canon, normalizePath_eq_canon, h]

/-- Witness for C7: `"Textures\\Hero.PNG"` and `"textures//hero.png"` denote
the same logical path and hash identically (for a concrete sample hash). -/
theorem C7_path_hash_invariance_witness :
    specCanonPath [84, 101, 120, 116, 117, 114, 101, 115, 92, 72, 101, 114, 111,
        46, 80, 78, 71] =
      specCanonPath [116, 101, 120, 116, 117, 114, 101, 115, 47, 47, 104, 101,
        114, 111, 46, 112, 110, 103] ∧
    fileNameToHash (fun l => l.foldl (fun a c => a * 257 + c + 1) 7)
        [84, 101, 120, 116, 117, 114, 101, 115, 92, 72, 101, 114, 111, 46, 80,
         78, 71] =
      fileNameToHash (fun l => l.foldl (fun a c => a * 257 + c + 1) 7)
        [116, 101, 120, 116, 117, 114, 101, 115, 47, 47, 104, 101, 114, 111, 46,
         112, 110, 103] :=
  ⟨by rw [← normalizePath_eq_canon, ← normalizePath_eq_canon]; decide,
   C7_path_hash_invariance _ _ _
     (by rw [← normalizePath_eq_canon, ← normalizePath_eq_canon]; decide)⟩

/-! ## Sample collaborators for concrete instances

Used only to instantiate the external-collaborator parameters (hash, codecs)
at concrete inputs in witnesses and counterexamples whose truth does not
depend on the collaborator's choice. -/

/-- A concrete stand-in for the external 64-bit hash. -/
def sampleHash (l : Bytes) : Nat := l.foldl (fun a c => a * 257 + c + 1) 7

/-- The identity codec (a codec whose `decompress ∘ compress = id`). -/
def idCodec : Codec := ⟨id, id⟩

/-- Identity codecs for all three methods. -/
def idCodecs : Codecs := ⟨idCodec, idCodec, idCodec⟩

/-! ## `AddFile` outcome characterization -/

/-- Whether the duplicate check of `AddFile` fires: walk the existing
directory chain along `dirs` (first match by name, as
`FindOrCreateParentItem` does) and test whether any item of the owning array
has name `dupKey`. A component without a match means the parent is freshly
created, so no duplicate is possible below it. -/
def dupInTree (items : List Item) : List Bytes → Bytes → Bool
  | [], dupKey => items.any (fun it => it.name == dupKey)
  | d :: ds, dupKey =>
    match items.findIdx? (fun it => it.name == d) with
    | some i => dupInTree (items.getD i defaultItem).children ds dupKey
    | none => false

/-- The duplicate condition of one `AddFile` call on writer state `w`. -/
def duplicateCheck (w : PakWriter) (path : Bytes) : Bool :=
  if w.useHashIndex then w.rootItems.any (fun it => it.name == path)
  else
    let trimmed := path.dropWhile (fun c => isSep c)
    let (dirs, leaf) := splitSep trimmed
    dupInTree w.rootItems dirs leaf

theorem dupInTree_nil (dirs : List Bytes) (dupKey : Bytes) :
    dupInTree [] dirs dupKey = false := by
  cases dirs <;> rfl

theorem addFileTree_snd (dupKey : Bytes) (file : Item) (ok : AddResult)
    (items : List Item) (dirs : List Bytes) :
    (addFileTree dupKey file ok items dirs).2 =
      if dupInTree items dirs dupKey then .duplicate
      else if ok = .added then .added else ok := by
  induction dirs generalizing items with
  | nil =>
    rw [addFileTree, dupInTree]
    split
    · rfl
    · split <;> rfl
  | cons d ds ih =>
    rw [addFileTree, dupInTree]
    cases h : items.findIdx? (fun it => it.name == d) with
    | none => simp [ih, dupInTree_nil]
    | some i => simp [ih]

/-- `if ok = added then added else ok = ok` for every `AddResult`. -/
theorem addResult_if_added (ok : AddResult) :
    (if ok = .added then AddResult.added else ok) = ok := by
  cases ok <;> simp

/-- The uncompressed size measured by `AddFile` is the content's length,
for every compression choice. -/
theorem addFilePayload_uncompressed (codecs : Codecs) (content : Bytes)
    (pc : PakPreferredCompression) :
    (addFilePayload codecs content pc).2.2.1 = content.length := by
  cases pc <;> rfl

/-- The compressed byte count `AddFile` measures (`0` for uncompressed). -/
def compressedSize (codecs : Codecs) (content : Bytes)
    (pc : PakPreferredCompression) : Nat :=
  (addFilePayload codecs content pc).2.2.2

/-- The outcome of `AddFile` as a decision sequence: path shape, duplicate
check, the `uncompressedSize > 0` assert, the `< UINT32_MAX` size asserts. -/
theorem addFile_snd (hash : Bytes → Nat) (codecs : Codecs) (w : PakWriter)
    (content : Bytes) (path : Bytes) (pc : PakPreferredCompression) :
    (addFile hash codecs w content path pc).2 =
      if path.isEmpty || isSep (path.getLastD 0) then .invalidPath
      else if duplicateCheck w path then .duplicate
      else if content.length = 0 then .copyFailed
      else if uint32Max ≤ content.length ∨
        uint32Max ≤ compressedSize codecs content pc then .tooBig
      else .added := by
  rw [addFile, duplicateCheck]
  split
  · rfl
  · rcases hp : addFilePayload codecs content pc with ⟨stored, flags, us, sz⟩
    have hus : us = content.length := by
      have := addFilePayload_uncompressed codecs content pc
      rw [hp] at this
      exact this
    have hsz : sz = compressedSize codecs content pc := by
      rw [compressedSize, hp]
    by_cases huh : w.useHashIndex
    · simp only [huh, if_true, hp, addFileTree_snd, dupInTree, hus, hsz]
      split
      · rfl
      · split
        · simp_all [addResult_if_added]
        · split <;> simp_all [addResult_if_added]
    · simp only [huh, if_false, Bool.false_eq_true, hp, addFileTree_snd, hus, hsz]
      rcases hsp : splitSep (path.dropWhile (fun c => isSep c)) with ⟨dirs, leaf⟩
      simp only
      split
      · rfl
      · split
        · simp_all [addResult_if_added]
        · split <;> simp_all [addResult_if_added]

theorem addFileB_snd (hash : Bytes → Nat) (codecs : Codecs) (w : PakWriter)
    (content path : Bytes) (pc : PakPreferredCompression) :
    (addFileB hash codecs w content path pc).2 =
      decide ((addFile hash codecs w content path pc).2 = .added) := by
  rcases h : addFile hash codecs w content path pc with ⟨w', r⟩
  simp [addFileB, h]

/-! ## C4: size limit -/

/-- C4 (amended) — Size limit: `AddFile` is rejected on size grounds (the
`"File size in .pak file exceeded the allowed range"` assert) exactly when
the uncompressed or the compressed byte count reaches `UINT32_MAX = 2^32 − 1`
(not `2^32`: the code checks `< UINT32_MAX`), for content that got past the
path, duplicate and empty-copy checks; in particular a successfully added
item always satisfies `UncompressedSize < 2^32 − 1` and `Size < 2^32 − 1`. -/
theorem C4_size_limit_amended (hash : Bytes → Nat) (codecs : Codecs)
    (w : PakWriter) (content path : Bytes) (pc : PakPreferredCompression) :
    ((addFile hash codecs w content path pc).2 = .tooBig ↔
      ¬ (path.isEmpty || isSep (path.getLastD 0)) = true ∧
      duplicateCheck w path = false ∧
      content.length ≠ 0 ∧
      (uint32Max ≤ content.length ∨
        uint32Max ≤ compressedSize codecs content pc)) ∧
    ((addFile hash codecs w content path pc).2 = .added →
      content.length < uint32Max ∧
      compressedSize codecs content pc < uint32Max) := by
  have hc := addFile_snd hash codecs w content path pc
  refine ⟨⟨fun h => ?_, fun h => ?_⟩, fun h => ?_⟩
  · rw [hc] at h
    split at h
    · exact absurd h (by simp)
    · split at h
      · exact absurd h (by simp)
      · split at h
        · exact absurd h (by simp)
        · split at h
          · next h1 h2 h3 h4 => exact ⟨h1, by simpa using h2, h3, h4⟩
          · exact absurd h (by simp)
  · obtain ⟨h1, h2, h3, h4⟩ := h
    rw [hc, if_neg h1, if_neg (by simp [h2]), if_neg h3, if_pos h4]
  · rw [hc] at h
    split at h
    · exact absurd h (by simp)
    · split at h
      · exact absurd h (by simp)
      · split at h
        · exact absurd h (by simp)
        · split at h
          · exact absurd h (by simp)
          · next h4 =>
            rw [not_or] at h4
            omega

/-- Counterexample for C4 as stated: content of exactly `2^32 − 1` bytes has
both its uncompressed size (`2^32 − 1`) and its compressed byte count (`0`,
stored uncompressed) strictly below `2^32`, yet `AddFile` fails — the code
rejects at `UINT32_MAX = 2^32 − 1` already. -/
theorem C4_size_limit_counterexample :
    (addFileB sampleHash idCodecs (pakWriterNew false false false)
        (List.replicate uint32Max 0) [97] .none).2 = false ∧
    (List.replicate uint32Max (0 : Nat)).length < 2 ^ 32 ∧
    compressedSize idCodecs (List.replicate uint32Max 0) .none < 2 ^ 32 := by
  have hlen : (List.replicate uint32Max (0 : Nat)).length = uint32Max :=
    List.length_replicate _ _
  have hcs : compressedSize idCodecs (List.replicate uint32Max 0) .none = 0 := rfl
  refine ⟨?_, by rw [hlen]; decide, by rw [hcs]; decide⟩
  have h1 : ¬ ((([97] : Bytes).isEmpty || isSep (([97] : Bytes).getLastD 0)) = true) := by
    decide
  have h2 : ¬ (duplicateCheck (pakWriterNew false false false) [97] = true) := by
    intro hcontra
    rw [duplicateCheck] at hcontra
    revert hcontra
    rcases hsp : splitSep (([97] : Bytes).dropWhile (fun c => isSep c)) with ⟨dirs, leaf⟩
    simp [pakWriterNew, hsp, dupInTree_nil]
  rw [addFileB_snd, addFile_snd, hlen, hcs, if_neg h1, if_neg h2,
    if_neg (by decide : ¬ (uint32Max = 0)), if_pos (Or.inl (le_refl uint32Max))]
  rfl

/-- Witness for the amended C4 at a concrete input: a 2-byte uncompressed add
is accepted, and the theorem then yields its size bounds. -/
theorem C4_size_limit_amended_witness :
    (addFile sampleHash idCodecs (pakWriterNew false false false) [1, 2] [97]
        .none).2 = .added ∧
    ([1, 2] : Bytes).length < uint32Max ∧
    compressedSize idCodecs [1, 2] .none < uint32Max := by
  have h2 : ¬ (duplicateCheck (pakWriterNew false false false) [97] = true) := by
    intro hcontra
    rw [duplicateCheck] at hcontra
    revert hcontra
    rcases hsp : splitSep (([97] : Bytes).dropWhile (fun c => isSep c)) with ⟨dirs, leaf⟩
    simp [pakWriterNew, hsp, dupInTree_nil]
  have hadded : (addFile sampleHash idCodecs (pakWriterNew false false false)
      [1, 2] [97] .none).2 = .added := by
    rw [addFile_snd,
      if_neg (by decide : ¬ ((([97] : Bytes).isEmpty ||
        isSep (([97] : Bytes).getLastD 0)) = true)),
      if_neg h2, if_neg (by decide : ¬ (([1, 2] : Bytes).length = 0)),
      if_neg (by decide : ¬ (uint32Max ≤ ([1, 2] : Bytes).length ∨
        uint32Max ≤ compressedSize idCodecs [1, 2] .none))]
  exact ⟨hadded,
    (C4_size_limit_amended sampleHash idCodecs (pakWriterNew false false false)
      [1, 2] [97] .none).2 hadded⟩

/-! ## C10: zero-length content -/

/-- All file (non-directory) items reachable through directory items, in
order. Children attached below a non-directory item are not reachable in the
archive (its `ChildItems` are never serialized). -/
def listFiles : List Item → List Item
  | [] => []
  | it :: rest =>
    (if isDirFlag it.flags then listFiles it.children else [it]) ++ listFiles rest
  termination_by items => sizeOf items
  decreasing_by
    · cases it with
      | mk n f o u s c =>
        simp only [Item.children, Item.mk.sizeOf_spec, List.cons.sizeOf_spec]
        omega
    · simp only [List.cons.sizeOf_spec]
      omega

theorem listFiles_append (a b : List Item) :
    listFiles (a ++ b) = listFiles a ++ listFiles b := by
  induction a with
  | nil => simp [listFiles]
  | cons it rest ih => rw [List.cons_append, listFiles, listFiles, ih, List.append_assoc]

/-- An item with its (for files: unreachable) `ChildItems` erased; used to
compare file records independently of the anomalous children a non-directory
parent can accumulate. -/
def shallowItem (it : Item) : Item :=
  Item.mk it.name it.flags it.offset it.uncompressedSize it.size []

/-- The shallow file records contributed by one item. -/
def fileRecords (it : Item) : List Item :=
  if isDirFlag it.flags then (listFiles it.children).map shallowItem
  else [shallowItem it]

theorem listFiles_cons (it : Item) (rest : List Item) :
    listFiles (it :: rest) =
      (if isDirFlag it.flags then listFiles it.children else [it]) ++
        listFiles rest := by
  rw [listFiles]

theorem map_shallow_listFiles_cons (it : Item) (rest : List Item) :
    (listFiles (it :: rest)).map shallowItem =
      fileRecords it ++ (listFiles rest).map shallowItem := by
  rw [listFiles_cons, List.map_append, fileRecords]
  split <;> simp

/-- A failed `addFileTree` leaves the reachable file records unchanged:
freshly created directory chains carry no files, and a found item is replaced
by one with the same shallow fields and file-record-equal children. -/
theorem listFiles_addFileTree (dupKey : Bytes) (file : Item) (ok : AddResult)
    (hok : ok ≠ .added) (items : List Item) (dirs : List Bytes) :
    (listFiles (addFileTree dupKey file ok items dirs).1).map shallowItem =
      (listFiles items).map shallowItem := by
  induction dirs generalizing items with
  | nil =>
    rw [addFileTree]
    split <;> rfl
  | cons d ds ih =>
    rw [addFileTree]
    cases h : items.findIdx? (fun it => it.name == d) with
    | none =>
      simp only
      rw [listFiles_append, List.map_append, map_shallow_listFiles_cons]
      have hdir : isDirFlag flagDirectory = true := by decide
      rw [show fileRecords (Item.mk d flagDirectory 0 0 0
            (addFileTree dupKey file ok [] ds).1) =
          (listFiles (addFileTree dupKey file ok [] ds).1).map shallowItem by
            rw [fileRecords]
            simp [hdir]]
      rw [ih []]
      simp [listFiles]
    | some i =>
      simp only
      have hi : i < items.length := (List.findIdx?_eq_some_iff_findIdx_eq.mp h).1
      set found := items.getD i defaultItem with hfound
      set newIt := Item.mk found.name found.flags found.offset
        found.uncompressedSize found.size
        (addFileTree dupKey file ok found.children ds).1 with hnew
      have hset : items.set i newIt = items.take i ++ newIt :: items.drop (i + 1) :=
        List.set_eq_take_cons_drop _ hi
      have hitems : items = items.take i ++ found :: items.drop (i + 1) := by
        conv_lhs => rw [← List.take_append_drop i items]
        rw [List.drop_eq_getElem_cons hi]
        rw [hfound, List.getD_eq_getElem _ _ hi]
      rw [hset]
      conv_rhs => rw [hitems]
      rw [listFiles_append, listFiles_append, List.map_append, List.map_append,
        map_shallow_listFiles_cons, map_shallow_listFiles_cons]
      have hrec : fileRecords newIt = fileRecords found := by
        rw [fileRecords, fileRecords, hnew]
        simp only [Item.flags_mk, Item.children_mk]
        by_cases hd : isDirFlag found.flags = true
        · rw [if_pos hd, if_pos hd, ih found.children]
        · rw [if_neg hd, if_neg hd]
          simp [shallowItem]
      rw [hrec]

/-- C10 (amended) — zero-length content is unstorable: when the source stream
contributes zero bytes, `AddFile` returns `false` and appends no *file* item
(the reachable file records are unchanged); an empty file can never be stored.
(Freshly created directory items from parent resolution may remain — see the
counterexample.) -/
theorem C10_empty_content_amended (hash : Bytes → Nat) (codecs : Codecs)
    (w : PakWriter) (path : Bytes) (pc : PakPreferredCompression) :
    (addFileB hash codecs w [] path pc).2 = false ∧
    (listFiles (addFile hash codecs w [] path pc).1.rootItems).map shallowItem =
      (listFiles w.rootItems).map shallowItem := by
  constructor
  · rw [addFileB_snd, addFile_snd]
    by_cases h1 : (path.isEmpty || isSep (path.getLastD 0)) = true
    · rw [if_pos h1]
      rfl
    · rw [if_neg h1]
      by_cases h2 : duplicateCheck w path = true
      · rw [if_pos h2]
        rfl
      · rw [if_neg h2, if_pos (by rfl : ([] : Bytes).length = 0)]
        rfl
  · rw [addFile]
    split
    · rfl
    · rcases hp : addFilePayload codecs [] pc with ⟨stored, fl, us, sz⟩
      have hus : us = 0 := by
        have := addFilePayload_uncompressed codecs [] pc
        rw [hp] at this
        exact this
      have hok : (if us = 0 then AddResult.copyFailed
          else if uint32Max ≤ us ∨ uint32Max ≤ sz then AddResult.tooBig
          else AddResult.added) = .copyFailed := by
        rw [if_pos hus]
      simp only [hp, hok]
      split
      · rcases hT : addFileTree path
            (Item.mk (le64 (fileNameToHash hash path)) fl w.output.length us sz [])
            .copyFailed w.rootItems [] with ⟨items', r⟩
        simp only [hT]
        have := listFiles_addFileTree path
          (Item.mk (le64 (fileNameToHash hash path)) fl w.output.length us sz [])
          .copyFailed (by simp) w.rootItems []
        rw [hT] at this
        exact this
      · rcases hsp : splitSep (path.dropWhile (fun c => isSep c)) with ⟨dirs, leaf⟩
        simp only
        rcases hT : addFileTree leaf
            (Item.mk leaf fl w.output.length us sz []) .copyFailed
            w.rootItems dirs with ⟨items', r⟩
        simp only [hT]
        have := listFiles_addFileTree leaf
          (Item.mk leaf fl w.output.length us sz []) .copyFailed (by simp)
          w.rootItems dirs
        rw [hT] at this
        exact this

/-- Counterexample for C10 as stated ("appends no item"): adding zero-length
content under the path `"d/a"` to a fresh tree-mode writer returns `false`,
yet appends an item — the directory `"d"` freshly created while resolving the
parent remains in the root array. -/
theorem C10_empty_content_counterexample :
    (addFileB sampleHash idCodecs (pakWriterNew false false false) []
        [100, 47, 97] .none).2 = false ∧
    (addFile sampleHash idCodecs (pakWriterNew false false false) []
        [100, 47, 97] .none).1.rootItems.length = 1 ∧
    (pakWriterNew false false false).rootItems.length = 0 := by
  exact ⟨(C10_empty_content_amended sampleHash idCodecs
    (pakWriterNew false false false) [100, 47, 97] .none).1, by decide, rfl⟩

/-! ## C2: duplicate rejection -/

theorem List.set_getElem_self {α : Type} (l : List α) (i : Nat) (h : i < l.length) :
    l.set i l[i] = l := by
  apply List.ext_getElem?
  intro n
  rw [List.getElem?_set]
  by_cases hn : i = n
  · subst hn
    simp [h, List.getElem?_eq_getElem h]
  · simp [hn]

theorem findIdx?_set_self {α : Type} (p : α → Bool) (l : List α) (i : Nat) (x : α)
    (h : l.findIdx? p = some i) (hx : p x = true) :
    (l.set i x).findIdx? p = some i := by
  induction l generalizing i with
  | nil => simp [List.findIdx?] at h
  | cons a as ih =>
    rw [List.findIdx?_cons] at h
    by_cases ha : p a = true
    · rw [if_pos ha] at h
      cases h
      simp [List.set, List.findIdx?_cons, hx]
    · rw [if_neg ha, List.findIdx?_succ] at h
      rcases Option.map_eq_some'.mp h with ⟨j, hj, hji⟩
      have hji' : j + 1 = i := hji
      subst hji'
      rw [show (a :: as).set (j + 1) x = a :: as.set j x from rfl,
        List.findIdx?_cons, if_neg ha, List.findIdx?_succ, ih j hj]
      rfl

theorem findIdx?_append_singleton {α : Type} (p : α → Bool) (l : List α) (x : α)
    (h : l.findIdx? p = none) (hx : p x = true) :
    (l ++ [x]).findIdx? p = some l.length := by
  induction l with
  | nil => simp [List.findIdx?_cons, hx]
  | cons a as ih =>
    rw [List.findIdx?_cons] at h
    by_cases ha : p a = true
    · rw [if_pos ha] at h
      cases h
    · rw [if_neg ha, List.findIdx?_succ] at h
      have h' : as.findIdx? p = none := by
        cases hfa : as.findIdx? p with
        | none => rfl
        | some v => rw [hfa] at h; simp at h
      rw [List.cons_append, List.findIdx?_cons, if_neg ha, List.findIdx?_succ,
        ih h']
      rfl

theorem set_concat_length {α : Type} (l : List α) (x : α) :
    (l ++ [x]).set l.length x = l ++ [x] := by
  induction l with
  | nil => rfl
  | cons a as ih => simp [List.set, ih]

/-- After a successful `addFileTree` along `dirs` with duplicate key `k`
(= the appended item's name), running `addFileTree` again along the same
`dirs` with the same key fires the duplicate check and changes nothing. -/
theorem addFileTree_redo (k : Bytes) (f : Item) (hname : f.name = k)
    (ok ok' : AddResult) (f' : Item) (items : List Item) (dirs : List Bytes)
    (h : (addFileTree k f ok items dirs).2 = .added) :
    addFileTree k f' ok' (addFileTree k f ok items dirs).1 dirs =
      ((addFileTree k f ok items dirs).1, .duplicate) := by
  induction dirs generalizing items with
  | nil =>
    have hdup : (items.any fun it => it.name == k) = false := by
      by_contra hc
      rw [addFileTree, if_pos (by revert hc; cases items.any fun it => it.name == k
        <;> simp)] at h
      simp at h
    have hok : ok = .added := by
      by_contra hc
      rw [addFileTree, if_neg (by simp [hdup]), if_neg hc] at h
      exact absurd h hc
    have hfst : addFileTree k f ok items [] = (items ++ [f], .added) := by
      rw [addFileTree, if_neg (by simp [hdup]), if_pos hok]
    rw [hfst]
    dsimp only
    rw [addFileTree, if_pos (by rw [List.any_append]; simp [List.any_cons, hname])]
  | cons d ds ih =>
    cases hf : items.findIdx? (fun it => it.name == d) with
    | some i =>
      rcases hrec : addFileTree k f ok (items.getD i defaultItem).children ds
        with ⟨children', r⟩
      set newIt := Item.mk (items.getD i defaultItem).name
        (items.getD i defaultItem).flags (items.getD i defaultItem).offset
        (items.getD i defaultItem).uncompressedSize
        (items.getD i defaultItem).size children' with hnewIt
      have hfst : addFileTree k f ok items (d :: ds) = (items.set i newIt, r) := by
        rw [addFileTree, hf]
        dsimp only
        rw [hrec]
      rw [hfst] at h ⊢
      dsimp only at h
      subst h
      have hi : i < items.length := (List.findIdx?_eq_some_iff_findIdx_eq.mp hf).1
      have hpi : ((items.getD i defaultItem).name == d) = true := by
        have heq := List.findIdx?_eq_some_iff_findIdx_eq.mp hf
        have hg := @List.findIdx_getElem _ (fun it => it.name == d) items (by omega)
        simp only [heq.2] at hg
        rw [List.getD_eq_getElem _ _ hi]
        exact hg
      dsimp only
      have hfind2 : (items.set i newIt).findIdx? (fun it => it.name == d) = some i :=
        findIdx?_set_self _ items i newIt hf (by rw [hnewIt]; simpa using hpi)
      have hgetD : (items.set i newIt).getD i defaultItem = newIt := by
        rw [List.getD_eq_getElem _ _ (by simpa using hi)]
        exact List.getElem_set_eq (by simpa using hi)
      have hsnd := ih (items.getD i defaultItem).children (by rw [hrec])
      rw [hrec] at hsnd
      dsimp only at hsnd
      rw [addFileTree, hfind2]
      dsimp only
      rw [hgetD, hnewIt]
      simp only [Item.children_mk, Item.name_mk, Item.flags_mk, Item.offset_mk,
        Item.uncompressedSize_mk, Item.size_mk]
      rw [hsnd]
      dsimp only
      rw [← hnewIt, List.set_set]
    | none =>
      rcases hrec : addFileTree k f ok [] ds with ⟨children', r⟩
      set newIt := Item.mk d flagDirectory 0 0 0 children' with hnewIt
      have hfst : addFileTree k f ok items (d :: ds) = (items ++ [newIt], r) := by
        rw [addFileTree, hf]
        dsimp only
        rw [hrec]
      rw [hfst] at h ⊢
      dsimp only at h
      subst h
      have hfind2 : (items ++ [newIt]).findIdx? (fun it => it.name == d) =
          some items.length :=
        findIdx?_append_singleton _ items newIt hf (by rw [hnewIt]; simp)
      have hgetD : (items ++ [newIt]).getD items.length defaultItem = newIt := by
        rw [List.getD_eq_getElem _ _ (by simp)]
        simp
      have hsnd := ih [] (by rw [hrec])
      rw [hrec] at hsnd
      dsimp only at hsnd
      rw [addFileTree, hfind2]
      dsimp only
      rw [hgetD, hnewIt]
      simp only [Item.children_mk, Item.name_mk, Item.flags_mk, Item.offset_mk,
        Item.uncompressedSize_mk, Item.size_mk]
      rw [hsnd]
      dsimp only
      rw [← hnewIt, set_concat_length]

/-- C2 (amended) — Duplicate rejection, tree mode: after a successful
`AddFile`, a second `AddFile` with the same path (any content, any preferred
compression) returns failure and leaves the writer — item tree and output
stream — exactly as after the first call alone. (In flat/hash mode the
duplicate check compares the stored 8-byte hash name against the raw path
bytes and a duplicate add is *not* rejected — see the counterexample.) -/
theorem C2_duplicate_rejection_amended (hash : Bytes → Nat) (codecs : Codecs)
    (w : PakWriter) (content path : Bytes) (pc : PakPreferredCompression)
    (content2 : Bytes) (pc2 : PakPreferredCompression)
    (hmode : w.useHashIndex = false)
    (hfirst : (addFile hash codecs w content path pc).2 = .added) :
    addFile hash codecs (addFile hash codecs w content path pc).1 content2
        path pc2 =
      ((addFile hash codecs w content path pc).1, .duplicate) := by
  by_cases hp : (path.isEmpty || isSep (path.getLastD 0)) = true
  · rw [addFile, if_pos hp] at hfirst
    exact absurd hfirst (by simp)
  · rcases hpay : addFilePayload codecs content pc with ⟨stored, fl, us, sz⟩
    rcases hsp : splitSep (path.dropWhile (fun c => isSep c)) with ⟨dirs, leaf⟩
    rcases hT : addFileTree leaf
        (Item.mk leaf fl w.output.length us sz [])
        (if us = 0 then AddResult.copyFailed
         else if uint32Max ≤ us ∨ uint32Max ≤ sz then AddResult.tooBig
         else AddResult.added) w.rootItems dirs with ⟨items1, r1⟩
    have hfst : addFile hash codecs w content path pc =
        ({ w with
            rootItems := items1
            output := if r1 = .duplicate then w.output else w.output ++ stored },
         r1) := by
      rw [addFile, if_neg hp, hpay]
      dsimp only
      rw [if_neg (by rw [hmode]; simp), hsp]
      dsimp only
      rw [hT]
    have hr1 : r1 = .added := by
      rw [hfst] at hfirst
      exact hfirst
    subst hr1
    rw [hfst]
    dsimp only
    rw [if_neg (by simp)]
    rcases hpay2 : addFilePayload codecs content2 pc2 with ⟨stored2, fl2, us2, sz2⟩
    rw [addFile, if_neg hp, hpay2]
    dsimp only
    rw [if_neg (by simp [hmode]), hsp]
    dsimp only
    have hredo := addFileTree_redo leaf (Item.mk leaf fl w.output.length us sz [])
      (by simp)
      (if us = 0 then AddResult.copyFailed
       else if uint32Max ≤ us ∨ uint32Max ≤ sz then AddResult.tooBig
       else AddResult.added)
      (if us2 = 0 then AddResult.copyFailed
       else if uint32Max ≤ us2 ∨ uint32Max ≤ sz2 then AddResult.tooBig
       else AddResult.added)
      (Item.mk leaf fl2 (w.output ++ stored).length us2 sz2 [])
      w.rootItems dirs (by rw [hT])
    rw [hT] at hredo
    dsimp only at hredo
    rw [hredo]
    dsimp only
    rw [if_pos rfl]

/-- Counterexample for C2 as stated: in flat/hash index mode, adding the same
path `"a"` twice succeeds both times — the duplicate check compares the
stored 8-byte hash name with the 1-byte path and never fires — leaving two
items in the root array (shown for a concrete stand-in hash; the comparison
fails for *any* hash because the stored name always has 8 bytes). -/
theorem C2_duplicate_rejection_counterexample :
    (addFileB sampleHash idCodecs
        (addFileB sampleHash idCodecs (pakWriterNew true false false)
          [1] [97] .none).1 [2] [97] .none).2 = true ∧
    (addFile sampleHash idCodecs
        (addFile sampleHash idCodecs (pakWriterNew true false false)
          [1] [97] .none).1 [2] [97] .none).1.rootItems.length = 2 := by
  constructor <;> decide

/-- Witness for the amended C2 at a concrete input: adding `"t/h"` twice in
tree mode; the second call returns `duplicate` and the writer is unchanged. -/
theorem C2_duplicate_rejection_amended_witness :
    addFile sampleHash idCodecs
        (addFile sampleHash idCodecs (pakWriterNew false false false)
          [1] [116, 47, 104] .none).1 [2] [116, 47, 104] .lz4 =
      ((addFile sampleHash idCodecs (pakWriterNew false false false)
          [1] [116, 47, 104] .none).1, .duplicate) :=
  C2_duplicate_rejection_amended sampleHash idCodecs
    (pakWriterNew false false false) [1] [116, 47, 104] .none [2] .lz4
    (by decide) (by decide)

/-! ## C6: `FindItem` termination (code bug)

The tree-mode `while (true)` loop of `FindItem` never exits once the
remaining path is empty: `findAnyOr` returns the empty view at `path.end()`,
the component is empty, and `path.suffix(separator.end())` leaves the empty
path unchanged — the "skip consecutive slashes" branch loops forever. This
happens for the empty path, for all-separator paths, and for paths with a
trailing separator whose prefix components all match (reachable through
`FileExists`/`DirectoryExists`, which do not pre-filter such paths the way
`OpenFile` does). -/

/-- C6 — `FindItem` termination: refuted (code bug). The loop body leaves an
empty remaining path unchanged, so no amount of fuel makes it return: the
loop diverges — while the claim asserts termination for every path,
including the empty one. Concretely, on an archive containing the file
`"a"`, `FileExists("")` and `FileExists("a/")` never return. -/
theorem C6_findItem_nontermination :
    (∀ (items : List Item) (fuel : Nat), findItemLoop items [] fuel = .diverged) ∧
    fileExists sampleHash (pakOpen ((finalize (addFile sampleHash idCodecs
      (pakWriterNew false false false) [1] [97] .none).1).getD [])) [] = none ∧
    fileExists sampleHash (pakOpen ((finalize (addFile sampleHash idCodecs
      (pakWriterNew false false false) [1] [97] .none).1).getD []))
      [97, 47] = none := by
  refine ⟨fun items fuel => ?_, by decide, by decide⟩
  induction fuel generalizing items with
  | zero => rfl
  | succ fuel ih => simpa [findItemLoop] using ih items

/-! ## C5: open atomicity -/

/-- C5 (amended) — Open atomicity holds only for the footer stage: the
constructed `PakFile` is invalid exactly when a footer-stage validation
fails — the file is `FooterSize + 8 = 24` bytes or shorter, the 4
signature bytes mismatch, the version word is not 1, or the 64-bit root
index offset is not below the file length — and an invalid object is
completely unpopulated. The footer flags word is NEVER validated (the iff
below has no flag condition): an archive whose flags set unsupported bits
still opens. Failures while materializing the index (malformed or
over-deep blocks) do *not* make the object invalid either: `_path` is
assigned before `ConstructsItemsFromIndex` runs, so `IsValid()` stays
`true` — see the counterexample. -/
theorem C5_open_atomicity_amended :
    (∀ b : Bytes, (pakOpen b).isValid = false → pakOpen b = invalidPak) ∧
    (∀ b : Bytes, (pakOpen b).isValid = true ↔
      footerSize + 8 < b.length ∧
      readBytesAt b (b.length - footerSize) 4 = some signature ∧
      readLE16At b (b.length - footerSize + 4) = some version ∧
      ∃ off, readLE64At b (b.length - footerSize + 8) = some off ∧
        off < b.length) := by
  have hshape : ∀ b : Bytes, pakOpen b = invalidPak ∨
      ((pakOpen b).pathSet = true ∧
        footerSize + 8 < b.length ∧
        readBytesAt b (b.length - footerSize) 4 = some signature ∧
        readLE16At b (b.length - footerSize + 4) = some version ∧
        ∃ off, readLE64At b (b.length - footerSize + 8) = some off ∧
          off < b.length) := by
    intro b
    rw [pakOpen]
    by_cases h1 : b.length ≤ footerSize + 8
    · rw [if_pos h1]
      exact Or.inl rfl
    · rw [if_neg h1]
      dsimp only
      cases h2 : readBytesAt b (b.length - footerSize) 4 with
      | none => exact Or.inl rfl
      | some sig =>
        dsimp only
        by_cases h3 : sig ≠ signature
        · rw [if_pos h3]
          exact Or.inl rfl
        · rw [if_neg h3]
          rw [not_not] at h3
          subst h3
          cases h4 : readLE16At b (b.length - footerSize + 4) with
          | none => exact Or.inl rfl
          | some fileVersion =>
            cases h5 : readLE16At b (b.length - footerSize + 6) with
            | none => exact Or.inl rfl
            | some fileFlags =>
              cases h6 : readLE64At b (b.length - footerSize + 8) with
              | none => exact Or.inl rfl
              | some rootIndexOffset =>
                dsimp only
                by_cases h7 : fileVersion ≠ version
                · rw [if_pos h7]
                  exact Or.inl rfl
                · rw [if_neg h7]
                  rw [not_not] at h7
                  subst h7
                  by_cases h8 : ¬ rootIndexOffset < b.length
                  · rw [if_pos h8]
                    exact Or.inl rfl
                  · rw [if_neg h8]
                    rw [not_not] at h8
                    refine Or.inr ⟨rfl, by omega, rfl, rfl, rootIndexOffset, rfl, h8⟩
  have hsucc : ∀ b : Bytes, footerSize + 8 < b.length →
      readBytesAt b (b.length - footerSize) 4 = some signature →
      readLE16At b (b.length - footerSize + 4) = some version →
      ∀ off, readLE64At b (b.length - footerSize + 8) = some off →
      off < b.length → (pakOpen b).pathSet = true := by
    intro b hl hsig hver off hoff hlt
    obtain ⟨ff, hle⟩ : ∃ ff, readLE16At b (b.length - footerSize + 6) = some ff := by
      have hin : b.length - footerSize + 6 + 2 ≤ b.length := by
        simp only [footerSize] at hl ⊢
        omega
      simp [readLE16At, readBytesAt, hin]
    rw [pakOpen, if_neg (by omega)]
    dsimp only
    rw [hsig]
    dsimp only
    rw [if_neg (by simp), hver, hle, hoff]
    dsimp only
    rw [if_neg (by simp [version]), if_neg (by simpa using hlt)]
  constructor
  · intro b hinv
    rcases hshape b with h | h
    · exact h
    · rw [PakState.isValid, h.1] at hinv
      cases hinv
  · intro b
    constructor
    · intro hval
      rcases hshape b with h | h
      · rw [h] at hval
        cases hval
      · exact h.2
    · intro hcond
      rcases hcond with ⟨hl, hsig, hver, off, hoff, hlt⟩
      rw [PakState.isValid]
      exact hsucc b hl hsig hver off hoff hlt

/-- Counterexample for C5 as stated: a 28-byte archive with a fully valid
footer whose root index block declares a mount-point length of `32767 =
INT16_MAX` — the `"Invalid mount point"` `DEATH_ASSERT` fires while
materializing the index — yet the constructed object reports
`IsValid() = true` (with empty mount point and item set): `_path` was
assigned before index parsing, so the index-stage validation failure does
not make the object invalid. -/
theorem C5_open_atomicity_counterexample :
    (pakOpen [0xFF, 0xFF, 0x01, 0, 0, 0, 0, 0, 0, 0, 0, 0,
        0xF0, 0x9F, 0x8C, 0xAA, 1, 0, 0, 0, 0, 0, 0, 0, 0, 0, 0, 0]).isValid
      = true ∧
    (pakOpen [0xFF, 0xFF, 0x01, 0, 0, 0, 0, 0, 0, 0, 0, 0,
        0xF0, 0x9F, 0x8C, 0xAA, 1, 0, 0, 0, 0, 0, 0, 0, 0, 0, 0, 0]).rootItems.isEmpty
      = true ∧
    readVarAt [0xFF, 0xFF, 0x01, 0, 0, 0, 0, 0, 0, 0, 0, 0,
        0xF0, 0x9F, 0x8C, 0xAA, 1, 0, 0, 0, 0, 0, 0, 0, 0, 0, 0, 0] 0
      = some (int16Max, 3) := by
  refine ⟨by decide, by decide, by decide⟩

/-- Witness for the amended C5: the empty byte sequence fails the footer
stage, and the theorem yields the completely unpopulated object. -/
theorem C5_open_atomicity_amended_witness : pakOpen [] = invalidPak :=
  C5_open_atomicity_amended.1 [] (by decide)

/-! ## C8: depth guard -/

mutual

/-- Number of nested directory levels below one item. -/
def itemDirHeight : Item → Nat
  | .mk _ f _ _ _ c => if isDirFlag f then 1 + dirsHeight c else 0

/-- Number of nested directory levels of a forest. -/
def dirsHeight : List Item → Nat
  | [] => 0
  | it :: rest => max (itemDirHeight it) (dirsHeight rest)

end

theorem dirsHeight_le_one (items : List Item)
    (h : ∀ it ∈ items, it.children = []) : dirsHeight items ≤ 1 := by
  induction items with
  | nil => simp [dirsHeight]
  | cons it rest ih =>
    rw [dirsHeight]
    have h1 : itemDirHeight it ≤ 1 := by
      cases it with
      | mk n f o u s c =>
        rw [itemDirHeight]
        have : c = [] := h _ (List.mem_cons_self _ _)
        subst this
        split <;> simp [dirsHeight]
    have h2 : dirsHeight rest ≤ 1 := ih (fun x hx => h x (List.mem_cons_of_mem _ hx))
    omega

/-- Success decomposition of `readItemAt`. -/
theorem readItemAt_eq_some (useHash : Bool) (b : Bytes) (pos : Nat)
    (it : Item) (p' : Nat) (h : readItemAt useHash b pos = some (it, p')) :
    ∃ flags p1 name p2 offset p3 us sz,
      readVarAt b pos = some (flags, p1) ∧
      readItemName useHash b p1 = some (name, p2) ∧
      readVarAt b p2 = some (offset, p3) ∧
      readItemSizes flags b p3 = some (us, sz, p') ∧
      it = Item.mk name flags offset us sz [] := by
  rw [readItemAt] at h
  simp only [Option.bind_eq_bind] at h
  cases h1 : readVarAt b pos with
  | none => rw [h1] at h; simp at h
  | some fp =>
    rw [h1] at h
    obtain ⟨flags, p1⟩ := fp
    simp only [Option.some_bind] at h
    cases h2 : readItemName useHash b p1 with
    | none => rw [h2] at h; simp at h
    | some np =>
      rw [h2] at h
      obtain ⟨name, p2⟩ := np
      simp only [Option.some_bind] at h
      cases h3 : readVarAt b p2 with
      | none => rw [h3] at h; simp at h
      | some op =>
        rw [h3] at h
        obtain ⟨offset, p3⟩ := op
        simp only [Option.some_bind] at h
        cases h4 : readItemSizes flags b p3 with
        | none => rw [h4] at h; simp at h
        | some usp =>
          rw [h4] at h
          obtain ⟨us, sz, p4⟩ := usp
          simp only [Option.some_bind, Option.pure_def, Option.some_inj] at h
          injection h with hit hp
          subst hp
          exact ⟨flags, p1, name, p2, offset, p3, us, sz, rfl, h2, h3, h4,
            hit.symm⟩

theorem readItemAt_children_nil (useHash : Bool) (b : Bytes) (pos : Nat)
    (it : Item) (p' : Nat) (h : readItemAt useHash b pos = some (it, p')) :
    it.children = [] := by
  obtain ⟨_, _, _, _, _, _, _, _, _, _, _, _, rfl⟩ :=
    readItemAt_eq_some useHash b pos it p' h
  rfl

theorem readItemsAt_children_nil (useHash : Bool) (b : Bytes) :
    ∀ (count pos : Nat), ∀ it ∈ (readItemsAt useHash b count pos).1,
      it.children = [] := by
  intro count
  induction count with
  | zero => intro pos it hit; simp [readItemsAt] at hit
  | succ n ih =>
    intro pos it hit
    rw [readItemsAt] at hit
    cases h1 : readItemAt useHash b pos with
    | none =>
      rw [h1] at hit
      simp only at hit
      have := List.eq_of_mem_replicate hit
      subst this
      rfl
    | some v =>
      rw [h1] at hit
      rcases v with ⟨it0, p'⟩
      simp only at hit
      rcases List.mem_cons.mp hit with rfl | hmem
      · exact readItemAt_children_nil useHash b pos it p' h1
      · exact ih p' it hmem

theorem readIndex_children_nil (useHash isRoot : Bool) (b : Bytes) (pos : Nat) :
    ∀ it ∈ (readIndexFromStream useHash isRoot b pos).items, it.children = [] := by
  rw [readIndexFromStream]
  rcases hm : (if isRoot then
      match readVarAt b pos with
      | none => none
      | some (mountPointLength, p) =>
        if mountPointLength < int16Max then
          match readBytesAt b p mountPointLength with
          | none => none
          | some mp =>
            let mp' := if !mp.isEmpty && !isSep (mp.getLastD 0) then mp ++ [slash]
              else mp
            some (some mp', p + mountPointLength)
        else none
    else some (none, pos) : Option (Option Bytes × Nat)) with _ | v
  · simp
  · rcases v with ⟨mount, p⟩
    dsimp only
    split
    · simp
    · dsimp only
      exact fun it hit => readItemsAt_children_nil useHash b _ _ it hit

/-- The materialized forest never nests more directory levels than the
remaining depth budget. -/
theorem dirsHeight_constructsAux (useHash deflate : Bool) (b : Bytes) :
    ∀ (fuel pos : Nat) (isRoot : Bool),
      dirsHeight (constructsAux useHash deflate b pos isRoot fuel).1 ≤ fuel := by
  intro fuel
  induction fuel with
  | zero => intro pos isRoot; simp [constructsAux, dirsHeight]
  | succ fuel ih =>
    intro pos isRoot
    rw [constructsAux]
    by_cases hd : deflate = true
    · rw [if_pos hd]
      simp [dirsHeight]
    · rw [if_neg hd]
      dsimp only
      cases hnext : (readIndexFromStream useHash isRoot b pos).next with
      | none =>
        dsimp only
        have hnil := readIndex_children_nil useHash isRoot b pos
        have := dirsHeight_le_one _ hnil
        omega
      | some _ =>
        dsimp only
        have key : ∀ items : List Item,
            dirsHeight (items.map (fun it =>
              if isDirFlag it.flags then
                Item.mk it.name it.flags it.offset it.uncompressedSize it.size
                  (constructsAux useHash deflate b it.offset false fuel).1
              else it)) ≤ fuel + 1 := by
          intro items
          induction items with
          | nil => simp [dirsHeight]
          | cons it rest ihl =>
            rw [List.map_cons, dirsHeight]
            have h1 : itemDirHeight (if isDirFlag it.flags then
                Item.mk it.name it.flags it.offset it.uncompressedSize it.size
                  (constructsAux useHash deflate b it.offset false fuel).1
              else it) ≤ fuel + 1 := by
              by_cases hdir : isDirFlag it.flags = true
              · rw [if_pos hdir]
                cases it with
                | mk n f o u s c =>
                  rw [itemDirHeight]
                  simp only [Item.flags_mk, Item.offset_mk] at hdir ⊢
                  rw [if_pos hdir]
                  have := ih o false
                  omega
              · rw [if_neg hdir]
                cases it with
                | mk n f o u s c =>
                  rw [itemDirHeight]
                  simp only [Item.flags_mk] at hdir ⊢
                  rw [if_neg hdir]
                  omega
            omega
        exact key _

/-- C8 (amended) — Depth guard: recursive index materialization is bounded —
a block reached at depth ≥ 64 is rejected outright (no recursive call at
depth 64 or more populates any items), and the directory nesting of every
opened archive's materialized tree is at most 64 levels. The open itself,
however, does not fail on an over-deep archive: the deeper blocks are simply
left unpopulated while `IsValid()` stays `true` — see the counterexample. -/
theorem C8_depth_guard_amended :
    (∀ (useHash deflate : Bool) (b : Bytes) (pos : Nat) (isRoot : Bool)
      (depth : Nat), maxDepth ≤ depth →
      constructsItemsFromIndex useHash deflate b pos isRoot depth = ([], none)) ∧
    (∀ b : Bytes, dirsHeight (pakOpen b).rootItems ≤ maxDepth) := by
  constructor
  · intro useHash deflate b pos isRoot depth hdepth
    rw [constructsItemsFromIndex, show maxDepth - depth = 0 by omega]
    rfl
  · intro b
    rw [pakOpen]
    split
    · simp [invalidPak, dirsHeight]
    · dsimp only
      cases readBytesAt b (b.length - footerSize) 4 with
      | none => simp [invalidPak, dirsHeight]
      | some sig =>
        dsimp only
        split
        · simp [invalidPak, dirsHeight]
        · rcases readLE16At b (b.length - footerSize + 4) with _ | fileVersion <;>
            rcases readLE16At b (b.length - footerSize + 6) with _ | fileFlags <;>
            rcases readLE64At b (b.length - footerSize + 8) with _ | rootIndexOffset <;>
            simp only [invalidPak, dirsHeight] <;>
            try omega
          split
          · simp [invalidPak, dirsHeight]
          · split
            · simp [invalidPak, dirsHeight]
            · dsimp only
              rw [constructsItemsFromIndex]
              exact le_trans (dirsHeight_constructsAux _ _ _ _ _ _) (by omega)

set_option maxRecDepth 8000 in
/-- Counterexample for C8 as stated ("opening fails"): a 27-byte archive
whose root directory's index block contains a directory pointing back at the
same block — an index chain of unbounded (hence > 64) nesting depth. Opening
does not fail: the object reports `IsValid() = true`; the guard merely stops
materialization after 64 directory levels. -/
theorem C8_depth_guard_counterexample :
    (pakOpen ([1, 1, 1, 97, 0] ++ [0, 1, 1, 1, 114, 0] ++
      ([0xF0, 0x9F, 0x8C, 0xAA] ++ [1, 0] ++ [0, 0] ++
        [5, 0, 0, 0, 0, 0, 0, 0]))).isValid = true ∧
    dirsHeight (pakOpen ([1, 1, 1, 97, 0] ++ [0, 1, 1, 1, 114, 0] ++
      ([0xF0, 0x9F, 0x8C, 0xAA] ++ [1, 0] ++ [0, 0] ++
        [5, 0, 0, 0, 0, 0, 0, 0]))).rootItems = 64 := by
  constructor <;> decide

/-- Witness for the amended C8: a block reached at depth 64 is rejected. -/
theorem C8_depth_guard_amended_witness :
    constructsItemsFromIndex false false [] 0 true 64 = ([], none) :=
  C8_depth_guard_amended.1 false false [] 0 true 64 (by decide)

/-! ## Parse-at-position lemmas

Reading back what `Finalize` wrote: each primitive read, pointed at the
start of the corresponding serialized chunk inside a longer byte string,
recovers exactly what was written. -/

theorem readVarAt_write (pre rest : Bytes) (n : Nat) :
    readVarAt (pre ++ (writeVarNat n ++ rest)) pre.length =
      some (n, pre.length + (writeVarNat n).length) := by
  rw [readVarAt, List.drop_left, readVarAux_append]

theorem readBytesAt_write (pre mid rest : Bytes) :
    readBytesAt (pre ++ (mid ++ rest)) pre.length mid.length = some mid := by
  rw [readBytesAt, if_pos (by simp only [List.length_append]; omega),
    List.drop_left, List.take_left]

theorem readLE16At_write (pre rest : Bytes) (n : Nat) (h : n < 65536) :
    readLE16At (pre ++ (le16 n ++ rest)) pre.length = some n := by
  have hb : readBytesAt (pre ++ (le16 n ++ rest)) pre.length 2 = some (le16 n) := by
    have h2 : (le16 n).length = 2 := rfl
    rw [← h2]
    exact readBytesAt_write pre (le16 n) rest
  rw [readLE16At, hb]
  simp only [Option.bind_eq_bind, Option.some_bind, Option.pure_def,
    Option.some_inj, le16, List.getD_cons_zero, List.getD_cons_succ]
  omega

theorem readLE64At_write (pre rest : Bytes) (n : Nat)
    (h : n < 18446744073709551616) :
    readLE64At (pre ++ (le64 n ++ rest)) pre.length = some n := by
  have hb : readBytesAt (pre ++ (le64 n ++ rest)) pre.length 8 = some (le64 n) := by
    have h8 : (le64 n).length = 8 := rfl
    rw [← h8]
    exact readBytesAt_write pre (le64 n) rest
  rw [readLE64At, hb]
  simp only [Option.bind_eq_bind, Option.some_bind, Option.pure_def,
    Option.some_inj, le64, List.getD_cons_zero, List.getD_cons_succ]
  have e2 : (256 : Nat) ^ 2 = 65536 := by norm_num
  have e3 : (256 : Nat) ^ 3 = 16777216 := by norm_num
  have e4 : (256 : Nat) ^ 4 = 4294967296 := by norm_num
  have e5 : (256 : Nat) ^ 5 = 1099511627776 := by norm_num
  have e6 : (256 : Nat) ^ 6 = 281474976710656 := by norm_num
  have e7 : (256 : Nat) ^ 7 = 72057594037927936 := by norm_num
  rw [e2, e3, e4, e5, e6, e7]
  omega

/-! ## Parse-prefix-extension lemmas

A successful read only consumes bytes inside the stream it read from, so
appending further bytes at the end does not change its result. -/

theorem readVarAux_extend (bs ext : Bytes) (v k : Nat)
    (h : readVarAux bs = some (v, k)) : readVarAux (bs ++ ext) = some (v, k) := by
  induction bs generalizing v k with
  | nil => rw [readVarAux] at h; exact absurd h (by simp)
  | cons c cs ih =>
    rw [readVarAux] at h
    rw [List.cons_append, readVarAux]
    by_cases hc : c < 128
    · rw [if_pos hc] at h
      rw [if_pos hc]
      exact h
    · rw [if_neg hc] at h
      rw [if_neg hc]
      cases hr : readVarAux cs with
      | none => rw [hr] at h; exact absurd h (by simp)
      | some p =>
        obtain ⟨v', k'⟩ := p
        rw [hr] at h
        rw [ih v' k' hr]
        exact h

theorem readVarAt_extend (b ext : Bytes) (pos v p' : Nat)
    (h : readVarAt b pos = some (v, p')) :
    readVarAt (b ++ ext) pos = some (v, p') := by
  rw [readVarAt] at h
  rw [readVarAt, List.drop_append_eq_append_drop]
  cases hr : readVarAux (List.drop pos b) with
  | none => rw [hr] at h; exact absurd h (by simp)
  | some p =>
    obtain ⟨v', k⟩ := p
    rw [hr] at h
    rw [readVarAux_extend _ _ v' k hr]
    exact h

theorem readBytesAt_extend (b ext : Bytes) (pos n : Nat) (bs : Bytes)
    (h : readBytesAt b pos n = some bs) :
    readBytesAt (b ++ ext) pos n = some bs := by
  rw [readBytesAt] at h
  by_cases hle : pos + n ≤ b.length
  · rw [if_pos hle] at h
    rw [readBytesAt, if_pos (by simp [List.length_append]; omega),
      List.drop_append_eq_append_drop,
      List.take_append_of_le_length (by simp [List.length_drop]; omega)]
    exact h
  · rw [if_neg hle] at h
    exact absurd h (by simp)

theorem readItemName_extend (useHash : Bool) (b ext : Bytes) (p1 : Nat)
    (r : Bytes × Nat) (h : readItemName useHash b p1 = some r) :
    readItemName useHash (b ++ ext) p1 = some r := by
  rw [readItemName] at h
  rw [readItemName]
  by_cases hu : useHash = true
  · rw [if_pos hu] at h
    rw [if_pos hu]
    cases hr : readBytesAt b p1 hashIndexLength with
    | none => rw [hr] at h; exact absurd h (by simp)
    | some bs =>
      rw [hr] at h
      rw [readBytesAt_extend b ext p1 hashIndexLength bs hr]
      exact h
  · rw [if_neg hu] at h
    rw [if_neg hu]
    cases hr : readVarAt b p1 with
    | none => rw [hr] at h; exact absurd h (by simp)
    | some p =>
      obtain ⟨nameLength, pp⟩ := p
      rw [hr] at h
      rw [readVarAt_extend b ext p1 nameLength pp hr]
      dsimp only at h ⊢
      by_cases hg : (nameLength == 0 || decide (nameLength < int32Max)) = true
      · rw [if_pos hg] at h
        rw [if_pos hg]
        cases hb : readBytesAt b pp nameLength with
        | none => rw [hb] at h; exact absurd h (by simp)
        | some bs =>
          rw [hb] at h
          rw [readBytesAt_extend b ext pp nameLength bs hb]
          exact h
      · rw [if_neg hg] at h
        exact absurd h (by simp)

theorem readItemSizes_extend (flags : Nat) (b ext : Bytes) (p3 : Nat)
    (r : Nat × Nat × Nat) (h : readItemSizes flags b p3 = some r) :
    readItemSizes flags (b ++ ext) p3 = some r := by
  rw [readItemSizes] at h
  rw [readItemSizes]
  by_cases hd : isDirFlag flags = true
  · rw [if_pos hd] at h
    rw [if_pos hd]
    exact h
  · rw [if_neg hd] at h
    rw [if_neg hd]
    cases hr : readVarAt b p3 with
    | none => rw [hr] at h; exact absurd h (by simp)
    | some p =>
      obtain ⟨us, p4⟩ := p
      rw [hr] at h
      rw [readVarAt_extend b ext p3 us p4 hr]
      dsimp only at h ⊢
      by_cases hc : hasCompressedSize flags = true
      · rw [if_pos hc] at h
        rw [if_pos hc]
        cases h2 : readVarAt b p4 with
        | none => rw [h2] at h; exact absurd h (by simp)
        | some q =>
          obtain ⟨sz, p5⟩ := q
          rw [h2] at h
          rw [readVarAt_extend b ext p4 sz p5 h2]
          exact h
      · rw [if_neg hc] at h
        rw [if_neg hc]
        exact h

theorem readItemAt_extend (useHash : Bool) (b ext : Bytes) (pos : Nat)
    (it : Item) (p' : Nat) (h : readItemAt useHash b pos = some (it, p')) :
    readItemAt useHash (b ++ ext) pos = some (it, p') := by
  obtain ⟨flags, p1, name, p2, offset, p3, us, sz, h1, h2, h3, h4, rfl⟩ :=
    readItemAt_eq_some useHash b pos it p' h
  rw [readItemAt, readVarAt_extend b ext pos flags p1 h1]
  simp only [Option.bind_eq_bind, Option.some_bind]
  rw [readItemName_extend useHash b ext p1 (name, p2) h2]
  simp only [Option.some_bind]
  rw [readVarAt_extend b ext p2 offset p3 h3]
  simp only [Option.some_bind]
  rw [readItemSizes_extend flags b ext p3 (us, sz, p') h4]
  rfl

theorem readItemsAt_extend (useHash : Bool) (b ext : Bytes) :
    ∀ (count pos : Nat) (items : List Item) (q : Nat),
      readItemsAt useHash b count pos = (items, some q) →
      readItemsAt useHash (b ++ ext) count pos = (items, some q) := by
  intro count
  induction count with
  | zero =>
    intro pos items q h
    rw [readItemsAt] at h
    rw [readItemsAt]
    exact h
  | succ n ih =>
    intro pos items q h
    rw [readItemsAt] at h
    cases h1 : readItemAt useHash b pos with
    | none =>
      rw [h1] at h
      simp at h
    | some v =>
      obtain ⟨it0, p0⟩ := v
      rw [h1] at h
      dsimp only at h
      rcases h2 : readItemsAt useHash b n p0 with ⟨tl, next⟩
      rw [h2] at h
      dsimp only at h
      simp only [Prod.mk.injEq] at h
      obtain ⟨hitems, hnext⟩ := h
      rw [readItemsAt, readItemAt_extend useHash b ext pos it0 p0 h1]
      dsimp only
      rw [ih p0 tl q (by rw [h2, hnext])]
      rw [← hitems]

theorem readIndex_extend (useHash isRoot : Bool) (b ext : Bytes) (pos : Nat)
    (m : Option Bytes) (items : List Item) (q : Nat)
    (h : readIndexFromStream useHash isRoot b pos = ⟨m, items, some q⟩) :
    readIndexFromStream useHash isRoot (b ++ ext) pos = ⟨m, items, some q⟩ := by
  rw [readIndexFromStream] at h
  rw [readIndexFromStream]
  by_cases hr : isRoot = true
  · rw [if_pos hr] at h
    rw [if_pos hr]
    cases h1 : readVarAt b pos with
    | none => rw [h1] at h; simp at h
    | some p =>
      obtain ⟨mpl, pp⟩ := p
      rw [h1] at h
      rw [readVarAt_extend b ext pos mpl pp h1]
      dsimp only at h ⊢
      by_cases h2 : mpl < int16Max
      · rw [if_pos h2] at h
        rw [if_pos h2]
        cases h3 : readBytesAt b pp mpl with
        | none => rw [h3] at h; simp at h
        | some mp =>
          rw [h3] at h
          rw [readBytesAt_extend b ext pp mpl mp h3]
          dsimp only at h ⊢
          cases h4 : readVarAt b (pp + mpl) with
          | none => rw [h4] at h; simp at h
          | some cp =>
            obtain ⟨cnt, pc⟩ := cp
            rw [h4] at h
            rw [readVarAt_extend b ext (pp + mpl) cnt pc h4]
            dsimp only at h ⊢
            rcases h5 : readItemsAt useHash b cnt pc with ⟨its, nx⟩
            rw [h5] at h
            dsimp only at h
            simp only [BlockOut.mk.injEq] at h
            obtain ⟨hm, hits, hnx⟩ := h
            rw [readItemsAt_extend useHash b ext cnt pc its q (by rw [h5, hnx])]
            dsimp only
            rw [hm, hits]
      · rw [if_neg h2] at h
        exact absurd h (by simp)
  · rw [if_neg hr] at h
    rw [if_neg hr]
    dsimp only at h ⊢
    cases h4 : readVarAt b pos with
    | none => rw [h4] at h; simp at h
    | some cp =>
      obtain ⟨cnt, pc⟩ := cp
      rw [h4] at h
      rw [readVarAt_extend b ext pos cnt pc h4]
      dsimp only at h ⊢
      rcases h5 : readItemsAt useHash b cnt pc with ⟨its, nx⟩
      rw [h5] at h
      dsimp only at h
      simp only [BlockOut.mk.injEq] at h
      obtain ⟨hm, hits, hnx⟩ := h
      rw [readItemsAt_extend useHash b ext cnt pc its q (by rw [h5, hnx])]
      dsimp only
      rw [hm, hits]

/-! ## Serialization roundtrip: item descriptors and index blocks -/

/-- Conditions under which an item's written descriptor parses back to its
shallow image: a name of the right shape for the mode, directory size fields
zero (the parser reads no sizes for directories), and a zero compressed size
when no compression flag is set (the parser then stores zero). -/
def goodShallow (useHash : Bool) (it : Item) : Prop :=
  (if useHash = true then it.name.length = hashIndexLength
   else it.name.length = 0 ∨ it.name.length < int32Max) ∧
  (isDirFlag it.flags = true → it.uncompressedSize = 0 ∧ it.size = 0) ∧
  (isDirFlag it.flags = false → hasCompressedSize it.flags = false →
    it.size = 0)

theorem readItemName_write (useHash : Bool) (pre rest name : Bytes)
    (hn : if useHash = true then name.length = hashIndexLength
          else name.length = 0 ∨ name.length < int32Max) :
    readItemName useHash
        (pre ++ ((if useHash = true then name
                  else writeVarNat name.length ++ name) ++ rest))
        pre.length =
      some (name, pre.length +
        (if useHash = true then name
         else writeVarNat name.length ++ name).length) := by
  by_cases hu : useHash = true
  · rw [if_pos hu] at hn
    rw [readItemName, if_pos hu, if_pos hu, ← hn, readBytesAt_write]
  · rw [if_neg hu] at hn
    rw [readItemName, if_neg hu, if_neg hu]
    have hb : pre ++ ((writeVarNat name.length ++ name) ++ rest) =
        pre ++ (writeVarNat name.length ++ (name ++ rest)) := by
      simp [List.append_assoc]
    rw [hb, readVarAt_write]
    dsimp only
    rw [if_pos (show (name.length == 0 ||
        decide (name.length < int32Max)) = true by
      rcases hn with h0 | hlt
      · simp [h0]
      · simp [hlt])]
    have hb2 : pre ++ (writeVarNat name.length ++ (name ++ rest)) =
        (pre ++ writeVarNat name.length) ++ (name ++ rest) := by
      simp [List.append_assoc]
    rw [hb2, show pre.length + (writeVarNat name.length).length =
      (pre ++ writeVarNat name.length).length by simp, readBytesAt_write]
    dsimp only
    simp [List.length_append, Nat.add_assoc]

theorem readItemSizes_write (flags : Nat) (pre rest : Bytes) (us sz : Nat)
    (hd : isDirFlag flags = true → us = 0 ∧ sz = 0)
    (hs : isDirFlag flags = false → hasCompressedSize flags = false → sz = 0) :
    readItemSizes flags
        (pre ++ ((if isDirFlag flags = true then []
                  else writeVarNat us ++
                    (if hasCompressedSize flags = true then writeVarNat sz
                     else [])) ++ rest))
        pre.length =
      some (us, sz, pre.length +
        (if isDirFlag flags = true then []
         else writeVarNat us ++
           (if hasCompressedSize flags = true then writeVarNat sz
            else [])).length) := by
  by_cases hdir : isDirFlag flags = true
  · obtain ⟨hu0, hs0⟩ := hd hdir
    rw [readItemSizes, if_pos hdir]
    simp only [if_pos hdir, hu0, hs0, List.length_nil, Nat.add_zero]
  · rw [readItemSizes, if_neg hdir]
    simp only [if_neg hdir]
    by_cases hc : hasCompressedSize flags = true
    · simp only [if_pos hc]
      have hb : pre ++ ((writeVarNat us ++ writeVarNat sz) ++ rest) =
          pre ++ (writeVarNat us ++ (writeVarNat sz ++ rest)) := by
        simp [List.append_assoc]
      rw [hb, readVarAt_write]
      dsimp only
      have hb2 : pre ++ (writeVarNat us ++ (writeVarNat sz ++ rest)) =
          (pre ++ writeVarNat us) ++ (writeVarNat sz ++ rest) := by
        simp [List.append_assoc]
      rw [hb2, show pre.length + (writeVarNat us).length =
        (pre ++ writeVarNat us).length by simp, readVarAt_write]
      dsimp only
      simp [List.length_append, Nat.add_assoc]
    · simp only [if_neg hc, List.append_nil]
      rw [readVarAt_write]
      dsimp only
      rw [hs (by revert hdir; cases isDirFlag flags <;> simp)
        (by revert hc; cases hasCompressedSize flags <;> simp)]

theorem readItemAt_write (useHash : Bool) (pre rest : Bytes) (it : Item)
    (hg : goodShallow useHash it) :
    readItemAt useHash (pre ++ (writeItemDescription useHash it ++ rest))
        pre.length =
      some (shallowItem it,
        pre.length + (writeItemDescription useHash it).length) := by
  obtain ⟨hn, hd, hs⟩ := hg
  have hW : writeItemDescription useHash it =
      writeVarNat it.flags ++
        (if useHash = true then it.name
         else writeVarNat it.name.length ++ it.name) ++
        writeVarNat it.offset ++
        (if isDirFlag it.flags = true then []
         else writeVarNat it.uncompressedSize ++
           (if hasCompressedSize it.flags = true then writeVarNat it.size
            else [])) := by
    rw [writeItemDescription]
  have h1 : readVarAt (pre ++ (writeItemDescription useHash it ++ rest))
      pre.length = some (it.flags, (pre ++ writeVarNat it.flags).length) := by
    rw [show pre ++ (writeItemDescription useHash it ++ rest) =
      pre ++ (writeVarNat it.flags ++
        ((if useHash = true then it.name
          else writeVarNat it.name.length ++ it.name) ++
         (writeVarNat it.offset ++
          ((if isDirFlag it.flags = true then []
            else writeVarNat it.uncompressedSize ++
              (if hasCompressedSize it.flags = true then writeVarNat it.size
               else [])) ++ rest)))) by rw [hW]; simp [List.append_assoc]]
    rw [readVarAt_write]
    simp [List.length_append, Nat.add_assoc]
  have h2 : readItemName useHash (pre ++ (writeItemDescription useHash it ++ rest))
      (pre ++ writeVarNat it.flags).length =
      some (it.name, (pre ++ writeVarNat it.flags ++
        (if useHash = true then it.name
         else writeVarNat it.name.length ++ it.name)).length) := by
    rw [show pre ++ (writeItemDescription useHash it ++ rest) =
      (pre ++ writeVarNat it.flags) ++
        ((if useHash = true then it.name
          else writeVarNat it.name.length ++ it.name) ++
         (writeVarNat it.offset ++
          ((if isDirFlag it.flags = true then []
            else writeVarNat it.uncompressedSize ++
              (if hasCompressedSize it.flags = true then writeVarNat it.size
               else [])) ++ rest))) by rw [hW]; simp [List.append_assoc]]
    rw [readItemName_write useHash _ _ _ hn]
    simp [List.length_append, Nat.add_assoc]
  have h3 : readVarAt (pre ++ (writeItemDescription useHash it ++ rest))
      (pre ++ writeVarNat it.flags ++
        (if useHash = true then it.name
         else writeVarNat it.name.length ++ it.name)).length =
      some (it.offset, (pre ++ writeVarNat it.flags ++
        (if useHash = true then it.name
         else writeVarNat it.name.length ++ it.name) ++
        writeVarNat it.offset).length) := by
    rw [show pre ++ (writeItemDescription useHash it ++ rest) =
      (pre ++ writeVarNat it.flags ++
        (if useHash = true then it.name
         else writeVarNat it.name.length ++ it.name)) ++
        (writeVarNat it.offset ++
          ((if isDirFlag it.flags = true then []
            else writeVarNat it.uncompressedSize ++
              (if hasCompressedSize it.flags = true then writeVarNat it.size
               else [])) ++ rest)) by rw [hW]; simp [List.append_assoc]]
    rw [readVarAt_write]
    simp [List.length_append, Nat.add_assoc]
  have h4 : readItemSizes it.flags
      (pre ++ (writeItemDescription useHash it ++ rest))
      (pre ++ writeVarNat it.flags ++
        (if useHash = true then it.name
         else writeVarNat it.name.length ++ it.name) ++
        writeVarNat it.offset).length =
      some (it.uncompressedSize, it.size,
        pre.length + (writeItemDescription useHash it).length) := by
    rw [show pre ++ (writeItemDescription useHash it ++ rest) =
      (pre ++ writeVarNat it.flags ++
        (if useHash = true then it.name
         else writeVarNat it.name.length ++ it.name) ++
        writeVarNat it.offset) ++
        ((if isDirFlag it.flags = true then []
          else writeVarNat it.uncompressedSize ++
            (if hasCompressedSize it.flags = true then writeVarNat it.size
             else [])) ++ rest) by rw [hW]; simp [List.append_assoc]]
    rw [readItemSizes_write it.flags _ _ _ _ hd hs]
    rw [Option.some_inj, Prod.mk.injEq]
    refine ⟨rfl, ?_⟩
    rw [Prod.mk.injEq]
    refine ⟨rfl, ?_⟩
    rw [hW]
    simp [List.length_append, Nat.add_assoc]
  rw [readItemAt, h1]
  simp only [Option.bind_eq_bind, Option.some_bind]
  rw [h2]
  simp only [Option.some_bind]
  rw [h3]
  simp only [Option.some_bind]
  rw [h4]
  rfl

theorem readBytesAt_zero (b : Bytes) (pos : Nat) (h : pos ≤ b.length) :
    readBytesAt b pos 0 = some [] := by
  rw [readBytesAt, if_pos (by omega)]
  simp

theorem readItemsAt_write (useHash : Bool) :
    ∀ (items : List Item) (pre rest : Bytes),
      (∀ it ∈ items, goodShallow useHash it) →
      readItemsAt useHash
          (pre ++ (items.flatMap (writeItemDescription useHash) ++ rest))
          items.length pre.length =
        (items.map shallowItem,
         some (pre.length +
           (items.flatMap (writeItemDescription useHash)).length)) := by
  intro items
  induction items with
  | nil =>
    intro pre rest _
    simp [readItemsAt]
  | cons it tl ih =>
    intro pre rest h
    rw [List.length_cons, readItemsAt]
    have hb : pre ++ ((it :: tl).flatMap (writeItemDescription useHash) ++ rest) =
        pre ++ (writeItemDescription useHash it ++
          (tl.flatMap (writeItemDescription useHash) ++ rest)) := by
      rw [List.flatMap_cons]
      simp [List.append_assoc]
    rw [hb, readItemAt_write useHash pre _ it (h it (List.mem_cons_self _ _))]
    dsimp only
    rw [show pre.length + (writeItemDescription useHash it).length =
      (pre ++ writeItemDescription useHash it).length by simp]
    rw [show pre ++ (writeItemDescription useHash it ++
        (tl.flatMap (writeItemDescription useHash) ++ rest)) =
      (pre ++ writeItemDescription useHash it) ++
        (tl.flatMap (writeItemDescription useHash) ++ rest) by
      simp [List.append_assoc]]
    rw [ih (pre ++ writeItemDescription useHash it) rest
      (fun x hx => h x (List.mem_cons_of_mem _ hx))]
    simp [List.length_append, Nat.add_assoc]

theorem readIndex_write_dir (useHash : Bool) (pre rest : Bytes)
    (children : List Item) (hg : ∀ it ∈ children, goodShallow useHash it) :
    readIndexFromStream useHash false
        (pre ++ (writeDirBlock useHash children ++ rest)) pre.length =
      ⟨none, children.map shallowItem,
       some (pre.length + (writeDirBlock useHash children).length)⟩ := by
  rw [readIndexFromStream, if_neg Bool.false_ne_true]
  dsimp only
  have hb : pre ++ (writeDirBlock useHash children ++ rest) =
      pre ++ (writeVarNat children.length ++
        (children.flatMap (writeItemDescription useHash) ++ rest)) := by
    rw [writeDirBlock]
    simp [List.append_assoc]
  rw [hb, readVarAt_write]
  dsimp only
  rw [show pre.length + (writeVarNat children.length).length =
    (pre ++ writeVarNat children.length).length by simp]
  rw [show pre ++ (writeVarNat children.length ++
      (children.flatMap (writeItemDescription useHash) ++ rest)) =
    (pre ++ writeVarNat children.length) ++
      (children.flatMap (writeItemDescription useHash) ++ rest) by
    simp [List.append_assoc]]
  rw [readItemsAt_write useHash children _ rest hg]
  dsimp only
  simp [writeDirBlock, List.length_append, Nat.add_assoc]

theorem readIndex_root_of_dir (useHash : Bool) (b : Bytes) (pos mpl p : Nat)
    (mp : Bytes) (h1 : readVarAt b pos = some (mpl, p))
    (h2 : mpl < int16Max) (h3 : readBytesAt b p mpl = some mp) :
    readIndexFromStream useHash true b pos =
      ⟨some (if !mp.isEmpty && !isSep (mp.getLastD 0) then mp ++ [slash]
             else mp),
       (readIndexFromStream useHash false b (p + mpl)).items,
       (readIndexFromStream useHash false b (p + mpl)).next⟩ := by
  rw [readIndexFromStream, if_pos rfl, h1]
  dsimp only
  rw [if_pos h2, h3]
  dsimp only
  rw [readIndexFromStream, if_neg Bool.false_ne_true]
  dsimp only
  cases h4 : readVarAt b (p + mpl) with
  | none => rfl
  | some cp =>
    obtain ⟨cnt, pc⟩ := cp
    dsimp only

theorem readIndex_write_root (useHash : Bool) (pre rest : Bytes)
    (items : List Item) (hg : ∀ it ∈ items, goodShallow useHash it) :
    readIndexFromStream useHash true
        (pre ++ (writeRootBlock useHash [] items ++ rest)) pre.length =
      ⟨some [], items.map shallowItem,
       some (pre.length + (writeRootBlock useHash [] items).length)⟩ := by
  have hb0 : pre ++ (writeRootBlock useHash [] items ++ rest) =
      pre ++ (writeVarNat 0 ++ (writeDirBlock useHash items ++ rest)) := by
    rw [writeRootBlock, writeDirBlock]
    simp [List.append_assoc]
  have h1 : readVarAt (pre ++ (writeRootBlock useHash [] items ++ rest))
      pre.length = some (0, pre.length + (writeVarNat 0).length) := by
    rw [hb0]
    exact readVarAt_write pre _ 0
  have h3 : readBytesAt (pre ++ (writeRootBlock useHash [] items ++ rest))
      (pre.length + (writeVarNat 0).length) 0 = some [] := by
    refine readBytesAt_zero _ _ ?_
    rw [hb0]
    simp [List.length_append]
  have hdir : readIndexFromStream useHash false
      (pre ++ (writeRootBlock useHash [] items ++ rest))
      (pre.length + (writeVarNat 0).length + 0) =
      ⟨none, items.map shallowItem,
       some ((pre ++ writeVarNat 0).length +
         (writeDirBlock useHash items).length)⟩ := by
    rw [show pre.length + (writeVarNat 0).length + 0 =
      (pre ++ writeVarNat 0).length by simp]
    rw [show pre ++ (writeRootBlock useHash [] items ++ rest) =
      (pre ++ writeVarNat 0) ++ (writeDirBlock useHash items ++ rest) by
      rw [hb0]; simp [List.append_assoc]]
    exact readIndex_write_dir useHash _ rest items hg
  rw [readIndex_root_of_dir useHash _ pre.length 0
    (pre.length + (writeVarNat 0).length) [] h1 (by decide) h3, hdir]
  have hmp : (if !List.isEmpty ([] : Bytes) &&
      !isSep (List.getLastD ([] : Bytes) 0) then ([] : Bytes) ++ [slash]
      else ([] : Bytes)) = ([] : Bytes) := rfl
  rw [hmp]
  have hlen : (pre ++ writeVarNat 0).length +
      (writeDirBlock useHash items).length =
      pre.length + (writeRootBlock useHash [] items).length := by
    rw [writeRootBlock, writeDirBlock]
    simp [List.length_append, Nat.add_assoc]
  rw [hlen]

/-! ## The byte-string order: `ltBytes` is a strict total order -/

theorem ltBytes_irrefl (a : Bytes) : ltBytes a a = false := by
  induction a with
  | nil => rfl
  | cons c cs ih =>
    rw [ltBytes]
    simp [Nat.lt_irrefl, ih]

theorem ltBytes_connex (a : Bytes) : ∀ (b : Bytes), ltBytes a b = false →
    ltBytes b a = false → a = b := by
  induction a with
  | nil =>
    intro b h1 _
    cases b with
    | nil => rfl
    | cons d ds => rw [ltBytes] at h1; exact absurd h1 (by simp)
  | cons c cs ih =>
    intro b h1 h2
    cases b with
    | nil => rw [ltBytes] at h2; exact absurd h2 (by simp)
    | cons d ds =>
      rw [ltBytes] at h1 h2
      by_cases hcd : c < d
      · rw [if_pos hcd] at h1
        exact absurd h1 (by simp)
      · rw [if_neg hcd] at h1
        by_cases hdc : d < c
        · rw [if_pos hdc] at h2
          exact absurd h2 (by simp)
        · rw [if_neg hdc] at h1
          rw [if_neg hdc, if_neg hcd] at h2
          have hde : c = d := by omega
          subst hde
          rw [ih ds h1 h2]

theorem ltBytes_asymm (a : Bytes) : ∀ (b : Bytes), ltBytes a b = true →
    ltBytes b a = false := by
  induction a with
  | nil =>
    intro b h
    cases b with
    | nil => exact absurd h (by rw [ltBytes]; simp)
    | cons d ds => rw [ltBytes]
  | cons c cs ih =>
    intro b h
    cases b with
    | nil => exact absurd h (by rw [ltBytes]; simp)
    | cons d ds =>
      rw [ltBytes] at h
      rw [ltBytes]
      by_cases hcd : c < d
      · rw [if_neg (by omega), if_pos hcd]
      · rw [if_neg hcd] at h
        by_cases hdc : d < c
        · rw [if_pos hdc] at h
          exact absurd h (by simp)
        · rw [if_neg hdc] at h
          rw [if_neg hdc, if_neg hcd]
          exact ih ds h

theorem ltBytes_trans (a : Bytes) : ∀ (b c : Bytes), ltBytes a b = true →
    ltBytes b c = true → ltBytes a c = true := by
  induction a with
  | nil =>
    intro b c h1 h2
    cases b with
    | nil => exact absurd h1 (by rw [ltBytes]; simp)
    | cons d ds =>
      cases c with
      | nil => exact absurd h2 (by rw [ltBytes]; simp)
      | cons e es => rw [ltBytes]
  | cons x xs ih =>
    intro b c h1 h2
    cases b with
    | nil => exact absurd h1 (by rw [ltBytes]; simp)
    | cons d ds =>
      cases c with
      | nil => exact absurd h2 (by rw [ltBytes]; simp)
      | cons e es =>
        rw [ltBytes] at h1 h2
        rw [ltBytes]
        by_cases hxd : x < d
        · rw [if_pos hxd] at h1
          by_cases hde : d < e
          · rw [if_pos (by omega)]
          · rw [if_neg hde] at h2
            by_cases hed : e < d
            · rw [if_pos hed] at h2
              exact absurd h2 (by simp)
            · have hde' : d = e := by omega
              subst hde'
              rw [if_pos hxd]
        · rw [if_neg hxd] at h1
          by_cases hdx : d < x
          · rw [if_pos hdx] at h1
            exact absurd h1 (by simp)
          · rw [if_neg hdx] at h1
            have hxd' : x = d := by omega
            subst hxd'
            by_cases hxe : x < e
            · rw [if_pos hxe]
            · rw [if_neg hxe] at h2
              rw [if_neg hxe]
              by_cases hex : e < x
              · rw [if_pos hex] at h2
                exact absurd h2 (by simp)
              · rw [if_neg hex] at h2
                rw [if_neg hex]
                exact ih ds es h1 h2

theorem leBytes_total (a b : Bytes) : leBytes a b = true ∨ leBytes b a = true := by
  rw [leBytes, leBytes]
  cases h1 : ltBytes b a with
  | false => exact Or.inl rfl
  | true => rw [ltBytes_asymm b a h1]; exact Or.inr rfl

theorem leBytes_trans (a b c : Bytes) (h1 : leBytes a b = true)
    (h2 : leBytes b c = true) : leBytes a c = true := by
  rw [leBytes] at h1 h2
  rw [leBytes]
  have g1 : ltBytes b a = false := by revert h1; cases ltBytes b a <;> simp
  have g2 : ltBytes c b = false := by revert h2; cases ltBytes c b <;> simp
  cases g3 : ltBytes c a with
  | false => rfl
  | true =>
    by_cases hab : ltBytes a b = true
    · by_cases hbc : ltBytes b c = true
      · rw [ltBytes_asymm a c (ltBytes_trans a b c hab hbc)] at g3
        cases g3
      · have hbc' : b = c :=
          ltBytes_connex b c (by revert hbc; cases ltBytes b c <;> simp) g2
        subst hbc'
        rw [ltBytes_asymm a b hab] at g3
        cases g3
    · have hab' : a = b :=
        ltBytes_connex a b (by revert hab; cases ltBytes a b <;> simp) g1
      subst hab'
      rw [g2] at g3
      cases g3

/-! ## `std::lower_bound` + equality check over a sorted array -/

theorem find_lowerBound (key : Bytes) :
    ∀ (l : List Item),
      l.Pairwise (fun a b => leBytes a.name b.name = true) →
      ∀ w : Item, w ∈ l → w.name = key →
      ∃ it, l.find? (fun it => ! ltBytes it.name key) = some it ∧
        it ∈ l ∧ it.name = key := by
  intro l
  induction l with
  | nil =>
    intro _ w hw _
    simp at hw
  | cons x xs ih =>
    intro hp w hw hwk
    by_cases hlt : ltBytes x.name key = true
    · rw [List.find?_cons_of_neg _ (by simp [hlt])]
      rcases List.mem_cons.mp hw with rfl | hwxs
      · rw [hwk, ltBytes_irrefl] at hlt
        cases hlt
      · obtain ⟨it, hfind, hmem, hname⟩ :=
          ih (List.pairwise_cons.mp hp).2 w hwxs hwk
        exact ⟨it, hfind, List.mem_cons_of_mem _ hmem, hname⟩
    · rw [List.find?_cons_of_pos _ (by simp [hlt])]
      refine ⟨x, rfl, List.mem_cons_self _ _, ?_⟩
      rcases List.mem_cons.mp hw with rfl | hwxs
      · exact hwk
      · have hle := (List.pairwise_cons.mp hp).1 w hwxs
        rw [hwk, leBytes] at hle
        have h2 : ltBytes key x.name = false := by
          revert hle; cases ltBytes key x.name <;> simp
        have h1 : ltBytes x.name key = false := by
          revert hlt; cases ltBytes x.name key <;> simp
        exact ltBytes_connex _ _ h1 h2

theorem lowerBoundFind_found (key : Bytes) (l : List Item)
    (hp : l.Pairwise (fun a b => leBytes a.name b.name = true))
    (w : Item) (hw : w ∈ l) (hwk : w.name = key) :
    ∃ it, lowerBoundFind l (fun it => ltBytes it.name key)
        (fun it => it.name == key) = some it ∧ it ∈ l ∧ it.name = key := by
  obtain ⟨it, hfind, hmem, hname⟩ := find_lowerBound key l hp w hw hwk
  refine ⟨it, ?_, hmem, hname⟩
  rw [lowerBoundFind, hfind]
  dsimp only
  rw [if_pos (by simp [hname])]

theorem lowerBoundFind_not_found (key : Bytes) (l : List Item)
    (habs : ∀ w ∈ l, w.name ≠ key) :
    lowerBoundFind l (fun it => ltBytes it.name key)
      (fun it => it.name == key) = none := by
  rw [lowerBoundFind]
  cases hf : l.find? (fun it => ! ltBytes it.name key) with
  | none => rfl
  | some it =>
    have hmem := List.mem_of_find?_eq_some hf
    dsimp only
    rw [if_neg (by simpa using habs it hmem)]

/-! ## Sorting by name -/

theorem sortByName_pairwise (items : List Item) :
    (sortByName items).Pairwise (fun a b => leBytes a.name b.name = true) := by
  rw [sortByName]
  haveI : IsTotal Item (fun a b => leBytes a.name b.name = true) :=
    ⟨fun a b => leBytes_total a.name b.name⟩
  haveI : IsTrans Item (fun a b => leBytes a.name b.name = true) :=
    ⟨fun a b c => leBytes_trans a.name b.name c.name⟩
  exact List.sorted_insertionSort _ items

theorem sortByName_perm (items : List Item) : (sortByName items).Perm items :=
  List.perm_insertionSort _ items

theorem sortByName_mem (items : List Item) (it : Item) :
    it ∈ sortByName items ↔ it ∈ items :=
  (sortByName_perm items).mem_iff

theorem map_self_of_mem {α : Type} (l : List α) (f : α → α)
    (h : ∀ x ∈ l, f x = x) : l.map f = l := by
  induction l with
  | nil => rfl
  | cons x xs ih =>
    rw [List.map_cons, h x (List.mem_cons_self _ _),
      ih (fun y hy => h y (List.mem_cons_of_mem _ hy))]

/-! ## Opening a finalized archive: the footer parses back -/

theorem writeFooter_length (useHash useComp : Bool) (n : Nat) :
    (writeFooter useHash useComp n).length = 16 := by
  rw [writeFooter]
  simp [signature, le16, le64, List.length_append]

theorem pakOpen_footer (out rb : Bytes) (useHash useComp : Bool)
    (hout : 8 ≤ out.length) (hrb : 1 ≤ rb.length)
    (h64 : out.length < 18446744073709551616) :
    pakOpen (out ++ (rb ++ writeFooter useHash useComp out.length)) =
      ⟨true, useHash,
       (constructsItemsFromIndex useHash useComp
          (out ++ (rb ++ writeFooter useHash useComp out.length))
          out.length true 0).2.getD [],
       (constructsItemsFromIndex useHash useComp
          (out ++ (rb ++ writeFooter useHash useComp out.length))
          out.length true 0).1⟩ := by
  have hftlen : (writeFooter useHash useComp out.length).length = 16 :=
    writeFooter_length useHash useComp out.length
  set ft := writeFooter useHash useComp out.length with hft
  set b := out ++ (rb ++ ft) with hb
  have hlen : b.length = out.length + rb.length + 16 := by
    rw [hb]
    simp only [List.length_append, hftlen]
    omega
  have hftform : ft = signature ++ (le16 version ++
      (le16 ((if useHash = true then pakFlagHashIndex else 0) |||
             (if useComp = true then pakFlagDeflateCompressedIndex else 0)) ++
       le64 out.length)) := by
    rw [hft, writeFooter]
    simp [List.append_assoc]
  have hsig : readBytesAt b (b.length - footerSize) 4 = some signature := by
    rw [show b.length - footerSize = (out ++ rb).length by
      rw [hlen]; simp only [List.length_append, footerSize]; omega]
    rw [show (4 : Nat) = signature.length from rfl]
    rw [show b = (out ++ rb) ++ (signature ++ (le16 version ++
      (le16 ((if useHash = true then pakFlagHashIndex else 0) |||
             (if useComp = true then pakFlagDeflateCompressedIndex else 0)) ++
       le64 out.length))) by rw [hb, hftform]; simp [List.append_assoc]]
    exact readBytesAt_write _ _ _
  have hver : readLE16At b (b.length - footerSize + 4) = some version := by
    rw [show b.length - footerSize + 4 = ((out ++ rb) ++ signature).length by
      rw [hlen]; simp only [List.length_append, footerSize, signature,
        List.length_cons, List.length_nil]; omega]
    rw [show b = ((out ++ rb) ++ signature) ++ (le16 version ++
      (le16 ((if useHash = true then pakFlagHashIndex else 0) |||
             (if useComp = true then pakFlagDeflateCompressedIndex else 0)) ++
       le64 out.length)) by rw [hb, hftform]; simp [List.append_assoc]]
    exact readLE16At_write _ _ _ (by decide)
  have hflg : readLE16At b (b.length - footerSize + 6) =
      some ((if useHash = true then pakFlagHashIndex else 0) |||
            (if useComp = true then pakFlagDeflateCompressedIndex else 0)) := by
    rw [show b.length - footerSize + 6 =
      ((out ++ rb) ++ signature ++ le16 version).length by
      rw [hlen]; simp only [List.length_append, footerSize, signature, le16,
        List.length_cons, List.length_nil]; omega]
    rw [show b = ((out ++ rb) ++ signature ++ le16 version) ++
      (le16 ((if useHash = true then pakFlagHashIndex else 0) |||
             (if useComp = true then pakFlagDeflateCompressedIndex else 0)) ++
       (le64 out.length ++ [])) by
      rw [hb, hftform]; simp [List.append_assoc]]
    exact readLE16At_write _ _ _
      (by cases useHash <;> cases useComp <;> decide)
  have hoff : readLE64At b (b.length - footerSize + 8) = some out.length := by
    rw [show b.length - footerSize + 8 =
      ((out ++ rb) ++ signature ++ le16 version ++
        le16 ((if useHash = true then pakFlagHashIndex else 0) |||
              (if useComp = true then pakFlagDeflateCompressedIndex else 0))).length by
      rw [hlen]; simp only [List.length_append, footerSize, signature, le16,
        List.length_cons, List.length_nil]; omega]
    rw [show b = ((out ++ rb) ++ signature ++ le16 version ++
      le16 ((if useHash = true then pakFlagHashIndex else 0) |||
            (if useComp = true then pakFlagDeflateCompressedIndex else 0))) ++
      (le64 out.length ++ []) by
      rw [hb, hftform]; simp [List.append_assoc]]
    exact readLE64At_write _ _ _ h64
  have hUH : (((if useHash = true then pakFlagHashIndex else 0) |||
      (if useComp = true then pakFlagDeflateCompressedIndex else 0)) &&&
      pakFlagHashIndex == pakFlagHashIndex) = useHash := by
    cases useHash <;> cases useComp <;> rfl
  have hDF : (((if useHash = true then pakFlagHashIndex else 0) |||
      (if useComp = true then pakFlagDeflateCompressedIndex else 0)) &&&
      pakFlagDeflateCompressedIndex == pakFlagDeflateCompressedIndex) =
      useComp := by
    cases useHash <;> cases useComp <;> rfl
  rw [pakOpen, if_neg (by simp only [footerSize]; omega)]
  dsimp only
  rw [hsig]
  dsimp only
  rw [if_neg (by simp), hver, hflg, hoff]
  dsimp only
  rw [if_neg (by simp [version]), if_neg (by simp; omega)]
  rw [hUH, hDF]

/-! ## Flat (hash-index) archives: `Finalize` then open -/

/-- The shape of every root item a flat-mode writer stores: a non-directory
with an 8-byte (hash) name, no children, and a zero stored size when no
compression flag is set. -/
def flatItemOk (it : Item) : Prop :=
  isDirFlag it.flags = false ∧ it.name.length = hashIndexLength ∧
  it.children = [] ∧ (hasCompressedSize it.flags = false → it.size = 0)

theorem bfsAux_nil_frontier (tree : List Item) (fuel : Nat) :
    bfsAux tree fuel [] = [] := by
  cases fuel with
  | zero => rfl
  | succ n => rw [bfsAux]; simp

theorem dirIdxs_nil_of_files (items : List Item)
    (h : ∀ it ∈ items, isDirFlag it.flags = false) : dirIdxs items = [] := by
  rw [dirIdxs, List.filter_eq_nil_iff]
  intro i hi
  simp only [List.mem_range] at hi
  have hmem : items.getD i defaultItem ∈ items := by
    rw [List.getD_eq_getElem _ _ hi]
    exact List.getElem_mem hi
  have hx := h _ hmem
  intro hc
  rw [hx] at hc
  exact absurd hc (by simp)

theorem dirQueue_nil_of_files (items : List Item)
    (h : ∀ it ∈ items, isDirFlag it.flags = false) : dirQueue items = [] := by
  rw [dirQueue, dirIdxs_nil_of_files items h]
  simp [bfsAux_nil_frontier]

theorem finalize_flat (w : PakWriter)
    (hmp : w.mountPoint = [])
    (hfiles : ∀ it ∈ w.rootItems, isDirFlag it.flags = false)
    (hne : w.rootItems ≠ []) :
    finalize w = some (w.output ++
      (writeRootBlock w.useHashIndex [] (sortByName w.rootItems) ++
       writeFooter w.useHashIndex w.useCompressedIndex w.output.length)) := by
  have hhf : hasFilesB w.rootItems = true := by
    rw [hasFilesB]
    rcases h0 : w.rootItems with _ | ⟨it, rest⟩
    · exact absurd h0 hne
    · have hit := hfiles it (by rw [h0]; exact List.mem_cons_self _ _)
      simp [List.any_cons, hit]
  rw [finalize, dirQueue_nil_of_files w.rootItems hfiles]
  dsimp only
  rw [if_neg (by simp [hhf])]
  simp only [List.reverse_nil, List.foldl_nil]
  rw [if_neg (by rw [hmp]; decide)]
  rw [hmp]
  simp [List.append_assoc]

theorem pakOpen_finalize_flat (w : PakWriter)
    (hhash : w.useHashIndex = true) (hcomp : w.useCompressedIndex = false)
    (hmp : w.mountPoint = []) (hout : 8 ≤ w.output.length)
    (h64 : w.output.length < 18446744073709551616)
    (hne : w.rootItems ≠ [])
    (hinv : ∀ it ∈ w.rootItems, flatItemOk it) :
    ∃ b, finalize w = some b ∧
      pakOpen b = ⟨true, true, [], sortByName w.rootItems⟩ := by
  have hfiles : ∀ it ∈ w.rootItems, isDirFlag it.flags = false :=
    fun it h => (hinv it h).1
  refine ⟨_, finalize_flat w hmp hfiles hne, ?_⟩
  rw [hhash, hcomp]
  have hrb : 1 ≤ (writeRootBlock true [] (sortByName w.rootItems)).length := by
    rw [writeRootBlock]
    have := List.length_pos.mpr (writeVarNat_ne_nil 0)
    simp [List.length_append]
    omega
  rw [pakOpen_footer w.output _ true false hout hrb h64]
  have hgs : ∀ it ∈ sortByName w.rootItems, goodShallow true it := by
    intro it hit
    obtain ⟨hdir, hn, hch, hsz⟩ := hinv it ((sortByName_mem _ _).mp hit)
    exact ⟨by rw [if_pos rfl]; exact hn, fun h => absurd h (by simp [hdir]),
      fun _ h => hsz h⟩
  have hread := readIndex_write_root true w.output
    (writeFooter true false w.output.length) (sortByName w.rootItems) hgs
  have hconstr : constructsItemsFromIndex true false
      (w.output ++ (writeRootBlock true [] (sortByName w.rootItems) ++
        writeFooter true false w.output.length)) w.output.length true 0 =
      (sortByName w.rootItems, some []) := by
    rw [constructsItemsFromIndex]
    rw [show maxDepth - 0 = 63 + 1 from rfl]
    rw [constructsAux]
    rw [if_neg Bool.false_ne_true]
    dsimp only
    rw [hread]
    dsimp only
    have hmap : ((sortByName w.rootItems).map shallowItem).map
        (fun it => if isDirFlag it.flags = true then
          Item.mk it.name it.flags it.offset it.uncompressedSize it.size
            (constructsAux true false
              (w.output ++ (writeRootBlock true [] (sortByName w.rootItems) ++
                writeFooter true false w.output.length)) it.offset false 63).1
          else it) = sortByName w.rootItems := by
      rw [List.map_map]
      refine map_self_of_mem _ _ ?_
      intro x hx
      obtain ⟨hdir, hn, hch, hsz⟩ := hinv x ((sortByName_mem _ _).mp hx)
      have hshx : shallowItem x = x := by
        rw [shallowItem, ← hch, Item.eta]
      simp only [Function.comp_apply, hshx]
      rw [if_neg (by simp [hdir])]
    rw [hmap]
  rw [hconstr]
  rfl

/-- `FileExists` in flat mode over a sorted root array: present hash →
`some true`. -/
theorem fileExists_flat (hash : Bytes → Nat) (s : PakState)
    (huse : s.useHashIndex = true)
    (hp : s.rootItems.Pairwise (fun a b => leBytes a.name b.name = true))
    (hfiles : ∀ it ∈ s.rootItems, isDirFlag it.flags = false)
    (path : Bytes)
    (hmem : ∃ it ∈ s.rootItems, it.name =
      le64 (fileNameToHash hash (path.dropWhile (fun c => isSep c)))) :
    fileExists hash s path = some true := by
  obtain ⟨w, hw, hwk⟩ := hmem
  obtain ⟨it, hfind, hmemit, hname⟩ := lowerBoundFind_found _ s.rootItems hp w hw hwk
  rw [fileExists, findItem]
  dsimp only
  rw [if_pos huse]
  rw [hfind]
  dsimp only
  rw [hfiles it hmemit]
  rfl

/-! ## C9: flat mode hides hierarchy -/

/-- C9 (amended) — For an archive finalized by a flat-mode (hash-index)
writer in the state flat `AddFile` calls produce (only hash-named file items,
empty mount point, uncompressed index): (1) directory enumeration yields zero
entries for every path and every options; and (2) `FileExists` returns true
for every path whose trimmed form hashes to a stored item name — in
particular for every added path that does not begin with a path separator.
(For a path added *with* a leading separator the writer hashes it untrimmed
while the reader trims before hashing, so `FileExists` can return false —
see the counterexample.) -/
theorem C9_flat_hides_hierarchy_amended (hash : Bytes → Nat) (w : PakWriter)
    (hhash : w.useHashIndex = true) (hcomp : w.useCompressedIndex = false)
    (hmp : w.mountPoint = []) (hout : 8 ≤ w.output.length)
    (h64 : w.output.length < 18446744073709551616)
    (hne : w.rootItems ≠ [])
    (hinv : ∀ it ∈ w.rootItems, flatItemOk it) :
    ∃ b, finalize w = some b ∧
      (∀ path options, dirEnumerate hash (pakOpen b) path options = some []) ∧
      (∀ path : Bytes,
        (∃ it ∈ w.rootItems, it.name =
          le64 (fileNameToHash hash (path.dropWhile (fun c => isSep c)))) →
        fileExists hash (pakOpen b) path = some true) := by
  obtain ⟨b, hfin, hopen⟩ :=
    pakOpen_finalize_flat w hhash hcomp hmp hout h64 hne hinv
  refine ⟨b, hfin, ?_, ?_⟩
  · intro path options
    rw [hopen, dirEnumerate]
    rfl
  · intro path hmem
    rw [hopen]
    refine fileExists_flat hash _ rfl (sortByName_pairwise w.rootItems) ?_ path ?_
    · intro it hit
      exact (hinv it ((sortByName_mem _ _).mp hit)).1
    · obtain ⟨it, hmemit, hname⟩ := hmem
      exact ⟨it, (sortByName_mem _ _).mpr hmemit, hname⟩

/-- Counterexample for C9 as stated: in flat mode, add the file `"/a"`
(leading separator; content `[1]`) — `AddFile` succeeds and `Finalize`
produces a valid archive, yet `FileExists("/a")` returns `false`: the writer
hashed the untrimmed `"/a"` while the reader trims leading separators and
looks up the hash of `"a"`. -/
theorem C9_flat_hides_hierarchy_counterexample :
    (addFileB sampleHash idCodecs (pakWriterNew true false false) [1] [47, 97]
      PakPreferredCompression.none).2 = true ∧
    (finalize (addFileB sampleHash idCodecs (pakWriterNew true false false)
      [1] [47, 97] PakPreferredCompression.none).1).isSome = true ∧
    fileExists sampleHash
      (pakOpen ((finalize (addFileB sampleHash idCodecs
        (pakWriterNew true false false) [1] [47, 97]
        PakPreferredCompression.none).1).getD []))
      [47, 97] = some false := by
  refine ⟨?_, ?_, ?_⟩ <;> decide

/-- Witness for the amended C9 at a concrete archive: one flat add of path
`"a"` with content `[1]`. -/
theorem C9_flat_hides_hierarchy_amended_witness :
    ∃ b, finalize (addFile sampleHash idCodecs (pakWriterNew true false false)
        [1] [97] PakPreferredCompression.none).1 = some b ∧
      (∀ path options, dirEnumerate sampleHash (pakOpen b) path options =
        some []) ∧
      (∀ path : Bytes,
        (∃ it ∈ (addFile sampleHash idCodecs (pakWriterNew true false false)
            [1] [97] PakPreferredCompression.none).1.rootItems, it.name =
          le64 (fileNameToHash sampleHash
            (path.dropWhile (fun c => isSep c)))) →
        fileExists sampleHash (pakOpen b) path = some true) :=
  C9_flat_hides_hierarchy_amended sampleHash _ (by decide) (by decide)
    (by decide) (by decide) (by decide)
    (by apply List.ne_nil_of_length_pos; decide)
    (by
      intro it hit
      rw [show (addFile sampleHash idCodecs (pakWriterNew true false false)
          [1] [97] PakPreferredCompression.none).1.rootItems =
        [Item.mk [105, 7, 0, 0, 0, 0, 0, 0] 0 8 1 0 []] from rfl] at hit
      rcases List.mem_singleton.mp hit with rfl
      exact ⟨rfl, rfl, rfl, fun _ => rfl⟩)

/-! ## Tree-mode archives: invariants of the writer's item forest -/

mutual

/-- The invariant the tree-mode writer maintains on every sibling array:
parse-compatible names, sibling names pairwise distinct, directories with
zero size fields, files with no children and zero stored size when no
compression flag is set. -/
def treeItemOkB : Item → Bool
  | .mk n f _ u s c =>
    decide (n.length < int32Max) &&
    (if isDirFlag f then decide (u = 0) && decide (s = 0)
     else c.isEmpty && (hasCompressedSize f || decide (s = 0))) &&
    treeForestOkB c

def treeForestOkB : List Item → Bool
  | [] => true
  | it :: rest =>
    treeItemOkB it && rest.all (fun b => !(it.name == b.name)) &&
    treeForestOkB rest

end

/-- A component path: every component nonempty, free of path separators, and
short enough for the serialized name-length guard. -/
def compOk (c : Bytes) : Bool :=
  !c.isEmpty && c.all (fun ch => !isSep ch) && decide (c.length < int32Max)

/-- The path `"c1/c2/.../ck"` built from components. -/
def joinComps : List Bytes → Bytes
  | [] => []
  | [c] => c
  | c :: cs => c ++ slash :: joinComps cs

/-- A name chain through the forest, ending at `w`; every interior node is a
directory. -/
def chainEx : List Item → List Bytes → Item → Prop
  | items, [d], w => w ∈ items ∧ w.name = d
  | items, d :: ds, w =>
    ∃ p ∈ items, p.name = d ∧ isDirFlag p.flags = true ∧ chainEx p.children ds w
  | _, [], _ => False

/-- Whether the name chain `cs` exists in the forest (the walk
`FindOrCreateParentItem` performs, first match by name). -/
def hasNodeB : List Item → List Bytes → Bool
  | _, [] => true
  | items, [d] => items.any (fun it => it.name == d)
  | items, d :: ds =>
    match items.find? (fun it => it.name == d) with
    | none => false
    | some it => hasNodeB it.children ds

/-- Fold a sequence of `AddFile` calls (content, path, compression). -/
def addAll (hash : Bytes → Nat) (codecs : Codecs) :
    PakWriter → List (Bytes × Bytes × PakPreferredCompression) → PakWriter
  | w, [] => w
  | w, (c, p, pc) :: rest =>
    addAll hash codecs (addFile hash codecs w c p pc).1 rest

/-! ## Tree-mode archives: what `Finalize` makes of the forest -/

mutual

/-- How `Finalize` transforms one original item into its serialized-and-
reparsed image: files are untouched; a directory keeps name, flags and size
fields, gets a fresh offset, and its children are transformed pointwise and
then sorted by name. -/
def finItem : Item → Item → Prop
  | .mk n f o u s c, fin =>
    if isDirFlag f = true then
      ∃ o2 c2, fin = Item.mk n f o2 u s (sortByName c2) ∧ finForest c c2
    else fin = Item.mk n f o u s c

def finForest : List Item → List Item → Prop
  | [], c2 => c2 = []
  | it :: rest, c2 =>
    ∃ y ys, c2 = y :: ys ∧ finItem it y ∧ finForest rest ys

end

mutual

/-- A finalized forest inside the byte string `o`: every directory's offset
points at an index block in `o` that parses back to exactly its (shallow)
children, recursively; every item would serialize-roundtrip (name guard,
directory sizes zero, zero stored size without a compression flag). -/
def itemOkForI (o : Bytes) : Item → Prop
  | .mk n f off u s c =>
    (n.length = 0 ∨ n.length < int32Max) ∧
    (if isDirFlag f = true then
       u = 0 ∧ s = 0 ∧
       ∃ q, readIndexFromStream false false o off =
         ⟨none, c.map shallowItem, some q⟩
     else c = [] ∧ (hasCompressedSize f = false → s = 0)) ∧
    itemsOkFor o c

def itemsOkFor (o : Bytes) : List Item → Prop
  | [] => True
  | it :: rest => itemOkForI o it ∧ itemsOkFor o rest

end

mutual

/-- The partially-finalized relation between the original forest and the
working tree mid-`Finalize`: a node whose address is in `procd` is fully
finalized (`finItem` shape, blocks present in `o`); any other node still has
its original fields, children related pointwise. -/
def partItem (o : Bytes) (procd : List (List Nat)) :
    List Nat → Item → Item → Prop
  | a, .mk n f off u s c, fin =>
    if a ∈ procd then
      finItem (.mk n f off u s c) fin ∧ itemOkForI o fin
    else
      ∃ c2, fin = Item.mk n f off u s c2 ∧ partForest o procd a 0 c c2

def partForest (o : Bytes) (procd : List (List Nat)) :
    List Nat → Nat → List Item → List Item → Prop
  | _, _, [], c2 => c2 = []
  | a, j, it :: rest, c2 =>
    ∃ y ys, c2 = y :: ys ∧ partItem o procd (a ++ [j]) it y ∧
      partForest o procd a (j + 1) rest ys

end

mutual

/-- What `FindItem`'s per-level binary search needs of the reopened forest:
every sibling array sorted by name with pairwise-distinct names. -/
def findOkI : Item → Prop
  | .mk _ _ _ _ _ c =>
    c.Pairwise (fun a b => leBytes a.name b.name = true) ∧
    c.Pairwise (fun a b => a.name ≠ b.name) ∧ findOkL c

def findOkL : List Item → Prop
  | [] => True
  | it :: rest => findOkI it ∧ findOkL rest

end

/-- `findOkI` lifted to a root forest. -/
def findOkForest (items : List Item) : Prop :=
  items.Pairwise (fun a b => leBytes a.name b.name = true) ∧
  items.Pairwise (fun a b => a.name ≠ b.name) ∧ findOkL items

/-! ## Basic lemmas about the tree predicates -/

mutual

theorem itemOkForI_extend (o ext : Bytes) : ∀ (it : Item),
    itemOkForI o it → itemOkForI (o ++ ext) it
  | .mk n f off u s c, h => by
    rw [itemOkForI] at h
    rw [itemOkForI]
    obtain ⟨h1, h2, h3⟩ := h
    refine ⟨h1, ?_, itemsOkFor_extend o ext c h3⟩
    by_cases hd : isDirFlag f = true
    · rw [if_pos hd] at h2
      rw [if_pos hd]
      obtain ⟨hu, hs, q, hq⟩ := h2
      exact ⟨hu, hs, q,
        readIndex_extend false false o ext off none (c.map shallowItem) q hq⟩
    · rw [if_neg hd] at h2
      rw [if_neg hd]
      exact h2

theorem itemsOkFor_extend (o ext : Bytes) : ∀ (l : List Item),
    itemsOkFor o l → itemsOkFor (o ++ ext) l
  | [], h => h
  | it :: rest, h => by
    rw [itemsOkFor] at h
    rw [itemsOkFor]
    exact ⟨itemOkForI_extend o ext it h.1, itemsOkFor_extend o ext rest h.2⟩

end

theorem itemsOkFor_mem (o : Bytes) : ∀ (l : List Item), itemsOkFor o l →
    ∀ it ∈ l, itemOkForI o it := by
  intro l
  induction l with
  | nil => intro _ it hit; simp at hit
  | cons x xs ih =>
    intro h it hit
    rw [itemsOkFor] at h
    rcases List.mem_cons.mp hit with rfl | hm
    · exact h.1
    · exact ih h.2 it hm

theorem itemsOkFor_of_mem (o : Bytes) : ∀ (l : List Item),
    (∀ it ∈ l, itemOkForI o it) → itemsOkFor o l := by
  intro l
  induction l with
  | nil => intro _; trivial
  | cons x xs ih =>
    intro h
    rw [itemsOkFor]
    exact ⟨h x (List.mem_cons_self _ _),
      ih (fun it hit => h it (List.mem_cons_of_mem _ hit))⟩

theorem goodShallow_of_okFor (o : Bytes) (it : Item) (h : itemOkForI o it) :
    goodShallow false it := by
  cases it with
  | mk n f off u s c =>
    rw [itemOkForI] at h
    obtain ⟨h1, h2, _⟩ := h
    refine ⟨by rw [if_neg Bool.false_ne_true]; simpa using h1, ?_, ?_⟩
    · intro hd
      rw [if_pos (by simpa using hd)] at h2
      exact ⟨by simpa using h2.1, by simpa using h2.2.1⟩
    · intro hd hc
      rw [if_neg (by simpa using hd)] at h2
      exact by simpa using h2.2 (by simpa using hc)

theorem treeForestOkB_cons (it : Item) (rest : List Item)
    (h : treeForestOkB (it :: rest) = true) :
    treeItemOkB it = true ∧
    (∀ b ∈ rest, it.name ≠ b.name) ∧ treeForestOkB rest = true := by
  rw [treeForestOkB] at h
  simp only [Bool.and_eq_true] at h
  refine ⟨h.1.1, ?_, h.2⟩
  intro b hb
  have := List.all_eq_true.mp h.1.2 b hb
  simpa using this

theorem treeForestOkB_mem : ∀ (l : List Item), treeForestOkB l = true →
    ∀ it ∈ l, treeItemOkB it = true := by
  intro l
  induction l with
  | nil => intro _ it hit; simp at hit
  | cons x xs ih =>
    intro h it hit
    obtain ⟨h1, _, h3⟩ := treeForestOkB_cons x xs h
    rcases List.mem_cons.mp hit with rfl | hm
    · exact h1
    · exact ih h3 it hm

theorem treeForestOkB_names : ∀ (l : List Item), treeForestOkB l = true →
    l.Pairwise (fun a b => a.name ≠ b.name) := by
  intro l
  induction l with
  | nil => intro _; exact List.Pairwise.nil
  | cons x xs ih =>
    intro h
    obtain ⟨_, h2, h3⟩ := treeForestOkB_cons x xs h
    exact List.pairwise_cons.mpr ⟨h2, ih h3⟩

theorem treeItemOkB_children (it : Item) (h : treeItemOkB it = true) :
    treeForestOkB it.children = true := by
  cases it with
  | mk n f o u s c =>
    rw [treeItemOkB] at h
    simp only [Bool.and_eq_true] at h
    exact h.2

theorem treeItemOkB_parts (n : Bytes) (f o u s : Nat) (c : List Item)
    (h : treeItemOkB (Item.mk n f o u s c) = true) :
    n.length < int32Max ∧
    (isDirFlag f = true → u = 0 ∧ s = 0) ∧
    (isDirFlag f = false → c = [] ∧ (hasCompressedSize f = false → s = 0)) := by
  rw [treeItemOkB] at h
  simp only [Bool.and_eq_true, decide_eq_true_eq] at h
  refine ⟨h.1.1, ?_, ?_⟩
  · intro hd
    rw [if_pos hd] at h
    have := h.1.2
    simp only [Bool.and_eq_true, decide_eq_true_eq] at this
    exact this
  · intro hd
    rw [if_neg (by simp [hd])] at h
    have := h.1.2
    simp only [Bool.and_eq_true, Bool.or_eq_true, decide_eq_true_eq,
      List.isEmpty_iff] at this
    refine ⟨this.1, ?_⟩
    intro hc
    rcases this.2 with hcs | hs0
    · rw [hcs] at hc
      cases hc
    · exact hs0

mutual

theorem itemDirHeight_le_itemSize : ∀ (it : Item),
    itemDirHeight it ≤ itemSize it
  | .mk n f o u s c => by
    rw [itemDirHeight, itemSize]
    split
    · have := dirsHeight_le_itemsSize c
      omega
    · omega

theorem dirsHeight_le_itemsSize : ∀ (l : List Item),
    dirsHeight l ≤ itemsSize l
  | [] => by rw [dirsHeight, itemsSize]; omega
  | it :: rest => by
    rw [dirsHeight, itemsSize]
    have h1 := itemDirHeight_le_itemSize it
    have h2 := dirsHeight_le_itemsSize rest
    omega

end

theorem itemDirHeight_mem : ∀ (l : List Item), ∀ it ∈ l,
    itemDirHeight it ≤ dirsHeight l := by
  intro l
  induction l with
  | nil => intro it hit; simp at hit
  | cons x xs ih =>
    intro it hit
    rw [dirsHeight]
    rcases List.mem_cons.mp hit with rfl | hm
    · omega
    · have := ih it hm
      omega

/-! ## Parse reconstruction: a finalized forest parses back exactly -/

theorem constructsAux_of_ok (b : Bytes) :
    ∀ (fuel : Nat) (items : List Item) (pos : Nat) (isRoot : Bool)
      (m : Option Bytes) (q : Nat),
      itemsOkFor b items → dirsHeight items ≤ fuel →
      readIndexFromStream false isRoot b pos =
        ⟨m, items.map shallowItem, some q⟩ →
      constructsAux false false b pos isRoot (fuel + 1) = (items, m) := by
  intro fuel
  induction fuel with
  | zero =>
    intro items pos isRoot m q hok hh hread
    rw [constructsAux, if_neg Bool.false_ne_true]
    dsimp only
    rw [hread]
    dsimp only
    rw [List.map_map, Prod.mk.injEq]
    refine ⟨?_, rfl⟩
    refine map_self_of_mem _ _ ?_
    intro x hx
    have hxo := itemsOkFor_mem b items hok x hx
    have hdh := itemDirHeight_mem items x hx
    cases x with
    | mk n f o u s c =>
      rw [itemDirHeight] at hdh
      have hnd : isDirFlag f = false := by
        by_cases hd : isDirFlag f = true
        · rw [if_pos hd] at hdh
          omega
        · revert hd
          cases isDirFlag f <;> simp
      rw [itemOkForI] at hxo
      obtain ⟨_, h2, _⟩ := hxo
      rw [if_neg (by simp [hnd])] at h2
      simp only [Function.comp_apply, shallowItem, Item.name_mk, Item.flags_mk,
        Item.offset_mk, Item.uncompressedSize_mk, Item.size_mk]
      rw [if_neg (by simp [hnd]), h2.1]
  | succ fuelN ih =>
    intro items pos isRoot m q hok hh hread
    rw [constructsAux, if_neg Bool.false_ne_true]
    dsimp only
    rw [hread]
    dsimp only
    rw [List.map_map, Prod.mk.injEq]
    refine ⟨?_, rfl⟩
    refine map_self_of_mem _ _ ?_
    intro x hx
    have hxo := itemsOkFor_mem b items hok x hx
    have hdh := itemDirHeight_mem items x hx
    cases x with
    | mk n f o u s c =>
      rw [itemDirHeight] at hdh
      rw [itemOkForI] at hxo
      obtain ⟨_, h2, h3⟩ := hxo
      by_cases hd : isDirFlag f = true
      · rw [if_pos hd] at h2
        rw [if_pos hd] at hdh
        obtain ⟨hu, hs, q2, hq2⟩ := h2
        have hrec : constructsAux false false b o false (fuelN + 1) =
            (c, none) :=
          ih c o false none q2 h3 (by omega) hq2
        simp only [Function.comp_apply, shallowItem, Item.name_mk,
          Item.flags_mk, Item.offset_mk, Item.uncompressedSize_mk,
          Item.size_mk]
        rw [if_pos (by simp [hd]), hrec]
      · rw [if_neg hd] at h2
        simp only [Function.comp_apply, shallowItem, Item.name_mk,
          Item.flags_mk, Item.offset_mk, Item.uncompressedSize_mk,
          Item.size_mk]
        rw [if_neg (by simp [hd]), h2.1]

/-! ## The partially-finalized relation: basic properties -/

mutual

theorem partItem_refl (o : Bytes) : ∀ (a : List Nat) (it : Item),
    partItem o [] a it it
  | a, .mk n f off u s c => by
    rw [partItem]
    rw [if_neg (by simp)]
    exact ⟨c, rfl, partForest_refl o a 0 c⟩

theorem partForest_refl (o : Bytes) : ∀ (a : List Nat) (j : Nat)
    (c : List Item), partForest o [] a j c c
  | _, _, [] => rfl
  | a, j, it :: rest => by
    rw [partForest]
    exact ⟨it, rest, rfl, partItem_refl o (a ++ [j]) it,
      partForest_refl o a (j + 1) rest⟩

end

mutual

theorem partItem_extend (o ext : Bytes) (procd : List (List Nat)) :
    ∀ (a : List Nat) (it fin : Item), partItem o procd a it fin →
      partItem (o ++ ext) procd a it fin
  | a, .mk n f off u s c, fin, h => by
    rw [partItem] at h
    rw [partItem]
    by_cases hm : a ∈ procd
    · rw [if_pos hm] at h
      rw [if_pos hm]
      exact ⟨h.1, itemOkForI_extend o ext fin h.2⟩
    · rw [if_neg hm] at h
      rw [if_neg hm]
      obtain ⟨c2, rfl, hf⟩ := h
      exact ⟨c2, rfl, partForest_extend o ext procd a 0 c c2 hf⟩

theorem partForest_extend (o ext : Bytes) (procd : List (List Nat)) :
    ∀ (a : List Nat) (j : Nat) (c c2 : List Item),
      partForest o procd a j c c2 → partForest (o ++ ext) procd a j c c2
  | _, _, [], _, h => h
  | a, j, it :: rest, c2, h => by
    rw [partForest] at h
    rw [partForest]
    obtain ⟨y, ys, rfl, h1, h2⟩ := h
    exact ⟨y, ys, rfl, partItem_extend o ext procd (a ++ [j]) it y h1,
      partForest_extend o ext procd a (j + 1) rest ys h2⟩

end

mutual

theorem partItem_mono (o : Bytes) (procd procd' : List (List Nat)) :
    ∀ (a : List Nat) (it fin : Item),
      partItem o procd a it fin →
      (∀ x, a <+: x → (x ∈ procd ↔ x ∈ procd')) →
      partItem o procd' a it fin
  | a, .mk n f off u s c, fin, h, hag => by
    rw [partItem] at h
    rw [partItem]
    have haa : a ∈ procd ↔ a ∈ procd' := hag a (List.prefix_refl a)
    by_cases hm : a ∈ procd
    · rw [if_pos hm] at h
      rw [if_pos (haa.mp hm)]
      exact h
    · rw [if_neg hm] at h
      rw [if_neg (fun hx => hm (haa.mpr hx))]
      obtain ⟨c2, rfl, hf⟩ := h
      refine ⟨c2, rfl, partForest_mono o procd procd' a 0 c c2 hf ?_⟩
      intro x k hpre
      exact hag x ((List.prefix_append a [k]).trans hpre)

theorem partForest_mono (o : Bytes) (procd procd' : List (List Nat)) :
    ∀ (a : List Nat) (j : Nat) (c c2 : List Item),
      partForest o procd a j c c2 →
      (∀ x k, (a ++ [k]) <+: x → (x ∈ procd ↔ x ∈ procd')) →
      partForest o procd' a j c c2
  | _, _, [], _, h, _ => h
  | a, j, it :: rest, c2, h, hag => by
    rw [partForest] at h
    rw [partForest]
    obtain ⟨y, ys, rfl, h1, h2⟩ := h
    refine ⟨y, ys, rfl,
      partItem_mono o procd procd' (a ++ [j]) it y h1 ?_,
      partForest_mono o procd procd' a (j + 1) rest ys h2 hag⟩
    intro x hpre
    exact hag x j hpre

end

theorem partForest_len (o : Bytes) (procd : List (List Nat)) :
    ∀ (c : List Item) (a : List Nat) (j : Nat) (c2 : List Item),
      partForest o procd a j c c2 → c2.length = c.length := by
  intro c
  induction c with
  | nil =>
    intro a j c2 h
    rw [partForest] at h
    rw [h]
  | cons it rest ih =>
    intro a j c2 h
    rw [partForest] at h
    obtain ⟨y, ys, rfl, _, h2⟩ := h
    simp [ih a (j + 1) ys h2]

theorem partForest_get (o : Bytes) (procd : List (List Nat)) :
    ∀ (c : List Item) (a : List Nat) (j : Nat) (c2 : List Item),
      partForest o procd a j c c2 →
      ∀ (k : Nat) (x : Item), c.get? k = some x →
      ∃ y, c2.get? k = some y ∧ partItem o procd (a ++ [j + k]) x y := by
  intro c
  induction c with
  | nil =>
    intro a j c2 _ k x hk
    simp at hk
  | cons it rest ih =>
    intro a j c2 h k x hk
    rw [partForest] at h
    obtain ⟨y, ys, rfl, h1, h2⟩ := h
    cases k with
    | zero =>
      rw [List.get?_cons_zero] at hk
      injection hk with hx
      subst hx
      exact ⟨y, rfl, by simpa using h1⟩
    | succ k2 =>
      rw [List.get?_cons_succ] at hk
      obtain ⟨y2, hy2, hp⟩ := ih a (j + 1) ys h2 k2 x hk
      refine ⟨y2, by simpa using hy2, ?_⟩
      have harith : j + 1 + k2 = j + (k2 + 1) := by omega
      rwa [harith] at hp

theorem partForest_impl (o : Bytes) (procd : List (List Nat)) (o2 : Bytes)
    (procd2 : List (List Nat)) :
    ∀ (c : List Item) (a : List Nat) (j : Nat) (c2 : List Item),
      partForest o procd a j c c2 →
      (∀ k x y, c.get? k = some x → partItem o procd (a ++ [j + k]) x y →
        partItem o2 procd2 (a ++ [j + k]) x y) →
      partForest o2 procd2 a j c c2 := by
  intro c
  induction c with
  | nil =>
    intro a j c2 h _
    exact h
  | cons it rest ih =>
    intro a j c2 h himpl
    rw [partForest] at h
    rw [partForest]
    obtain ⟨y, ys, rfl, h1, h2⟩ := h
    refine ⟨y, ys, rfl, ?_, ?_⟩
    · have := himpl 0 it y (by rw [List.get?_cons_zero]) (by simpa using h1)
      simpa using this
    · refine ih a (j + 1) ys h2 ?_
      intro k x y3 hk hp
      have harith : j + 1 + k = j + (k + 1) := by omega
      rw [harith]
      rw [harith] at hp
      exact himpl (k + 1) x y3 (by rw [List.get?_cons_succ]; exact hk) hp

theorem partForest_set (o : Bytes) (procd : List (List Nat)) (o2 : Bytes)
    (procd2 : List (List Nat)) :
    ∀ (c : List Item) (a : List Nat) (j : Nat) (c2 : List Item) (k : Nat)
      (x y2 : Item),
      partForest o procd a j c c2 →
      (∀ k2 x2 y, k2 ≠ k → c.get? k2 = some x2 →
        partItem o procd (a ++ [j + k2]) x2 y →
        partItem o2 procd2 (a ++ [j + k2]) x2 y) →
      c.get? k = some x →
      partItem o2 procd2 (a ++ [j + k]) x y2 →
      partForest o2 procd2 a j c (c2.set k y2) := by
  intro c
  induction c with
  | nil =>
    intro a j c2 k x y2 _ _ hk _
    simp at hk
  | cons it rest ih =>
    intro a j c2 k x y2 h himpl hk hnew
    rw [partForest] at h
    obtain ⟨y, ys, rfl, h1, h2⟩ := h
    cases k with
    | zero =>
      rw [List.get?_cons_zero] at hk
      injection hk with hx
      subst hx
      rw [List.set_cons_zero, partForest]
      refine ⟨y2, ys, rfl, by simpa using hnew, ?_⟩
      refine partForest_impl o procd o2 procd2 rest a (j + 1) ys h2 ?_
      intro k2 x2 y3 hk2 hp
      have harith : j + 1 + k2 = j + (k2 + 1) := by omega
      rw [harith]
      rw [harith] at hp
      exact himpl (k2 + 1) x2 y3 (by omega)
        (by rw [List.get?_cons_succ]; exact hk2) hp
    | succ k2 =>
      rw [List.get?_cons_succ] at hk
      rw [List.set_cons_succ, partForest]
      refine ⟨y, ys.set k2 y2, rfl, ?_, ?_⟩
      · have := himpl 0 it y (by omega) (by rw [List.get?_cons_zero])
          (by simpa using h1)
        simpa using this
      · have harith : j + (k2 + 1) = j + 1 + k2 := by omega
        refine ih a (j + 1) ys k2 x y2 h2 ?_
          hk (by rwa [← harith])
        intro k3 x3 y3 hk3 hg hp
        have harith3 : j + 1 + k3 = j + (k3 + 1) := by omega
        rw [harith3]
        rw [harith3] at hp
        exact himpl (k3 + 1) x3 y3 (by omega)
          (by rw [List.get?_cons_succ]; exact hg) hp

/-- A file item of an invariant-respecting writer forest satisfies the
finalized-item facts on its own (no block needed). -/
theorem itemOkForI_file (o : Bytes) (n : Bytes) (f off u s : Nat)
    (c : List Item) (ht : treeItemOkB (Item.mk n f off u s c) = true)
    (hd : isDirFlag f = false) : itemOkForI o (Item.mk n f off u s c) := by
  obtain ⟨hn, _, hf⟩ := treeItemOkB_parts n f off u s c ht
  obtain ⟨hc, hs⟩ := hf hd
  rw [itemOkForI]
  refine ⟨Or.inr hn, ?_, ?_⟩
  · rw [if_neg (by simp [hd])]
    exact ⟨hc, hs⟩
  · rw [hc]
    trivial

/-- When every directory child of a sibling array has been processed, the
part-relation collapses to the finalized relation, and the array's items all
carry finalized-forest facts. -/
theorem finForest_of_part (o : Bytes) (procd : List (List Nat)) :
    ∀ (c0 : List Item) (a : List Nat) (j : Nat) (c2 : List Item),
      partForest o procd a j c0 c2 →
      treeForestOkB c0 = true →
      (∀ k x, c0.get? k = some x → isDirFlag x.flags = true →
        (a ++ [j + k]) ∈ procd) →
      finForest c0 c2 ∧ itemsOkFor o c2 := by
  intro c0
  induction c0 with
  | nil =>
    intro a j c2 h _ _
    rw [partForest] at h
    subst h
    exact ⟨rfl, trivial⟩
  | cons it rest ih =>
    intro a j c2 h ht hch
    rw [partForest] at h
    obtain ⟨y, ys, rfl, h1, h2⟩ := h
    obtain ⟨hti, _, htr⟩ := treeForestOkB_cons it rest ht
    have hrest := ih a (j + 1) ys h2 htr (fun k x hk hd => by
      have := hch (k + 1) x (by rw [List.get?_cons_succ]; exact hk) hd
      have harith : j + (k + 1) = j + 1 + k := by omega
      rwa [harith] at this)
    cases it with
    | mk n f off u s c =>
      by_cases hd : isDirFlag f = true
      · have hmem : (a ++ [j]) ∈ procd := by
          have := hch 0 _ (by rw [List.get?_cons_zero]) (by simpa using hd)
          simpa using this
        rw [partItem, if_pos hmem] at h1
        refine ⟨⟨y, ys, rfl, h1.1, hrest.1⟩, h1.2, hrest.2⟩
      · have hfile : itemOkForI o (Item.mk n f off u s c) :=
          itemOkForI_file o n f off u s c hti
            (by revert hd; cases isDirFlag f <;> simp)
        rw [partItem] at h1
        by_cases hmem : (a ++ [j]) ∈ procd
        · rw [if_pos hmem] at h1
          refine ⟨⟨y, ys, rfl, h1.1, hrest.1⟩, h1.2, hrest.2⟩
        · rw [if_neg hmem] at h1
          obtain ⟨c3, rfl, hpf⟩ := h1
          obtain ⟨hc, _⟩ :=
            (treeItemOkB_parts n f off u s c hti).2.2
              (by revert hd; cases isDirFlag f <;> simp)
          subst hc
          rw [partForest] at hpf
          subst hpf
          refine ⟨⟨_, ys, rfl, ?_, hrest.1⟩, hfile, hrest.2⟩
          rw [finItem, if_neg hd]

/-- The heart of the `Finalize` loop: processing one directory address whose
directory children have all been processed moves it into the processed set,
appending its (sorted) child block to the output. -/
theorem part_step_aux (procd : List (List Nat)) :
    ∀ (rel : List Nat) (o : Bytes) (c0 c : List Item) (A : List Nat),
      partForest o procd A 0 c0 c →
      treeForestOkB c0 = true →
      rel ≠ [] →
      (A ++ rel) ∉ procd →
      (∀ pfx, pfx <+: rel → pfx ≠ rel → pfx ≠ [] → (A ++ pfx) ∉ procd) →
      (∃ it0, getItemAt c0 rel = some it0 ∧ isDirFlag it0.flags = true) →
      (∀ j it0, getItemAt c0 (rel ++ [j]) = some it0 →
        isDirFlag it0.flags = true → (A ++ rel ++ [j]) ∈ procd) →
      ∃ y : Item,
        getItemAt c rel = some y ∧
        partForest (o ++ writeDirBlock false (sortByName y.children))
          ((A ++ rel) :: procd) A 0 c0
          (setItemAt c rel (Item.mk y.name y.flags o.length
            y.uncompressedSize y.size (sortByName y.children))) := by
  intro rel
  induction rel with
  | nil =>
    intro o c0 c A _ _ hne
    exact absurd rfl hne
  | cons i rest ih =>
    intro o c0 c A hpart htree hne hnotin hpfx hdir hch
    cases rest with
    | nil =>
      obtain ⟨it0, hget0, hd0⟩ := hdir
      rw [show getItemAt c0 [i] = c0.get? i from rfl] at hget0
      obtain ⟨y, hy, hpy⟩ := partForest_get o procd c0 A 0 c hpart i it0 hget0
      simp only [Nat.zero_add] at hpy
      have hAi : (A ++ [i]) ∉ procd := hnotin
      cases it0 with
      | mk n0 f0 off0 u0 s0 c0c =>
        rw [partItem, if_neg hAi] at hpy
        obtain ⟨c2, rfl, hpf⟩ := hpy
        have hti : treeItemOkB (Item.mk n0 f0 off0 u0 s0 c0c) = true :=
          treeForestOkB_mem c0 htree _ (List.get?_mem hget0)
        obtain ⟨hn, hdu, _⟩ := treeItemOkB_parts n0 f0 off0 u0 s0 c0c hti
        obtain ⟨hu0, hs0⟩ := hdu (by simpa using hd0)
        have htc : treeForestOkB c0c = true := treeItemOkB_children _ hti
        obtain ⟨hfin, hok⟩ := finForest_of_part o procd c0c (A ++ [i]) 0 c2
          hpf htc (fun k x hk hd => by
            have hg : getItemAt c0 ([i] ++ [k]) = some x := by
              show (match c0.get? i with
                | none => none
                | some it => getItemAt it.children [k]) = some x
              rw [hget0]
              exact hk
            have := hch k x hg hd
            simpa [List.append_assoc] using this)
        set sorted := sortByName c2 with hsorted
        set blk := writeDirBlock false sorted with hblk
        have hoksorted : itemsOkFor o sorted :=
          itemsOkFor_of_mem o sorted (fun x hx =>
            itemsOkFor_mem o c2 hok x ((sortByName_mem _ _).mp hx))
        have hgs : ∀ x ∈ sorted, goodShallow false x :=
          fun x hx => goodShallow_of_okFor o x (itemsOkFor_mem o sorted hoksorted x hx)
        have hreadblk : readIndexFromStream false false (o ++ blk) o.length =
            ⟨none, sorted.map shallowItem, some (o.length + blk.length)⟩ := by
          have := readIndex_write_dir false o [] sorted hgs
          simpa [hblk] using this
        have hnew : partItem (o ++ blk) ((A ++ [i]) :: procd) (A ++ [i])
            (Item.mk n0 f0 off0 u0 s0 c0c)
            (Item.mk n0 f0 o.length u0 s0 sorted) := by
          rw [partItem, if_pos (List.mem_cons_self _ _)]
          constructor
          · rw [finItem, if_pos (by simpa using hd0)]
            exact ⟨o.length, c2, rfl, hfin⟩
          · rw [itemOkForI]
            refine ⟨Or.inr (by simpa using hn), ?_, ?_⟩
            · rw [if_pos (by simpa using hd0)]
              refine ⟨hu0, hs0, o.length + blk.length, ?_⟩
              simpa using hreadblk
            · exact itemsOkFor_extend o blk sorted hoksorted
        refine ⟨Item.mk n0 f0 off0 u0 s0 c2, hy, ?_⟩
        simp only [Item.name_mk, Item.flags_mk, Item.offset_mk,
          Item.uncompressedSize_mk, Item.size_mk, Item.children_mk]
        rw [show setItemAt c [i] (Item.mk n0 f0 o.length u0 s0 (sortByName c2)) =
          c.set i (Item.mk n0 f0 o.length u0 s0 (sortByName c2)) from rfl]
        refine partForest_set o procd (o ++ blk) ((A ++ [i]) :: procd)
          c0 A 0 c i (Item.mk n0 f0 off0 u0 s0 c0c)
          (Item.mk n0 f0 o.length u0 s0 (sortByName c2)) hpart ?_
          hget0 (by simpa using hnew)
        intro k2 x2 y3 hk2 hgk2 hp
        simp only [Nat.zero_add] at hp ⊢
        refine partItem_mono (o ++ blk) procd ((A ++ [i]) :: procd) (A ++ [k2])
          x2 y3 (partItem_extend o blk procd (A ++ [k2]) x2 y3 hp) ?_
        intro x hx
        rw [List.mem_cons]
        constructor
        · exact fun h => Or.inr h
        · intro hor
          rcases hor with rfl | hmem2
          · exfalso
            obtain ⟨tail, htail⟩ := hx
            rw [List.append_assoc] at htail
            have hcc := List.append_cancel_left htail
            have hkk : k2 = i := List.head_eq_of_cons_eq (by simpa using hcc)
            omega
          · exact hmem2
    | cons r2 rs =>
      obtain ⟨it0, hget0, hd0⟩ := hdir
      rw [show getItemAt c0 (i :: r2 :: rs) =
        (match c0.get? i with
         | none => none
         | some it => getItemAt it.children (r2 :: rs)) from rfl] at hget0
      cases hx0 : c0.get? i with
      | none => rw [hx0] at hget0; cases hget0
      | some x0 =>
        rw [hx0] at hget0
        dsimp only at hget0
        obtain ⟨y, hy, hpy⟩ := partForest_get o procd c0 A 0 c hpart i x0 hx0
        simp only [Nat.zero_add] at hpy
        have hAi : (A ++ [i]) ∉ procd :=
          hpfx [i] ⟨r2 :: rs, rfl⟩ (by simp) (by simp)
        cases x0 with
        | mk n0 f0 off0 u0 s0 x0c =>
          rw [partItem, if_neg hAi] at hpy
          obtain ⟨c2, rfl, hpf⟩ := hpy
          have hti : treeItemOkB (Item.mk n0 f0 off0 u0 s0 x0c) = true :=
            treeForestOkB_mem c0 htree _ (List.get?_mem hx0)
          have htc : treeForestOkB x0c = true := treeItemOkB_children _ hti
          obtain ⟨yD, hyD, hpD⟩ := ih o x0c c2 (A ++ [i]) hpf htc (by simp)
            (by
              rw [List.append_assoc]
              simpa using hnotin)
            (by
              intro pfx hpre hner hne2
              rw [List.append_assoc]
              have : (i :: pfx) <+: (i :: r2 :: rs) := by
                obtain ⟨tl, htl⟩ := hpre
                exact ⟨tl, by rw [List.cons_append, htl]⟩
              refine hpfx (i :: pfx) this ?_ (by simp)
              intro hceq
              injection hceq with _ htl2
              exact hner htl2)
            ⟨it0, hget0, hd0⟩
            (by
              intro j it1 hg hd1
              have hg2 : getItemAt c0 ((i :: r2 :: rs) ++ [j]) = some it1 := by
                show (match c0.get? i with
                  | none => none
                  | some it => getItemAt it.children ((r2 :: rs) ++ [j])) =
                  some it1
                rw [hx0]
                exact hg
              have := hch j it1 hg2 hd1
              rw [List.append_assoc] at this
              rw [List.append_assoc, List.append_assoc]
              exact this)
          refine ⟨yD, ?_, ?_⟩
          · show (match c.get? i with
              | none => none
              | some it => getItemAt it.children (r2 :: rs)) = some yD
            rw [hy]
            exact hyD
          · rw [show setItemAt c (i :: r2 :: rs) (Item.mk yD.name yD.flags
              o.length yD.uncompressedSize yD.size (sortByName yD.children)) =
              (match c.get? i with
               | none => c
               | some it => c.set i (Item.mk it.name it.flags it.offset
                   it.uncompressedSize it.size
                   (setItemAt it.children (r2 :: rs)
                     (Item.mk yD.name yD.flags o.length yD.uncompressedSize
                       yD.size (sortByName yD.children))))) from rfl]
            rw [hy]
            dsimp only
            simp only [Item.name_mk, Item.flags_mk, Item.offset_mk,
              Item.uncompressedSize_mk, Item.size_mk, Item.children_mk]
            refine partForest_set o procd
              (o ++ writeDirBlock false (sortByName yD.children))
              ((A ++ (i :: r2 :: rs)) :: procd) c0 A 0 c i
              (Item.mk n0 f0 off0 u0 s0 x0c)
              (Item.mk n0 f0 off0 u0 s0
                (setItemAt c2 (r2 :: rs)
                  (Item.mk yD.name yD.flags o.length yD.uncompressedSize
                    yD.size (sortByName yD.children)))) hpart ?_ hx0 ?_
            · intro k2 x2 y3 hk2 hgk2 hp
              simp only [Nat.zero_add] at hp ⊢
              refine partItem_mono _ procd _ (A ++ [k2]) x2 y3
                (partItem_extend o _ procd (A ++ [k2]) x2 y3 hp) ?_
              intro x hx
              rw [List.mem_cons]
              constructor
              · exact fun h => Or.inr h
              · intro hor
                rcases hor with heq | hmem2
                · exfalso
                  subst heq
                  obtain ⟨tail, htail⟩ := hx
                  have happ : A ++ [k2] ++ tail = A ++ (i :: r2 :: rs) := htail
                  rw [List.append_assoc] at happ
                  have hcc := List.append_cancel_left happ
                  have hhd : k2 = i := by
                    have : (k2 :: tail) = (i :: r2 :: rs) := by simpa using hcc
                    exact List.head_eq_of_cons_eq this
                  omega
                · exact hmem2
            · simp only [Nat.zero_add]
              rw [partItem, if_neg (by
                intro hmem
                rw [List.mem_cons] at hmem
                rcases hmem with heq | hmem2
                · have := congrArg List.length heq
                  simp at this
                · exact hAi hmem2)]
              refine ⟨setItemAt c2 (r2 :: rs)
                (Item.mk yD.name yD.flags o.length yD.uncompressedSize
                  yD.size (sortByName yD.children)), rfl, ?_⟩
              have := hpD
              rw [show (A ++ [i]) ++ (r2 :: rs) = A ++ (i :: r2 :: rs) by
                rw [List.append_assoc]; rfl] at this
              exact this

/-- `part_step_aux` stated through `finalizeStep`. -/
theorem part_step (tree0 : List Item) (htree : treeForestOkB tree0 = true)
    (o : Bytes) (procd : List (List Nat)) (t : List Item) (addr : List Nat)
    (hpart : partForest o procd [] 0 tree0 t)
    (hne : addr ≠ []) (hnotin : addr ∉ procd)
    (hpfx : ∀ pfx, pfx <+: addr → pfx ≠ addr → pfx ≠ [] → pfx ∉ procd)
    (hdir : ∃ it0, getItemAt tree0 addr = some it0 ∧
      isDirFlag it0.flags = true)
    (hch : ∀ j it0, getItemAt tree0 (addr ++ [j]) = some it0 →
      isDirFlag it0.flags = true → addr ++ [j] ∈ procd) :
    ∃ t' blk, finalizeStep false (t, o) addr = (t', o ++ blk) ∧
      partForest (o ++ blk) (addr :: procd) [] 0 tree0 t' := by
  obtain ⟨y, hy, hp⟩ := part_step_aux procd addr o tree0 t [] hpart htree hne
    (by simpa using hnotin)
    (by intro pfx h1 h2 h3; simpa using hpfx pfx h1 h2 h3)
    hdir
    (by intro j it0 hg hd; simpa using hch j it0 hg hd)
  refine ⟨_, _, ?_, by simpa using hp⟩
  rw [finalizeStep]
  dsimp only
  rw [hy]

/-- Child addresses read through `getItemAt`. -/
theorem getItemAt_append_child (i : Nat) :
    ∀ (a : List Nat) (items : List Item) (it : Item), a ≠ [] →
      getItemAt items a = some it →
      getItemAt items (a ++ [i]) = it.children.get? i := by
  intro a
  induction a with
  | nil => intro items it hne _; exact absurd rfl hne
  | cons x rest ih =>
    intro items it _ hget
    cases rest with
    | nil =>
      rw [show getItemAt items [x] = items.get? x from rfl] at hget
      show (match items.get? x with
        | none => none
        | some it2 => getItemAt it2.children [i]) = it.children.get? i
      rw [hget]
      rfl
    | cons r2 rs =>
      rw [show getItemAt items (x :: r2 :: rs) =
        (match items.get? x with
         | none => none
         | some it2 => getItemAt it2.children (r2 :: rs)) from rfl] at hget
      cases hx : items.get? x with
      | none => rw [hx] at hget; cases hget
      | some it2 =>
        rw [hx] at hget
        dsimp only at hget
        show (match items.get? x with
          | none => none
          | some it3 => getItemAt it3.children ((r2 :: rs) ++ [i])) =
          it.children.get? i
        rw [hx]
        dsimp only
        exact ih it2.children it (by simp) hget

/-- Membership in `dirChildAddrs`. -/
theorem dirChildAddrs_mem (tree : List Item) (a : List Nat) (it : Item)
    (j : Nat) (hget : getItemAt tree a = some it)
    (hj : j < it.children.length)
    (hd : isDirFlag ((it.children.getD j defaultItem).flags) = true) :
    a ++ [j] ∈ dirChildAddrs tree a := by
  rw [dirChildAddrs, hget]
  refine List.mem_map.mpr ⟨j, ?_, rfl⟩
  rw [dirIdxs]
  refine List.mem_filter.mpr ⟨List.mem_range.mpr hj, by simpa using hd⟩

/-- Decomposing membership in `dirChildAddrs`. -/
theorem dirChildAddrs_elim (tree : List Item) (a a2 : List Nat)
    (h : a2 ∈ dirChildAddrs tree a) :
    ∃ it j child, getItemAt tree a = some it ∧ a2 = a ++ [j] ∧
      it.children.get? j = some child ∧ isDirFlag child.flags = true := by
  rw [dirChildAddrs] at h
  cases hget : getItemAt tree a with
  | none => rw [hget] at h; simp at h
  | some it =>
    rw [hget] at h
    obtain ⟨j, hj, rfl⟩ := List.mem_map.mp h
    rw [dirIdxs] at hj
    obtain ⟨hjr, hjd⟩ := List.mem_filter.mp hj
    have hjlen : j < it.children.length := List.mem_range.mp hjr
    refine ⟨it, j, it.children.getD j defaultItem, rfl, rfl, ?_, by simpa using hjd⟩
    rw [List.getD_eq_getElem _ _ hjlen]
    exact List.get?_eq_get hjlen

/-- Every address `bfsAux` emits is at least as long as the frontier's. -/
theorem bfs_lengths (tree : List Item) :
    ∀ (fuel : Nat) (frontier : List (List Nat)) (L : Nat),
      (∀ a ∈ frontier, L ≤ a.length) →
      ∀ p ∈ bfsAux tree fuel frontier, L ≤ p.length := by
  intro fuel
  induction fuel with
  | zero => intro frontier L _ p hp; rw [bfsAux] at hp; simp at hp
  | succ n ih =>
    intro frontier L hfr p hp
    rw [bfsAux] at hp
    by_cases he : frontier.isEmpty
    · rw [if_pos he] at hp; simp at hp
    · rw [if_neg he] at hp
      rcases List.mem_append.mp hp with hm | hm
      · exact hfr p hm
      · refine ih _ L ?_ p hm
        intro a2 ha2
        obtain ⟨a, ha, hda⟩ := List.mem_flatMap.mp ha2
        obtain ⟨_, j, _, _, rfl, _, _⟩ := dirChildAddrs_elim tree a a2 hda
        have := hfr a ha
        simp only [List.length_append, List.length_cons, List.length_nil]
        omega

/-- Building the flatMap of pairwise-disjoint nodup lists keeps nodup. -/
theorem nodup_flatMap_disjoint {α β : Type} [DecidableEq β] :
    ∀ (l : List α) (f : α → List β), l.Nodup →
      (∀ a ∈ l, (f a).Nodup) →
      (∀ a1 ∈ l, ∀ a2 ∈ l, a1 ≠ a2 → ∀ b ∈ f a1, b ∉ f a2) →
      (l.flatMap f).Nodup := by
  intro l
  induction l with
  | nil => intro f _ _ _; simp
  | cons x xs ih =>
    intro f hnd hok hdisj
    rw [List.flatMap_cons, List.nodup_append]
    obtain ⟨hx, hxs⟩ := List.nodup_cons.mp hnd
    refine ⟨hok x (List.mem_cons_self _ _), ?_, ?_⟩
    · refine ih f hxs (fun a ha => hok a (List.mem_cons_of_mem _ ha)) ?_
      intro a1 h1 a2 h2 hne b hb
      exact hdisj a1 (List.mem_cons_of_mem _ h1) a2 (List.mem_cons_of_mem _ h2)
        hne b hb
    · intro b hb hb2
      obtain ⟨a2, ha2, hba2⟩ := List.mem_flatMap.mp hb2
      exact hdisj x (List.mem_cons_self _ _) a2 (List.mem_cons_of_mem _ ha2)
        (fun he => hx (he ▸ ha2)) b hb hba2

theorem partForest_mem_congr (o : Bytes) (procd procd' : List (List Nat))
    (a : List Nat) (j : Nat) (c c2 : List Item)
    (h : ∀ x, x ∈ procd ↔ x ∈ procd')
    (hp : partForest o procd a j c c2) : partForest o procd' a j c c2 :=
  partForest_mono o procd procd' a j c c2 hp (fun x _ _ => h x)

/-- Folding `finalizeStep` over one breadth-first level (already reversed):
each address is a distinct unprocessed directory at depth `L` whose directory
children are all processed. -/
theorem fold_level (tree0 : List Item) (htree : treeForestOkB tree0 = true) :
    ∀ (addrs : List (List Nat)) (t : List Item) (o : Bytes)
      (procd : List (List Nat)) (L : Nat),
      partForest o procd [] 0 tree0 t →
      (∀ a ∈ addrs, a.length = L ∧ a ≠ [] ∧
        (∃ it0, getItemAt tree0 a = some it0 ∧ isDirFlag it0.flags = true) ∧
        a ∉ procd ∧
        (∀ j it0, getItemAt tree0 (a ++ [j]) = some it0 →
          isDirFlag it0.flags = true → a ++ [j] ∈ procd)) →
      addrs.Nodup →
      (∀ p ∈ procd, L ≤ p.length) →
      ∃ t' ext,
        addrs.foldl (finalizeStep false) (t, o) = (t', o ++ ext) ∧
        partForest (o ++ ext) (addrs.reverse ++ procd) [] 0 tree0 t' := by
  intro addrs
  induction addrs with
  | nil =>
    intro t o procd L hpart _ _ _
    exact ⟨t, [], by simp, by simpa using hpart⟩
  | cons a rest ih =>
    intro t o procd L hpart hprops hnd hlen
    obtain ⟨hL, hne, hdir, hnot, hch⟩ := hprops a (List.mem_cons_self _ _)
    obtain ⟨hax, hndr⟩ := List.nodup_cons.mp hnd
    obtain ⟨t1, blk, hstep, hp1⟩ := part_step tree0 htree o procd t a hpart
      hne hnot
      (fun pfx h1 h2 h3 hmem => by
        have hple := hlen pfx hmem
        have hle := h1.length_le
        have hlt : pfx.length < a.length := by
          rcases Nat.lt_or_ge pfx.length a.length with hlt | hge
          · exact hlt
          · exact absurd (List.IsPrefix.eq_of_length h1 (by omega)) h2
        omega)
      hdir hch
    obtain ⟨t2, ext2, hfold, hp2⟩ := ih t1 (o ++ blk) (a :: procd) L hp1
      (by
        intro a2 hmem
        obtain ⟨h1, h2, h3, h4, h5⟩ := hprops a2 (List.mem_cons_of_mem _ hmem)
        refine ⟨h1, h2, h3, ?_, ?_⟩
        · intro hctr
          rcases List.mem_cons.mp hctr with heq | hmem2
          · exact hax (heq ▸ hmem)
          · exact h4 hmem2
        · intro j it0 hg hd
          exact List.mem_cons_of_mem _ (h5 j it0 hg hd))
      hndr
      (by
        intro p hp
        rcases List.mem_cons.mp hp with rfl | hmem2
        · omega
        · exact hlen p hmem2)
    refine ⟨t2, blk ++ ext2, ?_, ?_⟩
    · rw [List.foldl_cons, hstep, hfold, List.append_assoc]
    · rw [← List.append_assoc]
      refine partForest_mem_congr _ _ _ _ _ _ _ ?_ hp2
      intro x
      simp only [List.reverse_cons, List.mem_append, List.mem_cons,
        List.mem_singleton]
      tauto

/-- Folding `finalizeStep` over the reversed breadth-first worklist: every
emitted directory address becomes processed. -/
theorem fold_bfs (tree0 : List Item) (htree : treeForestOkB tree0 = true) :
    ∀ (fuel : Nat) (frontier : List (List Nat)) (t : List Item) (o : Bytes)
      (L : Nat),
      partForest o [] [] 0 tree0 t →
      (∀ a ∈ frontier, a.length = L ∧ a ≠ [] ∧
        ∃ it0, getItemAt tree0 a = some it0 ∧ isDirFlag it0.flags = true ∧
          itemDirHeight it0 ≤ fuel) →
      frontier.Nodup →
      ∃ t' ext,
        (bfsAux tree0 fuel frontier).reverse.foldl (finalizeStep false)
          (t, o) = (t', o ++ ext) ∧
        partForest (o ++ ext) (bfsAux tree0 fuel frontier) [] 0 tree0 t' := by
  intro fuel
  induction fuel with
  | zero =>
    intro frontier t o L hpart hfr _
    cases frontier with
    | nil =>
      rw [bfsAux]
      exact ⟨t, [], by simp, by simpa using hpart⟩
    | cons a rest =>
      obtain ⟨_, _, it0, _, hd0, hh0⟩ := hfr a (List.mem_cons_self _ _)
      cases it0 with
      | mk n f off u s c =>
        rw [itemDirHeight, if_pos (by simpa using hd0)] at hh0
        omega
  | succ n ih =>
    intro frontier t o L hpart hfr hnd
    by_cases he : frontier.isEmpty
    · rw [bfsAux, if_pos he]
      exact ⟨t, [], by simp, by simpa using hpart⟩
    · rw [bfsAux, if_neg he]
      have hnextprops : ∀ a2 ∈ frontier.flatMap (dirChildAddrs tree0),
          a2.length = L + 1 ∧ a2 ≠ [] ∧
          ∃ it1, getItemAt tree0 a2 = some it1 ∧
            isDirFlag it1.flags = true ∧ itemDirHeight it1 ≤ n := by
        intro a2 ha2
        obtain ⟨a, ha, hda⟩ := List.mem_flatMap.mp ha2
        obtain ⟨it, j, child, hget, rfl, hcj, hcd⟩ :=
          dirChildAddrs_elim tree0 a a2 hda
        obtain ⟨hL, hne, it0, hget0, hd0, hh0⟩ := hfr a ha
        rw [hget0] at hget
        injection hget with hit
        subst hit
        refine ⟨by simp [hL], by simp, child, ?_, hcd, ?_⟩
        · rw [getItemAt_append_child j a tree0 it0 hne hget0]
          exact hcj
        · cases it0 with
          | mk n0 f0 off0 u0 s0 c0 =>
            rw [itemDirHeight, if_pos (by simpa using hd0)] at hh0
            have := itemDirHeight_mem c0 child (List.get?_mem hcj)
            simp only [Item.children_mk] at hcj
            omega
      have hnextnd : (frontier.flatMap (dirChildAddrs tree0)).Nodup := by
        refine nodup_flatMap_disjoint frontier (dirChildAddrs tree0) hnd ?_ ?_
        · intro a _
          rw [dirChildAddrs]
          cases hget : getItemAt tree0 a with
          | none => simp
          | some it =>
            refine List.Nodup.map ?_ ?_
            · intro x y hxy
              simpa using List.append_cancel_left hxy
            · rw [dirIdxs]
              exact (List.nodup_range _).filter _
        · intro a1 h1 a2 h2 hne12 b hb1 hb2
          obtain ⟨_, j1, _, _, hbeq1, _, _⟩ := dirChildAddrs_elim tree0 a1 b hb1
          obtain ⟨_, j2, _, _, hbeq2, _, _⟩ := dirChildAddrs_elim tree0 a2 b hb2
          obtain ⟨hL1, _, _⟩ := hfr a1 h1
          obtain ⟨hL2, _, _⟩ := hfr a2 h2
          have hbb : a1 ++ [j1] = a2 ++ [j2] := by rw [← hbeq1, ← hbeq2]
          have := List.append_inj hbb (by omega)
          exact hne12 this.1
      obtain ⟨t1, ext1, hfold1, hp1⟩ := ih
        (frontier.flatMap (dirChildAddrs tree0)) t o (L + 1) hpart
        hnextprops hnextnd
      obtain ⟨t2, ext2, hfold2, hp2⟩ := fold_level tree0 htree
        frontier.reverse t1 (o ++ ext1)
        (bfsAux tree0 n (frontier.flatMap (dirChildAddrs tree0))) L
        hp1
        (by
          intro a hmem
          rw [List.mem_reverse] at hmem
          obtain ⟨hL, hne, hdir⟩ := hfr a hmem
          refine ⟨hL, hne, ?_, ?_, ?_⟩
          · obtain ⟨it0, hg, hd, _⟩ := hdir
            exact ⟨it0, hg, hd⟩
          · intro hctr
            have := bfs_lengths tree0 n _ (L + 1)
              (fun p hp => (hnextprops p hp).1.ge) a hctr
            omega
          · intro j it1 hg hd
            obtain ⟨it0, hg0, hd0, hh0⟩ := hdir
            have hcj : it0.children.get? j = some it1 := by
              rw [← getItemAt_append_child j a tree0 it0 hne hg0]
              exact hg
            have hjlen : j < it0.children.length := by
              by_contra hge
              rw [List.get?_eq_none.mpr (by omega)] at hcj
              cases hcj
            have hgetd : it0.children.getD j defaultItem = it1 := by
              rw [List.getD_eq_getElem _ _ hjlen]
              have h2 := hcj
              rw [List.get?_eq_getElem?, List.getElem?_eq_getElem hjlen] at h2
              injection h2
            have hj : a ++ [j] ∈ frontier.flatMap (dirChildAddrs tree0) :=
              List.mem_flatMap.mpr ⟨a, hmem,
                dirChildAddrs_mem tree0 a it0 j hg0 hjlen
                  (by rw [hgetd]; exact hd)⟩
            cases n with
            | zero =>
              exfalso
              have hmemc : it1 ∈ it0.children := List.get?_mem hcj
              have hle := itemDirHeight_mem it0.children it1 hmemc
              cases it0 with
              | mk n0 f0 off0 u0 s0 c0 =>
                rw [itemDirHeight, if_pos (by simpa using hd0)] at hh0
                cases it1 with
                | mk n1 f1 off1 u1 s1 c1 =>
                  rw [itemDirHeight, if_pos (by simpa using hd)] at hle
                  simp only [Item.children_mk] at hle
                  omega
            | succ n2 =>
              rw [bfsAux, if_neg (by
                intro hctr
                rw [List.isEmpty_iff] at hctr
                rw [hctr] at hj
                simp at hj)]
              exact List.mem_append.mpr (Or.inl hj))
        (List.nodup_reverse.mpr hnd)
        (by
          intro p hp
          have := bfs_lengths tree0 n _ (L + 1)
            (fun p2 hp2 => (hnextprops p2 hp2).1.ge) p hp
          omega)
      refine ⟨t2, ext1 ++ ext2, ?_, ?_⟩
      · rw [List.reverse_append, List.foldl_append, hfold1, hfold2,
          List.append_assoc]
      · rw [← List.append_assoc]
        refine partForest_mem_congr _ _ _ _ _ _ _ ?_ hp2
        intro x
        simp only [List.mem_append, List.mem_reverse, List.reverse_reverse]

/-! ## BFS completeness: every directory address is queued -/

theorem itemsSize_pos : ∀ (l : List Item), 1 ≤ itemsSize l
  | [] => by rw [itemsSize]
  | it :: rest => by rw [itemsSize]; omega

theorem itemSize_mem : ∀ (l : List Item), ∀ it ∈ l,
    itemSize it + 1 ≤ itemsSize l := by
  intro l
  induction l with
  | nil => intro it hit; simp at hit
  | cons x xs ih =>
    intro it hit
    rw [itemsSize]
    rcases List.mem_cons.mp hit with rfl | hm
    · omega
    · have := ih it hm
      omega

theorem getItemAt_nil : ∀ (a : List Nat), getItemAt ([] : List Item) a = none
  | [] => rfl
  | [_] => rfl
  | _ :: _ :: _ => rfl

theorem getItemAt_length_le : ∀ (a : List Nat) (tree : List Item) (it : Item),
    getItemAt tree a = some it → a.length ≤ itemsSize tree
  | [], tree, it, h => by
    rw [show getItemAt tree [] = none from rfl] at h
    cases h
  | [i], tree, it, h => by
    have := itemsSize_pos tree
    simp only [List.length_cons, List.length_nil]
    omega
  | i :: r :: rs, tree, it, h => by
    rw [show getItemAt tree (i :: r :: rs) =
      (match tree.get? i with
       | none => none
       | some x => getItemAt x.children (r :: rs)) from rfl] at h
    cases hx : tree.get? i with
    | none => rw [hx] at h; cases h
    | some x =>
      rw [hx] at h
      dsimp only at h
      have hih := getItemAt_length_le (r :: rs) x.children it h
      have hsz := itemSize_mem tree x (List.get?_mem hx)
      cases x with
      | mk n f o u s c =>
        rw [itemSize] at hsz
        simp only [Item.children_mk] at hih
        simp only [List.length_cons] at hih ⊢
        omega

theorem getItemAt_append (s : List Nat) (hs : s ≠ []) :
    ∀ (a : List Nat) (tree : List Item), a ≠ [] →
      getItemAt tree (a ++ s) =
        (getItemAt tree a).bind (fun mid => getItemAt mid.children s)
  | [], _, ha => absurd rfl ha
  | [i], tree, _ => by
    cases s with
    | nil => exact absurd rfl hs
    | cons r rs =>
      rw [show ([i] ++ (r :: rs) : List Nat) = i :: r :: rs from rfl]
      rw [show getItemAt tree (i :: r :: rs) =
        (match tree.get? i with
         | none => none
         | some x => getItemAt x.children (r :: rs)) from rfl]
      rw [show getItemAt tree [i] = tree.get? i from rfl]
      cases hx : tree.get? i with
      | none => rfl
      | some x => rfl
  | i :: r2 :: rs2, tree, _ => by
    rw [show ((i :: r2 :: rs2) ++ s : List Nat) =
      i :: (r2 :: (rs2 ++ s)) from rfl]
    rw [show getItemAt tree (i :: (r2 :: (rs2 ++ s))) =
      (match tree.get? i with
       | none => none
       | some x => getItemAt x.children (r2 :: (rs2 ++ s))) from rfl]
    rw [show getItemAt tree (i :: r2 :: rs2) =
      (match tree.get? i with
       | none => none
       | some x => getItemAt x.children (r2 :: rs2)) from rfl]
    cases hx : tree.get? i with
    | none => rfl
    | some x =>
      dsimp only
      rw [show (r2 :: (rs2 ++ s) : List Nat) = (r2 :: rs2) ++ s from rfl]
      exact getItemAt_append s hs (r2 :: rs2) x.children (by simp)

theorem getItemAt_treeOk : ∀ (a : List Nat) (tree : List Item) (it : Item),
    treeForestOkB tree = true → getItemAt tree a = some it →
    treeItemOkB it = true
  | [], tree, it, _, h => by
    rw [show getItemAt tree [] = none from rfl] at h
    cases h
  | [i], tree, it, ht, h => by
    rw [show getItemAt tree [i] = tree.get? i from rfl] at h
    exact treeForestOkB_mem tree ht it (List.get?_mem h)
  | i :: r :: rs, tree, it, ht, h => by
    rw [show getItemAt tree (i :: r :: rs) =
      (match tree.get? i with
       | none => none
       | some x => getItemAt x.children (r :: rs)) from rfl] at h
    cases hx : tree.get? i with
    | none => rw [hx] at h; cases h
    | some x =>
      rw [hx] at h
      dsimp only at h
      have hxok := treeForestOkB_mem tree ht x (List.get?_mem hx)
      exact getItemAt_treeOk (r :: rs) x.children it
        (treeItemOkB_children x hxok) h

/-- In an invariant-respecting forest, a node with a child is a directory. -/
theorem treeItemOkB_children_ne_dir (x : Item) (hok : treeItemOkB x = true)
    (hc : x.children ≠ []) : isDirFlag x.flags = true := by
  cases x with
  | mk n f o u s c =>
    by_cases hd : isDirFlag f = true
    · simpa using hd
    · obtain ⟨_, _, hf⟩ := treeItemOkB_parts n f o u s c hok
      have := (hf (by revert hd; cases isDirFlag f <;> simp)).1
      simp only [Item.children_mk] at hc
      exact absurd this hc

/-- Every node on the way to a directory is itself a directory. -/
theorem path_node_dir (tree : List Item) (htree : treeForestOkB tree = true)
    (a : List Nat) (ha : a ≠ []) (s : List Nat) (mid it : Item)
    (hmid : getItemAt tree a = some mid)
    (hit : getItemAt tree (a ++ s) = some it) (hs : s ≠ [])
    (hdir : isDirFlag it.flags = true) :
    isDirFlag mid.flags = true := by
  rw [getItemAt_append s hs a tree ha, hmid] at hit
  have hit2 : getItemAt mid.children s = some it := hit
  have hcne : mid.children ≠ [] := by
    intro hc
    rw [hc, getItemAt_nil] at hit2
    cases hit2
  exact treeItemOkB_children_ne_dir mid
    (getItemAt_treeOk a tree mid htree hmid) hcne

/-- The breadth-first search visits every directory reachable below a
frontier member, given enough fuel. -/
theorem bfs_complete_aux (tree : List Item) (htree : treeForestOkB tree = true) :
    ∀ (s : List Nat) (fuel : Nat) (frontier : List (List Nat)) (p : List Nat)
      (it : Item),
      p ∈ frontier → p ≠ [] →
      getItemAt tree (p ++ s) = some it → isDirFlag it.flags = true →
      s.length + 1 ≤ fuel →
      p ++ s ∈ bfsAux tree fuel frontier := by
  intro s
  induction s with
  | nil =>
    intro fuel frontier p it hp hpne hget hdir hfuel
    cases fuel with
    | zero => omega
    | succ n =>
      rw [bfsAux, if_neg (by
        rw [List.isEmpty_iff]
        intro hc
        rw [hc] at hp
        simp at hp)]
      simp only [List.append_nil]
      exact List.mem_append.mpr (Or.inl hp)
  | cons j s2 ih =>
    intro fuel frontier p it hp hpne hget hdir hfuel
    cases fuel with
    | zero => simp only [List.length_cons] at hfuel; omega
    | succ n =>
      rw [bfsAux, if_neg (by
        rw [List.isEmpty_iff]
        intro hc
        rw [hc] at hp
        simp at hp)]
      have hsplit : p ++ (j :: s2) = (p ++ [j]) ++ s2 := by simp
      have hget2 := hget
      rw [getItemAt_append (j :: s2) (by simp) p tree hpne] at hget2
      obtain ⟨parent, hparent⟩ : ∃ parent, getItemAt tree p = some parent := by
        cases hx : getItemAt tree p with
        | none => rw [hx] at hget2; cases hget2
        | some parent => exact ⟨parent, rfl⟩
      have hchild : getItemAt tree (p ++ [j]) = parent.children.get? j :=
        getItemAt_append_child j p tree parent hpne hparent
      obtain ⟨mid, hmid⟩ : ∃ mid, getItemAt tree (p ++ [j]) = some mid := by
        cases s2 with
        | nil => exact ⟨it, by simpa using hget⟩
        | cons r rs =>
          have hget3 := hget
          rw [show p ++ (j :: r :: rs) = (p ++ [j]) ++ (r :: rs) by simp]
            at hget3
          rw [getItemAt_append (r :: rs) (by simp) (p ++ [j]) tree (by simp)]
            at hget3
          cases hx : getItemAt tree (p ++ [j]) with
          | none => rw [hx] at hget3; cases hget3
          | some mid => exact ⟨mid, rfl⟩
      have hmiddir : isDirFlag mid.flags = true := by
        cases s2 with
        | nil =>
          have hmi : mid = it := by
            have h2 := hmid.symm.trans hget
            injection h2
          rw [hmi]
          exact hdir
        | cons r rs =>
          exact path_node_dir tree htree (p ++ [j]) (by simp) (r :: rs) mid it
            hmid
            (by rw [show (p ++ [j]) ++ (r :: rs) = p ++ (j :: r :: rs) by simp]
                exact hget)
            (by simp) hdir
      have hjlen : j < parent.children.length := by
        by_contra hge
        rw [hchild, List.get?_eq_none.mpr (by omega)] at hmid
        cases hmid
      have hgetd : parent.children.getD j defaultItem = mid := by
        rw [List.getD_eq_getElem _ _ hjlen]
        have h2 := hmid
        rw [hchild, List.get?_eq_getElem?, List.getElem?_eq_getElem hjlen] at h2
        injection h2
      have hmemd : p ++ [j] ∈ dirChildAddrs tree p :=
        dirChildAddrs_mem tree p parent j hparent hjlen
          (by rw [hgetd]; exact hmiddir)
      have hmemf : p ++ [j] ∈ frontier.flatMap (dirChildAddrs tree) :=
        List.mem_flatMap.mpr ⟨p, hp, hmemd⟩
      have hih := ih n (frontier.flatMap (dirChildAddrs tree)) (p ++ [j]) it
        hmemf (by simp)
        (by rw [show (p ++ [j]) ++ s2 = p ++ (j :: s2) by simp]; exact hget)
        hdir
        (by simp only [List.length_cons] at hfuel; omega)
      refine List.mem_append.mpr (Or.inr ?_)
      rw [hsplit]
      exact hih

theorem dirIdxs_mem_of (items : List Item) (i : Nat) (hi : i < items.length)
    (hd : isDirFlag ((items.getD i defaultItem).flags) = true) :
    i ∈ dirIdxs items := by
  rw [dirIdxs]
  exact List.mem_filter.mpr ⟨List.mem_range.mpr hi, by simpa using hd⟩

/-- Completeness of the `Finalize` worklist: every directory address of an
invariant-respecting forest is queued. -/
theorem dirQueue_complete (tree : List Item) (htree : treeForestOkB tree = true)
    (a : List Nat) (it : Item) (hne : a ≠ [])
    (hget : getItemAt tree a = some it) (hd : isDirFlag it.flags = true) :
    a ∈ dirQueue tree := by
  cases a with
  | nil => exact absurd rfl hne
  | cons i s =>
    obtain ⟨root, hroot⟩ : ∃ root, tree.get? i = some root := by
      cases s with
      | nil => exact ⟨it, hget⟩
      | cons r rs =>
        have h2 := hget
        rw [show getItemAt tree (i :: r :: rs) =
          (match tree.get? i with
           | none => none
           | some x => getItemAt x.children (r :: rs)) from rfl] at h2
        cases hx : tree.get? i with
        | none => rw [hx] at h2; cases h2
        | some root => exact ⟨root, rfl⟩
    have hrootdir : isDirFlag root.flags = true := by
      cases s with
      | nil =>
        have hri : root = it := by
          have h2 := hroot.symm.trans hget
          injection h2
        rw [hri]
        exact hd
      | cons r rs =>
        have h2 := hget
        rw [show getItemAt tree (i :: r :: rs) =
          (match tree.get? i with
           | none => none
           | some x => getItemAt x.children (r :: rs)) from rfl, hroot] at h2
        dsimp only at h2
        have hcne : root.children ≠ [] := by
          intro hc
          rw [hc, getItemAt_nil] at h2
          cases h2
        exact treeItemOkB_children_ne_dir root
          (treeForestOkB_mem tree htree root (List.get?_mem hroot)) hcne
    have hilen : i < tree.length := by
      by_contra hge
      rw [List.get?_eq_none.mpr (by omega)] at hroot
      cases hroot
    have hgetd : tree.getD i defaultItem = root := by
      rw [List.getD_eq_getElem _ _ hilen]
      have h2 := hroot
      rw [List.get?_eq_getElem?, List.getElem?_eq_getElem hilen] at h2
      injection h2
    have hmem0 : [i] ∈ (dirIdxs tree).map (fun k => [k]) :=
      List.mem_map.mpr ⟨i,
        dirIdxs_mem_of tree i hilen (by rw [hgetd]; exact hrootdir), rfl⟩
    have hlen := getItemAt_length_le (i :: s) tree it hget
    rw [dirQueue]
    have hres := bfs_complete_aux tree htree s (itemsSize tree)
      ((dirIdxs tree).map (fun k => [k])) [i] it hmem0 (by simp)
      (by simpa using hget) hd
      (by simp only [List.length_cons] at hlen; omega)
    simpa using hres

theorem initial_frontier_props (tree : List Item) :
    ∀ a ∈ (dirIdxs tree).map (fun i => [i]), a.length = 1 ∧ a ≠ [] ∧
      ∃ it0, getItemAt tree a = some it0 ∧ isDirFlag it0.flags = true ∧
        itemDirHeight it0 ≤ itemsSize tree := by
  intro a ha
  obtain ⟨i, hi, rfl⟩ := List.mem_map.mp ha
  rw [dirIdxs] at hi
  obtain ⟨hir, hid⟩ := List.mem_filter.mp hi
  have hilen : i < tree.length := List.mem_range.mp hir
  refine ⟨rfl, by simp, tree.getD i defaultItem, ?_, by simpa using hid, ?_⟩
  · show tree.get? i = some (tree.getD i defaultItem)
    rw [List.getD_eq_getElem _ _ hilen, List.get?_eq_getElem?,
      List.getElem?_eq_getElem hilen]
  · have hmem : tree.getD i defaultItem ∈ tree := by
      rw [List.getD_eq_getElem _ _ hilen]
      exact List.getElem_mem hilen
    have h1 := itemDirHeight_le_itemSize (tree.getD i defaultItem)
    have h2 := itemSize_mem tree _ hmem
    omega

theorem initial_frontier_nodup (tree : List Item) :
    ((dirIdxs tree).map (fun i => [i])).Nodup := by
  have h1 : (dirIdxs tree).Nodup := List.Nodup.filter _ (List.nodup_range _)
  exact List.Nodup.map (fun x y h => by injection h) h1

/-! ## Heights are preserved by finalization -/

theorem dirsHeight_le_iff (n : Nat) : ∀ (l : List Item),
    dirsHeight l ≤ n ↔ ∀ it ∈ l, itemDirHeight it ≤ n := by
  intro l
  induction l with
  | nil => rw [dirsHeight]; simp
  | cons x xs ih =>
    rw [dirsHeight]
    constructor
    · intro h it hit
      obtain ⟨ha, hb⟩ := Nat.max_le.mp h
      rcases List.mem_cons.mp hit with rfl | hm
      · exact ha
      · exact ih.mp hb it hm
    · intro h
      exact Nat.max_le.mpr ⟨h x (List.mem_cons_self _ _),
        ih.mpr (fun it hm => h it (List.mem_cons_of_mem _ hm))⟩

theorem dirsHeight_perm_le (l l2 : List Item) (hp : l2.Perm l) :
    dirsHeight l2 ≤ dirsHeight l := by
  refine (dirsHeight_le_iff (dirsHeight l) l2).mpr ?_
  intro it hit
  exact itemDirHeight_mem l it (hp.mem_iff.mp hit)

mutual

theorem finItem_height : ∀ (x y : Item), finItem x y →
    itemDirHeight y ≤ itemDirHeight x
  | .mk n f o u s c, y, h => by
    rw [finItem] at h
    by_cases hd : isDirFlag f = true
    · rw [if_pos hd] at h
      obtain ⟨o2, c2, rfl, hf⟩ := h
      have h1 : dirsHeight (sortByName c2) ≤ dirsHeight c2 :=
        dirsHeight_perm_le c2 (sortByName c2) (sortByName_perm c2)
      have h2 : dirsHeight c2 ≤ dirsHeight c := finForest_height c c2 hf
      rw [show itemDirHeight (Item.mk n f o2 u s (sortByName c2)) =
        (if isDirFlag f then 1 + dirsHeight (sortByName c2) else 0) from rfl]
      rw [show itemDirHeight (Item.mk n f o u s c) =
        (if isDirFlag f then 1 + dirsHeight c else 0) from rfl]
      rw [if_pos hd, if_pos hd]
      omega
    · rw [if_neg hd] at h
      rw [h]

theorem finForest_height : ∀ (c c2 : List Item), finForest c c2 →
    dirsHeight c2 ≤ dirsHeight c
  | [], c2, h => by
    rw [finForest] at h
    subst h
    exact Nat.le_refl _
  | x :: rest, c2, h => by
    rw [finForest] at h
    obtain ⟨y, ys, rfl, h1, h2⟩ := h
    rw [dirsHeight, dirsHeight]
    have ha := finItem_height x y h1
    have hb := finForest_height rest ys h2
    exact Nat.max_le.mpr ⟨Nat.le_trans ha (Nat.le_max_left _ _),
      Nat.le_trans hb (Nat.le_max_right _ _)⟩

end

/-! ## Tree-mode `Finalize`: the full roundtrip -/

/-- `Finalize` on a tree-mode writer: the output is the processed blocks,
then the sorted root block, then the footer; the final forest is the
finalized image of the writer forest, with every block parseable. -/
theorem finalize_tree (w : PakWriter)
    (hhash : w.useHashIndex = false)
    (hmp : w.mountPoint = [])
    (htree : treeForestOkB w.rootItems = true)
    (hhf : hasFilesB w.rootItems = true) :
    ∃ t' out,
      finForest w.rootItems t' ∧ itemsOkFor out t' ∧
      (∃ tl0, out = w.output ++ tl0) ∧
      finalize w = some (out ++
        (writeRootBlock false [] (sortByName t') ++
         writeFooter false w.useCompressedIndex out.length)) := by
  obtain ⟨t', ext, hfold, hpart⟩ := fold_bfs w.rootItems htree
    (itemsSize w.rootItems) ((dirIdxs w.rootItems).map (fun i => [i]))
    w.rootItems w.output 1 (partForest_refl w.output [] 0 w.rootItems)
    (initial_frontier_props w.rootItems) (initial_frontier_nodup w.rootItems)
  have hfin := finForest_of_part (w.output ++ ext)
    (bfsAux w.rootItems (itemsSize w.rootItems)
      ((dirIdxs w.rootItems).map (fun i => [i])))
    w.rootItems [] 0 t' hpart htree
    (by
      intro k x hk hd
      have hmem := dirQueue_complete w.rootItems htree [k] x (by simp) hk hd
      rw [dirQueue] at hmem
      simpa using hmem)
  refine ⟨t', w.output ++ ext, hfin.1, hfin.2, ⟨ext, rfl⟩, ?_⟩
  rw [finalize]
  dsimp only
  rw [if_neg (by simp [hhf])]
  rw [hhash]
  rw [show dirQueue w.rootItems = bfsAux w.rootItems (itemsSize w.rootItems)
    ((dirIdxs w.rootItems).map (fun i => [i])) from rfl]
  rw [hfold]
  dsimp only
  rw [if_neg (by rw [hmp]; decide), hmp]
  simp [List.append_assoc]

/-- Finalizing a tree-mode writer and reopening the archive yields exactly
the sorted finalized forest. -/
theorem pakOpen_finalize_tree (w : PakWriter)
    (hhash : w.useHashIndex = false) (hcomp : w.useCompressedIndex = false)
    (hmp : w.mountPoint = []) (hout : 8 ≤ w.output.length)
    (htree : treeForestOkB w.rootItems = true)
    (hhf : hasFilesB w.rootItems = true)
    (hdh : dirsHeight w.rootItems ≤ 63) :
    ∃ b t', finalize w = some b ∧ finForest w.rootItems t' ∧
      itemsOkFor b (sortByName t') ∧
      (∃ tl, b = w.output ++ tl) ∧
      (b.length < 18446744073709551616 →
        pakOpen b = ⟨true, false, [], sortByName t'⟩) := by
  obtain ⟨t', out, hfin, hok, htl0, hfeq⟩ := finalize_tree w hhash hmp htree hhf
  obtain ⟨tl0, htl0⟩ := htl0
  have hlen : w.output.length ≤ out.length := by
    rw [htl0]
    simp
  rw [hcomp] at hfeq
  have hokb : itemsOkFor (out ++ (writeRootBlock false [] (sortByName t') ++
      writeFooter false false out.length)) (sortByName t') := by
    refine itemsOkFor_of_mem _ _ ?_
    intro it hit
    exact itemOkForI_extend out _ it
      (itemsOkFor_mem out t' hok it ((sortByName_mem _ _).mp hit))
  refine ⟨_, t', hfeq, hfin, hokb,
    ⟨tl0 ++ (writeRootBlock false [] (sortByName t') ++
      writeFooter false false out.length), by rw [htl0, List.append_assoc]⟩, ?_⟩
  intro hblen
  have hrb : 1 ≤ (writeRootBlock false [] (sortByName t')).length := by
    rw [writeRootBlock]
    have := List.length_pos.mpr (writeVarNat_ne_nil 0)
    simp [List.length_append]
    omega
  have hout2 : 8 ≤ out.length := Nat.le_trans hout hlen
  have h64 : out.length < 18446744073709551616 := by
    have hsp : (out ++ (writeRootBlock false [] (sortByName t') ++
        writeFooter false false out.length)).length =
        out.length + (writeRootBlock false [] (sortByName t') ++
          writeFooter false false out.length).length :=
      List.length_append _ _
    omega
  rw [pakOpen_footer out (writeRootBlock false [] (sortByName t')) false false
    hout2 hrb h64]
  have hgs : ∀ it ∈ sortByName t', goodShallow false it := by
    intro it hit
    exact goodShallow_of_okFor out it
      (itemsOkFor_mem out t' hok it ((sortByName_mem _ _).mp hit))
  have hread := readIndex_write_root false out
    (writeFooter false false out.length) (sortByName t') hgs
  have hh2 : dirsHeight (sortByName t') ≤ 63 := by
    have h1 : dirsHeight (sortByName t') ≤ dirsHeight t' :=
      dirsHeight_perm_le t' (sortByName t') (sortByName_perm t')
    have h2 : dirsHeight t' ≤ dirsHeight w.rootItems :=
      finForest_height w.rootItems t' hfin
    omega
  have hconstr : constructsItemsFromIndex false false
      (out ++ (writeRootBlock false [] (sortByName t') ++
        writeFooter false false out.length)) out.length true 0 =
      (sortByName t', some []) := by
    rw [constructsItemsFromIndex, show maxDepth - 0 = 63 + 1 from rfl]
    exact constructsAux_of_ok _ 63 (sortByName t') out.length true (some [])
      (out.length + (writeRootBlock false [] (sortByName t')).length)
      hokb hh2 hread
  rw [hconstr]
  rfl

/-! ## The reopened forest supports the component-by-component lookup -/

theorem name_unique (l : List Item)
    (hne : l.Pairwise (fun a b => a.name ≠ b.name)) :
    ∀ x ∈ l, ∀ y ∈ l, x.name = y.name → x = y := by
  induction l with
  | nil => intro x hx; simp at hx
  | cons a rest ih =>
    intro x hx y hy hn
    obtain ⟨ha, hrest⟩ := List.pairwise_cons.mp hne
    rcases List.mem_cons.mp hx with rfl | hx2
    · rcases List.mem_cons.mp hy with rfl | hy2
      · rfl
      · exact absurd hn (ha y hy2)
    · rcases List.mem_cons.mp hy with rfl | hy2
      · exact absurd hn.symm (ha x hx2)
      · exact ih hrest x hx2 y hy2 hn

theorem findOkL_mem : ∀ (l : List Item), findOkL l → ∀ x ∈ l, findOkI x := by
  intro l
  induction l with
  | nil => intro _ x hx; simp at hx
  | cons a rest ih =>
    intro h x hx
    rw [findOkL] at h
    rcases List.mem_cons.mp hx with rfl | hx2
    · exact h.1
    · exact ih h.2 x hx2

theorem findOkL_of_mem : ∀ (l : List Item), (∀ x ∈ l, findOkI x) →
    findOkL l := by
  intro l
  induction l with
  | nil => intro _; trivial
  | cons a rest ih =>
    intro h
    rw [findOkL]
    exact ⟨h a (List.mem_cons_self _ _),
      ih (fun x hx => h x (List.mem_cons_of_mem _ hx))⟩

theorem findOkI_children (it : Item) (h : findOkI it) :
    findOkForest it.children := by
  cases it with
  | mk n f o u s c =>
    rw [findOkI] at h
    simp only [Item.children_mk]
    exact ⟨h.1, h.2.1, h.2.2⟩

theorem finForest_mem : ∀ (c c2 : List Item), finForest c c2 →
    ∀ x ∈ c, ∃ y ∈ c2, finItem x y := by
  intro c
  induction c with
  | nil => intro c2 _ x hx; simp at hx
  | cons a rest ih =>
    intro c2 h x hx
    rw [finForest] at h
    obtain ⟨y, ys, rfl, h1, h2⟩ := h
    rcases List.mem_cons.mp hx with rfl | hx2
    · exact ⟨y, List.mem_cons_self _ _, h1⟩
    · obtain ⟨y2, hy2, hf⟩ := ih ys h2 x hx2
      exact ⟨y2, List.mem_cons_of_mem _ hy2, hf⟩

theorem finForest_mem_rev : ∀ (c c2 : List Item), finForest c c2 →
    ∀ y ∈ c2, ∃ x ∈ c, finItem x y := by
  intro c
  induction c with
  | nil =>
    intro c2 h y hy
    rw [finForest] at h
    subst h
    simp at hy
  | cons a rest ih =>
    intro c2 h y hy
    rw [finForest] at h
    obtain ⟨y1, ys, rfl, h1, h2⟩ := h
    rcases List.mem_cons.mp hy with rfl | hy2
    · exact ⟨a, List.mem_cons_self _ _, h1⟩
    · obtain ⟨x2, hx2, hf⟩ := ih ys h2 y hy2
      exact ⟨x2, List.mem_cons_of_mem _ hx2, hf⟩

theorem finItem_name (x y : Item) (h : finItem x y) :
    y.name = x.name ∧ y.flags = x.flags := by
  cases x with
  | mk n f o u s c =>
    rw [finItem] at h
    by_cases hd : isDirFlag f = true
    · rw [if_pos hd] at h
      obtain ⟨o2, c2, rfl, _⟩ := h
      exact ⟨by simp, by simp⟩
    · rw [if_neg hd] at h
      rw [h]
      exact ⟨rfl, rfl⟩

theorem finForest_pairwise_ne : ∀ (c c2 : List Item), finForest c c2 →
    c.Pairwise (fun a b => a.name ≠ b.name) →
    c2.Pairwise (fun a b => a.name ≠ b.name) := by
  intro c
  induction c with
  | nil =>
    intro c2 h _
    rw [finForest] at h
    subst h
    exact List.Pairwise.nil
  | cons a rest ih =>
    intro c2 h hp
    rw [finForest] at h
    obtain ⟨y, ys, rfl, h1, h2⟩ := h
    obtain ⟨ha, hrest⟩ := List.pairwise_cons.mp hp
    refine List.pairwise_cons.mpr ⟨?_, ih ys h2 hrest⟩
    intro y2 hy2
    obtain ⟨x2, hx2, hf2⟩ := finForest_mem_rev rest ys h2 y2 hy2
    rw [(finItem_name a y h1).1, (finItem_name x2 y2 hf2).1]
    exact ha x2 hx2

mutual

theorem findOkI_of_fin : ∀ (x y : Item), treeItemOkB x = true → finItem x y →
    findOkI y
  | .mk n f o u s c, y, hok, h => by
    rw [finItem] at h
    by_cases hd : isDirFlag f = true
    · rw [if_pos hd] at h
      obtain ⟨o2, c2, rfl, hf⟩ := h
      rw [findOkI]
      have hcok : treeForestOkB c = true := by
        have := treeItemOkB_children (Item.mk n f o u s c) hok
        simpa using this
      refine ⟨sortByName_pairwise c2, ?_, ?_⟩
      · exact ((sortByName_perm c2).pairwise_iff
          (fun hxy he => hxy he.symm)).mpr
          (finForest_pairwise_ne c c2 hf (treeForestOkB_names c hcok))
      · refine findOkL_of_mem _ ?_
        intro y2 hy2
        exact findOkList_of_fin c c2 hcok hf y2 ((sortByName_mem c2 y2).mp hy2)
    · rw [if_neg hd] at h
      have hc : c = [] :=
        ((treeItemOkB_parts n f o u s c hok).2.2
          (by revert hd; cases isDirFlag f <;> simp)).1
      subst h
      subst hc
      rw [findOkI]
      exact ⟨List.Pairwise.nil, List.Pairwise.nil, trivial⟩

theorem findOkList_of_fin : ∀ (c c2 : List Item), treeForestOkB c = true →
    finForest c c2 → ∀ y ∈ c2, findOkI y
  | [], c2, _, h, y, hy => by
    rw [finForest] at h
    subst h
    simp at hy
  | a :: rest, c2, hok, h, y, hy => by
    rw [finForest] at h
    obtain ⟨y1, ys, rfl, h1, h2⟩ := h
    obtain ⟨haok, _, hrok⟩ := treeForestOkB_cons a rest hok
    rcases List.mem_cons.mp hy with rfl | hy2
    · exact findOkI_of_fin a y haok h1
    · exact findOkList_of_fin rest ys hrok h2 y hy2

end

theorem findOkForest_of_fin (tree t2 : List Item)
    (htree : treeForestOkB tree = true) (hfin : finForest tree t2) :
    findOkForest (sortByName t2) := by
  refine ⟨sortByName_pairwise t2, ?_, ?_⟩
  · exact ((sortByName_perm t2).pairwise_iff (fun hxy he => hxy he.symm)).mpr
      (finForest_pairwise_ne tree t2 hfin (treeForestOkB_names tree htree))
  · refine findOkL_of_mem _ ?_
    intro y hy
    exact findOkList_of_fin tree t2 htree hfin y ((sortByName_mem t2 y).mp hy)

/-- A file chain in the writer forest survives finalization verbatim: the
interior directories are renamed-in-place and resorted, the leaf file item is
untouched. -/
theorem chainEx_fin : ∀ (cs : List Bytes) (c c2 : List Item) (w : Item),
    finForest c c2 → chainEx c cs w → isDirFlag w.flags = false →
    chainEx (sortByName c2) cs w
  | [], _, _, _, _, h, _ => False.elim h
  | [d], c, c2, w, hf, h, hw => by
    rw [chainEx] at h
    obtain ⟨hmem, hname⟩ := h
    obtain ⟨y, hy, hfin⟩ := finForest_mem c c2 hf w hmem
    have hyw : y = w := by
      cases w with
      | mk n f o u s ch =>
        rw [finItem, if_neg (by simpa using hw)] at hfin
        exact hfin
    rw [chainEx]
    exact ⟨(sortByName_mem c2 w).mpr (hyw ▸ hy), hname⟩
  | d :: d2 :: ds, c, c2, w, hf, h, hw => by
    rw [show chainEx c (d :: d2 :: ds) w =
      (∃ p ∈ c, p.name = d ∧ isDirFlag p.flags = true ∧
        chainEx p.children (d2 :: ds) w) from rfl] at h
    obtain ⟨p, hp, hname, hdir, hchild⟩ := h
    obtain ⟨y, hy, hfin⟩ := finForest_mem c c2 hf p hp
    cases p with
    | mk n f o u s pc =>
      rw [finItem, if_pos (by simpa using hdir)] at hfin
      obtain ⟨o2, pc2, rfl, hff⟩ := hfin
      rw [show chainEx (sortByName c2) (d :: d2 :: ds) w =
        (∃ p ∈ sortByName c2, p.name = d ∧ isDirFlag p.flags = true ∧
          chainEx p.children (d2 :: ds) w) from rfl]
      refine ⟨Item.mk n f o2 u s (sortByName pc2),
        (sortByName_mem c2 _).mpr hy, by simpa using hname,
        by simpa using hdir, ?_⟩
      have hrec := chainEx_fin (d2 :: ds) pc pc2 w hff (by simpa using hchild) hw
      simpa using hrec

/-! ## Component paths and the `FindItem` loop -/

theorem compOk_parts (c : Bytes) (h : compOk c = true) :
    c ≠ [] ∧ c.all (fun ch => ! isSep ch) = true ∧ c.length < int32Max := by
  rw [compOk] at h
  simp only [Bool.and_eq_true, decide_eq_true_eq] at h
  refine ⟨?_, h.1.2, h.2⟩
  intro hc
  rw [hc] at h
  simp at h

theorem findIdx?_sepfree : ∀ (c : Bytes), c.all (fun ch => ! isSep ch) = true →
    c.findIdx? (fun ch => isSep ch) = none
  | [], _ => rfl
  | x :: xs, hc => by
    rw [List.all_cons, Bool.and_eq_true] at hc
    have h1 := hc.1
    simp only [Bool.not_eq_true'] at h1
    rw [List.findIdx?_cons, if_neg (by simp [h1]), List.findIdx?_succ,
      findIdx?_sepfree xs hc.2]
    rfl

theorem findIdx?_append_sep : ∀ (c r : Bytes),
    c.all (fun ch => ! isSep ch) = true →
    (c ++ slash :: r).findIdx? (fun ch => isSep ch) = some c.length
  | [], r, _ => by
    rw [List.nil_append, List.findIdx?_cons, if_pos (by decide)]
    rfl
  | x :: xs, r, hc => by
    rw [List.all_cons, Bool.and_eq_true] at hc
    have h1 := hc.1
    simp only [Bool.not_eq_true'] at h1
    rw [List.cons_append, List.findIdx?_cons, if_neg (by simp [h1]),
      List.findIdx?_succ, findIdx?_append_sep xs r hc.2]
    rfl

theorem getLastD_irrel {α : Type} (x : α) (t : List α) (d d2 : α) :
    (x :: t).getLastD d = (x :: t).getLastD d2 := by
  rw [List.getLastD_cons, List.getLastD_cons]

theorem getLastD_append {α : Type} : ∀ (l1 : List α) (x : α) (t : List α)
    (d : α), (l1 ++ x :: t).getLastD d = (x :: t).getLastD d
  | [], _, _, _ => rfl
  | y :: ys, x, t, d => by
    rw [List.cons_append, List.getLastD_cons, getLastD_append ys x t y]
    exact getLastD_irrel x t y d

theorem getLastD_mem {α : Type} : ∀ (l : List α) (d : α), l ≠ [] →
    l.getLastD d ∈ l
  | [], _, h => absurd rfl h
  | [x], d, _ => by
    rw [List.getLastD_cons]
    exact List.mem_singleton.mpr rfl
  | x :: y :: t, d, _ => by
    rw [List.getLastD_cons]
    exact List.mem_cons_of_mem _ (getLastD_mem (y :: t) x (by simp))

theorem dropLast_getLastD {α : Type} : ∀ (l : List α) (d : α), l ≠ [] →
    l.dropLast ++ [l.getLastD d] = l
  | [], _, h => absurd rfl h
  | [x], d, _ => by rw [List.getLastD_cons]; rfl
  | x :: y :: t, d, _ => by
    rw [List.getLastD_cons]
    rw [show (x :: y :: t).dropLast = x :: (y :: t).dropLast from rfl]
    rw [List.cons_append]
    rw [show (y :: t).getLastD x = (y :: t).getLastD d from
      getLastD_irrel y t x d]
    rw [dropLast_getLastD (y :: t) d (by simp)]

theorem joinComps_ne_nil : ∀ (cs : List Bytes), cs ≠ [] →
    (∀ c ∈ cs, compOk c = true) → joinComps cs ≠ []
  | [], h, _ => absurd rfl h
  | [c], _, hc => by
    rw [joinComps]
    exact (compOk_parts c (hc c (List.mem_cons_self _ _))).1
  | c :: d :: ds, _, _ => by
    rw [show joinComps (c :: d :: ds) = c ++ slash :: joinComps (d :: ds)
      from rfl]
    simp

theorem joinComps_getLastD : ∀ (cs : List Bytes), cs ≠ [] →
    (∀ c ∈ cs, compOk c = true) →
    isSep ((joinComps cs).getLastD 0) = false
  | [], h, _ => absurd rfl h
  | [c], _, hc => by
    rw [joinComps]
    obtain ⟨hne, hall, _⟩ := compOk_parts c (hc c (List.mem_cons_self _ _))
    have hmem := getLastD_mem c 0 hne
    have := List.all_eq_true.mp hall _ hmem
    simpa using this
  | c :: d :: ds, _, hc => by
    rw [show joinComps (c :: d :: ds) = c ++ slash :: joinComps (d :: ds)
      from rfl]
    rw [getLastD_append c slash (joinComps (d :: ds)) 0]
    have hjne : joinComps (d :: ds) ≠ [] :=
      joinComps_ne_nil (d :: ds) (by simp)
        (fun x hx => hc x (List.mem_cons_of_mem _ hx))
    rcases hj : joinComps (d :: ds) with _ | ⟨z, zs⟩
    · exact absurd hj hjne
    · rw [List.getLastD_cons, List.getLastD_cons]
      have hprev := joinComps_getLastD (d :: ds) (by simp)
        (fun x hx => hc x (List.mem_cons_of_mem _ hx))
      rw [hj, List.getLastD_cons] at hprev
      exact hprev

theorem joinComps_dropWhile (cs : List Bytes) (hne : cs ≠ [])
    (hc : ∀ c ∈ cs, compOk c = true) :
    (joinComps cs).dropWhile (fun ch => isSep ch) = joinComps cs := by
  cases cs with
  | nil => exact absurd rfl hne
  | cons c cs2 =>
    obtain ⟨hcne, hall, _⟩ := compOk_parts c (hc c (List.mem_cons_self _ _))
    obtain ⟨x, xs, rfl⟩ : ∃ x xs, c = x :: xs := by
      cases c with
      | nil => exact absurd rfl hcne
      | cons x xs => exact ⟨x, xs, rfl⟩
    rw [List.all_cons, Bool.and_eq_true] at hall
    have h1 := hall.1
    simp only [Bool.not_eq_true'] at h1
    cases cs2 with
    | nil =>
      rw [joinComps, List.dropWhile_cons, if_neg (by simp [h1])]
    | cons d ds =>
      rw [show joinComps ((x :: xs) :: d :: ds) =
        (x :: xs) ++ slash :: joinComps (d :: ds) from rfl,
        List.cons_append, List.dropWhile_cons, if_neg (by simp [h1])]

/-- The `FindItem` loop follows a name chain to its endpoint. -/
theorem findItemLoop_chain : ∀ (cs : List Bytes) (items : List Item) (w : Item),
    findOkForest items → (∀ c ∈ cs, compOk c = true) →
    chainEx items cs w →
    ∀ fuel, (joinComps cs).length + 1 ≤ fuel →
    findItemLoop items (joinComps cs) fuel = FindOutcome.found w
  | [], items, w, _, _, h, fuel, _ => False.elim h
  | [c], items, w, hok, hcomp, h, fuel, hfuel => by
    rw [chainEx] at h
    obtain ⟨hmem, hname⟩ := h
    obtain ⟨hcne, hall, _⟩ := compOk_parts c (hcomp c (List.mem_cons_self _ _))
    cases fuel with
    | zero => omega
    | succ n =>
      rw [joinComps, findItemLoop]
      rw [findIdx?_sepfree c hall]
      simp only [Option.getD_none]
      rw [List.take_length]
      rw [if_neg (by rw [List.isEmpty_iff]; exact hcne)]
      obtain ⟨it, hfind, hmemit, hnameit⟩ :=
        lowerBoundFind_found c items hok.1 w hmem hname
      have hiw : it = w :=
        name_unique items hok.2.1 it hmemit w hmem (by rw [hnameit, hname])
      subst hiw
      rw [hfind]
  | c :: d :: ds, items, w, hok, hcomp, h, fuel, hfuel => by
    rw [show chainEx items (c :: d :: ds) w =
      (∃ p ∈ items, p.name = c ∧ isDirFlag p.flags = true ∧
        chainEx p.children (d :: ds) w) from rfl] at h
    obtain ⟨p, hp, hnamep, hdirp, hchild⟩ := h
    obtain ⟨hcne, hall, _⟩ := compOk_parts c (hcomp c (List.mem_cons_self _ _))
    cases fuel with
    | zero =>
      rw [show joinComps (c :: d :: ds) = c ++ slash :: joinComps (d :: ds)
        from rfl] at hfuel
      simp only [List.length_append, List.length_cons] at hfuel
      omega
    | succ n =>
      rw [show joinComps (c :: d :: ds) = c ++ slash :: joinComps (d :: ds)
        from rfl, findItemLoop]
      rw [findIdx?_append_sep c (joinComps (d :: ds)) hall]
      simp only [Option.getD_some]
      rw [List.take_left]
      rw [if_neg (by rw [List.isEmpty_iff]; exact hcne)]
      obtain ⟨it, hfind, hmemit, hnameit⟩ :=
        lowerBoundFind_found c items hok.1 p hp hnamep
      have hip : it = p :=
        name_unique items hok.2.1 it hmemit p hp (by rw [hnameit, hnamep])
      rw [hip] at hfind
      rw [hfind]
      dsimp only
      rw [show (c ++ slash :: joinComps (d :: ds)).drop (c.length + 1) =
          joinComps (d :: ds) by
        rw [show c ++ slash :: joinComps (d :: ds) =
            (c ++ [slash]) ++ joinComps (d :: ds) by simp,
          show c.length + 1 = (c ++ [slash]).length by simp]
        exact List.drop_left _ _]
      refine findItemLoop_chain (d :: ds) p.children w
        (findOkI_children p (findOkL_mem items hok.2.2 p hp))
        (fun x hx => hcomp x (List.mem_cons_of_mem _ hx)) hchild n ?_
      rw [show joinComps (c :: d :: ds) = c ++ slash :: joinComps (d :: ds)
        from rfl] at hfuel
      simp only [List.length_append, List.length_cons] at hfuel ⊢
      omega

/-- Tree-mode `FindItem` resolves a component path along its name chain. -/
theorem findItem_tree (hash : Bytes → Nat) (s : PakState)
    (huse : s.useHashIndex = false) (hfok : findOkForest s.rootItems)
    (cs : List Bytes) (hne : cs ≠ []) (hc : ∀ c ∈ cs, compOk c = true)
    (w : Item) (hch : chainEx s.rootItems cs w) :
    findItem hash s (joinComps cs) = FindOutcome.found w := by
  rw [findItem]
  dsimp only
  rw [joinComps_dropWhile cs hne hc]
  rw [if_neg (by simp [huse])]
  exact findItemLoop_chain cs s.rootItems w hfok hc hch
    ((joinComps cs).length + 1) (Nat.le_refl _)

/-! ## Tree-mode writer: which name paths the forest can contain -/

mutual

/-- Every directory's name path is a proper prefix of some recorded full
component path, and its children satisfy the same below it; every file's
name path is a recorded full path. `q` is the name path of the owning
array, `done` the component paths of the files added so far. -/
def nodeOk (done : List (List Bytes)) : List Bytes → Item → Prop
  | q, .mk n f _ _ _ c =>
    if isDirFlag f = true then
      (∃ cs ∈ done, (q ++ [n]) <+: cs ∧ (q ++ [n]).length < cs.length) ∧
      nodesOk done (q ++ [n]) c
    else (q ++ [n]) ∈ done

def nodesOk (done : List (List Bytes)) : List Bytes → List Item → Prop
  | _, [] => True
  | q, it :: rest => nodeOk done q it ∧ nodesOk done q rest

end

mutual

theorem nodeOk_mono (done : List (List Bytes)) (c0 : List Bytes) :
    ∀ (q : List Bytes) (it : Item), nodeOk done q it → nodeOk (c0 :: done) q it
  | q, .mk n f o u s c, h => by
    rw [nodeOk] at h
    rw [nodeOk]
    by_cases hd : isDirFlag f = true
    · rw [if_pos hd] at h
      rw [if_pos hd]
      obtain ⟨⟨cs, hcs, hp, hl⟩, hrest⟩ := h
      exact ⟨⟨cs, List.mem_cons_of_mem _ hcs, hp, hl⟩,
        nodesOk_mono done c0 (q ++ [n]) c hrest⟩
    · rw [if_neg hd] at h
      rw [if_neg hd]
      exact List.mem_cons_of_mem _ h

theorem nodesOk_mono (done : List (List Bytes)) (c0 : List Bytes) :
    ∀ (q : List Bytes) (l : List Item), nodesOk done q l →
      nodesOk (c0 :: done) q l
  | _, [], h => h
  | q, it :: rest, h => by
    rw [nodesOk] at h
    rw [nodesOk]
    exact ⟨nodeOk_mono done c0 q it h.1, nodesOk_mono done c0 q rest h.2⟩

end

theorem nodesOk_mem (done : List (List Bytes)) (q : List Bytes) :
    ∀ (l : List Item), nodesOk done q l → ∀ it ∈ l, nodeOk done q it := by
  intro l
  induction l with
  | nil => intro _ it hit; simp at hit
  | cons x xs ih =>
    intro h it hit
    rw [nodesOk] at h
    rcases List.mem_cons.mp hit with rfl | hm
    · exact h.1
    · exact ih h.2 it hm

theorem nodesOk_of_mem (done : List (List Bytes)) (q : List Bytes) :
    ∀ (l : List Item), (∀ it ∈ l, nodeOk done q it) → nodesOk done q l := by
  intro l
  induction l with
  | nil => intro _; trivial
  | cons x xs ih =>
    intro h
    rw [nodesOk]
    exact ⟨h x (List.mem_cons_self _ _),
      ih (fun it hit => h it (List.mem_cons_of_mem _ hit))⟩

theorem chainEx_append : ∀ (cs : List Bytes) (items ext : List Item) (w : Item),
    chainEx items cs w → chainEx (items ++ ext) cs w
  | [], _, _, _, h => False.elim h
  | [d], items, ext, w, h => by
    rw [chainEx] at h
    rw [chainEx]
    exact ⟨List.mem_append.mpr (Or.inl h.1), h.2⟩
  | d :: d2 :: ds, items, ext, w, h => by
    rw [show chainEx items (d :: d2 :: ds) w = (∃ p ∈ items, p.name = d ∧
      isDirFlag p.flags = true ∧ chainEx p.children (d2 :: ds) w) from rfl] at h
    rw [show chainEx (items ++ ext) (d :: d2 :: ds) w =
      (∃ p ∈ items ++ ext, p.name = d ∧ isDirFlag p.flags = true ∧
        chainEx p.children (d2 :: ds) w) from rfl]
    obtain ⟨p, hp, h1, h2, h3⟩ := h
    exact ⟨p, List.mem_append.mpr (Or.inl hp), h1, h2, h3⟩

theorem findIdx?_some_facts (p : Item → Bool) :
    ∀ (l : List Item) (i : Nat), l.findIdx? p = some i →
      i < l.length ∧ p (l.getD i defaultItem) = true := by
  intro l
  induction l with
  | nil => intro i h; rw [List.findIdx?_nil] at h; cases h
  | cons x xs ih =>
    intro i h
    rw [List.findIdx?_cons] at h
    by_cases hx : p x = true
    · rw [if_pos hx] at h
      injection h with h2
      subst h2
      exact ⟨by simp, by simpa using hx⟩
    · rw [if_neg hx, List.findIdx?_succ] at h
      cases hfx : xs.findIdx? p with
      | none => rw [hfx] at h; cases h
      | some j =>
        rw [hfx] at h
        simp only [Option.map_some'] at h
        injection h with h2
        subst h2
        obtain ⟨h3, h4⟩ := ih j hfx
        refine ⟨by simp only [List.length_cons]; omega, ?_⟩
        rw [List.getD_cons_succ]
        exact h4

theorem findIdx?_none_facts (p : Item → Bool) :
    ∀ (l : List Item), l.findIdx? p = none → ∀ x ∈ l, p x = false := by
  intro l
  induction l with
  | nil => intro _ x hx; simp at hx
  | cons a xs ih =>
    intro h x hx
    rw [List.findIdx?_cons] at h
    by_cases ha : p a = true
    · rw [if_pos ha] at h; cases h
    · rw [if_neg ha, List.findIdx?_succ] at h
      rcases List.mem_cons.mp hx with rfl | hm
      · revert ha; cases p x <;> simp
      · refine ih ?_ x hm
        cases hfx : xs.findIdx? p with
        | none => rfl
        | some j => rw [hfx] at h; simp at h

theorem mem_set_self : ∀ (l : List Item) (i : Nat) (x : Item),
    i < l.length → x ∈ l.set i x
  | [], i, x, h => by simp at h
  | a :: t, 0, x, _ => by
    rw [List.set_cons_zero]
    exact List.mem_cons_self _ _
  | a :: t, i + 1, x, h => by
    rw [List.set_cons_succ]
    exact List.mem_cons_of_mem _
      (mem_set_self t i x (by simp only [List.length_cons] at h; omega))

theorem mem_set_of_ne : ∀ (l : List Item) (i : Nat) (x y : Item),
    y ∈ l → y ≠ l.getD i defaultItem → y ∈ l.set i x
  | [], _, _, _, hy, _ => by simp at hy
  | a :: t, 0, x, y, hy, hne => by
    rw [List.set_cons_zero]
    rcases List.mem_cons.mp hy with rfl | hm
    · exact absurd (by rw [List.getD_cons_zero]) hne
    · exact List.mem_cons_of_mem _ hm
  | a :: t, i + 1, x, y, hy, hne => by
    rw [List.set_cons_succ]
    rcases List.mem_cons.mp hy with rfl | hm
    · exact List.mem_cons_self _ _
    · refine List.mem_cons_of_mem _ (mem_set_of_ne t i x y hm ?_)
      rw [List.getD_cons_succ] at hne
      exact hne

theorem treeForestOkB_append : ∀ (l : List Item) (x : Item),
    treeForestOkB l = true → treeItemOkB x = true →
    (∀ it ∈ l, it.name ≠ x.name) → treeForestOkB (l ++ [x]) = true
  | [], x, _, hx, _ => by
    rw [List.nil_append, treeForestOkB]
    simp [hx, treeForestOkB]
  | a :: t, x, hl, hx, hn => by
    obtain ⟨ha, hnames, ht⟩ := treeForestOkB_cons a t hl
    rw [List.cons_append, treeForestOkB]
    simp only [Bool.and_eq_true]
    refine ⟨⟨ha, ?_⟩, treeForestOkB_append t x ht hx
      (fun it hit => hn it (List.mem_cons_of_mem _ hit))⟩
    rw [List.all_append]
    simp only [Bool.and_eq_true]
    constructor
    · exact List.all_eq_true.mpr (fun b hb => by simpa using hnames b hb)
    · refine List.all_eq_true.mpr ?_
      intro b hb
      rcases List.mem_singleton.mp hb with rfl
      simpa using hn a (List.mem_cons_self _ _)

theorem treeForestOkB_set : ∀ (l : List Item) (i : Nat) (x : Item),
    treeForestOkB l = true → i < l.length →
    x.name = (l.getD i defaultItem).name → treeItemOkB x = true →
    treeForestOkB (l.set i x) = true
  | [], i, x, _, hi, _, _ => by simp at hi
  | a :: t, 0, x, hl, _, hname, hx => by
    obtain ⟨_, hnames, ht⟩ := treeForestOkB_cons a t hl
    rw [List.set_cons_zero, treeForestOkB]
    simp only [Bool.and_eq_true]
    refine ⟨⟨hx, ?_⟩, ht⟩
    refine List.all_eq_true.mpr ?_
    intro b hb
    rw [List.getD_cons_zero] at hname
    rw [hname]
    simpa using hnames b hb
  | a :: t, i + 1, x, hl, hi, hname, hx => by
    obtain ⟨ha, hnames, ht⟩ := treeForestOkB_cons a t hl
    have hi2 : i < t.length := by simp only [List.length_cons] at hi; omega
    rw [List.set_cons_succ, treeForestOkB]
    simp only [Bool.and_eq_true]
    refine ⟨⟨ha, ?_⟩, treeForestOkB_set t i x ht hi2
      (by rw [List.getD_cons_succ] at hname; exact hname) hx⟩
    refine List.all_eq_true.mpr ?_
    intro b hb
    rcases List.mem_or_eq_of_mem_set hb with hm | rfl
    · simpa using hnames b hm
    · rw [List.getD_cons_succ] at hname
      have hmem : t.getD i defaultItem ∈ t := by
        rw [List.getD_eq_getElem _ _ hi2]
        exact List.getElem_mem hi2
      rw [hname]
      simpa using hnames _ hmem

/-- The combined effect of one tree-mode `AddFile` walk on an
invariant-respecting forest: under the anti-chain condition (no recorded
path is a component-prefix of the new one or vice versa) the walk only ever
matches directory items, the duplicate check cannot fire, the add succeeds,
every invariant is maintained, the new file's name chain exists, and every
existing file chain survives unchanged. -/
theorem addFileTree_main :
    ∀ (ds : List Bytes) (q : List Bytes) (items : List Item)
      (leaf : Bytes) (fl off us sz : Nat) (done : List (List Bytes)),
      treeForestOkB items = true →
      nodesOk done q items →
      (∀ cs2 ∈ done, ¬ cs2 <+: (q ++ ds ++ [leaf]) ∧
        ¬ (q ++ ds ++ [leaf]) <+: cs2) →
      isDirFlag fl = false →
      (hasCompressedSize fl || decide (sz = 0)) = true →
      leaf.length < int32Max →
      (∀ d ∈ ds, d.length < int32Max) →
      ∃ items2,
        addFileTree leaf (Item.mk leaf fl off us sz []) .added items ds =
          (items2, .added) ∧
        treeForestOkB items2 = true ∧
        nodesOk ((q ++ ds ++ [leaf]) :: done) q items2 ∧
        chainEx items2 (ds ++ [leaf]) (Item.mk leaf fl off us sz []) ∧
        (∀ cs0 w, chainEx items cs0 w → isDirFlag w.flags = false →
          chainEx items2 cs0 w) ∧
        dirsHeight items2 ≤ max (dirsHeight items) ds.length := by
  intro ds
  induction ds with
  | nil =>
    intro q items leaf fl off us sz done htree hnodes hanti hfl hszok hleaf _
    simp only [List.append_nil] at hanti ⊢
    have hnodup : items.any (fun it => it.name == leaf) = false := by
      by_contra hc
      rw [Bool.not_eq_false] at hc
      obtain ⟨it, hit, hname⟩ := List.any_eq_true.mp hc
      have hnode := nodesOk_mem done q items hnodes it hit
      cases it with
      | mk n f o2 u2 s2 c2 =>
        have hneq : n = leaf := by simpa using hname
        subst hneq
        rw [nodeOk] at hnode
        by_cases hd : isDirFlag f = true
        · rw [if_pos hd] at hnode
          obtain ⟨⟨cs2, hcs2, hp, hl⟩, _⟩ := hnode
          exact (hanti cs2 hcs2).2 hp
        · rw [if_neg hd] at hnode
          exact (hanti _ hnode).1 (List.prefix_refl _)
    rw [addFileTree, if_neg (by simp [hnodup]), if_pos rfl]
    refine ⟨items ++ [Item.mk leaf fl off us sz []], rfl, ?_, ?_, ?_, ?_, ?_⟩
    · refine treeForestOkB_append items _ htree ?_ ?_
      · rw [treeItemOkB, if_neg (by simp [hfl])]
        simp [hleaf, hszok, treeForestOkB]
      · intro it hit
        have := findIdx?_none_facts (fun it => it.name == leaf) items ?hn it hit
        case hn =>
          cases hfx : items.findIdx? (fun it => it.name == leaf) with
          | none => rfl
          | some j =>
            obtain ⟨hj, hpj⟩ := findIdx?_some_facts _ items j hfx
            have hmj : items.getD j defaultItem ∈ items := by
              rw [List.getD_eq_getElem _ _ hj]
              exact List.getElem_mem hj
            have : items.any (fun it => it.name == leaf) = true :=
              List.any_eq_true.mpr ⟨_, hmj, hpj⟩
            rw [this] at hnodup
            cases hnodup
        simpa using this
    · refine nodesOk_of_mem _ _ _ ?_
      intro it hit
      rcases List.mem_append.mp hit with hm | hm
      · exact nodeOk_mono done _ q it (nodesOk_mem done q items hnodes it hm)
      · rcases List.mem_singleton.mp hm with rfl
        rw [nodeOk, if_neg (by simp [hfl])]
        exact List.mem_cons_self _ _
    · rw [List.nil_append, chainEx]
      exact ⟨List.mem_append.mpr (Or.inr (List.mem_singleton.mpr rfl)), by simp⟩
    · intro cs0 w0 hch _
      exact chainEx_append cs0 items _ w0 hch
    · refine (dirsHeight_le_iff _ _).mpr ?_
      intro it hit
      rcases List.mem_append.mp hit with hm | hm
      · have := itemDirHeight_mem items it hm
        simp only [List.length_nil]
        omega
      · rcases List.mem_singleton.mp hm with rfl
        rw [itemDirHeight, if_neg (by simp [hfl])]
        omega
  | cons d ds2 ih =>
    intro q items leaf fl off us sz done htree hnodes hanti hfl hszok hleaf hdl
    rw [addFileTree]
    cases hf : items.findIdx? (fun it => it.name == d) with
    | some i =>
      obtain ⟨hilen, hpi⟩ := findIdx?_some_facts _ items i hf
      obtain ⟨fn, ff, fo, fu, fs, fc, hfeq⟩ :
          ∃ fn ff fo fu fs fc,
            items.getD i defaultItem = Item.mk fn ff fo fu fs fc := by
        cases hgd : items.getD i defaultItem with
        | mk a1 a2 a3 a4 a5 a6 => exact ⟨a1, a2, a3, a4, a5, a6, rfl⟩
      have hmemf : Item.mk fn ff fo fu fs fc ∈ items := by
        rw [← hfeq, List.getD_eq_getElem _ _ hilen]
        exact List.getElem_mem hilen
      have hnamef : fn = d := by
        rw [hfeq] at hpi
        simpa using hpi
      have hnode := nodesOk_mem done q items hnodes _ hmemf
      rw [nodeOk] at hnode
      have hffdir : isDirFlag ff = true := by
        by_cases hd2 : isDirFlag ff = true
        · exact hd2
        · rw [if_neg hd2] at hnode
          exfalso
          refine (hanti (q ++ [fn]) hnode).1 ?_
          rw [hnamef]
          exact ⟨ds2 ++ [leaf], by simp⟩
      rw [if_pos hffdir] at hnode
      obtain ⟨hdirfact, hchildren⟩ := hnode
      have htreef := treeForestOkB_mem items htree _ hmemf
      have hcok : treeForestOkB fc = true := by
        have := treeItemOkB_children _ htreef
        simpa using this
      have hanti2 : ∀ cs2 ∈ done, ¬ cs2 <+: ((q ++ [d]) ++ ds2 ++ [leaf]) ∧
          ¬ ((q ++ [d]) ++ ds2 ++ [leaf]) <+: cs2 := by
        intro cs2 hcs2
        have := hanti cs2 hcs2
        rw [show (q ++ [d]) ++ ds2 ++ [leaf] = q ++ (d :: ds2) ++ [leaf]
          by simp]
        exact this
      obtain ⟨ch2, hrec, htree2, hnodes2, hchain2, hpres2, hh2⟩ :=
        ih (q ++ [d]) fc leaf fl off us sz done hcok
          (by rw [hnamef] at hchildren; exact hchildren) hanti2 hfl hszok hleaf
          (fun x hx => hdl x (List.mem_cons_of_mem _ hx))
      dsimp only
      rw [hfeq]
      simp only [Item.name_mk, Item.flags_mk, Item.offset_mk,
        Item.uncompressedSize_mk, Item.size_mk, Item.children_mk]
      rw [hrec]
      refine ⟨items.set i (Item.mk fn ff fo fu fs ch2), rfl, ?_, ?_, ?_, ?_, ?_⟩
      · refine treeForestOkB_set items i _ htree hilen (by rw [hfeq]; simp) ?_
        have hparts := treeItemOkB_parts fn ff fo fu fs fc htreef
        have hdirp := hparts.2.1 hffdir
        rw [treeItemOkB, if_pos hffdir]
        simp [hparts.1, hdirp.1, hdirp.2, htree2]
      · refine nodesOk_of_mem _ _ _ ?_
        intro it hit
        rcases List.mem_or_eq_of_mem_set hit with hm | rfl
        · exact nodeOk_mono done _ q it (nodesOk_mem done q items hnodes it hm)
        · rw [nodeOk, if_pos hffdir]
          constructor
          · obtain ⟨cs2, hcs2, hp2, hl2⟩ := hdirfact
            exact ⟨cs2, List.mem_cons_of_mem _ hcs2, hp2, hl2⟩
          · rw [hnamef]
            have hn2 := hnodes2
            rw [show (q ++ [d]) ++ ds2 ++ [leaf] = q ++ (d :: ds2) ++ [leaf]
              by simp] at hn2
            exact hn2
      · obtain ⟨z, zs, hz⟩ : ∃ z zs, ds2 ++ [leaf] = z :: zs := by
          cases ds2 with
          | nil => exact ⟨leaf, [], rfl⟩
          | cons e es => exact ⟨e, es ++ [leaf], rfl⟩
        have hchain2b := hchain2
        rw [hz] at hchain2b
        rw [List.cons_append, hz]
        rw [show chainEx (items.set i (Item.mk fn ff fo fu fs ch2))
            (d :: z :: zs) (Item.mk leaf fl off us sz []) =
          (∃ p ∈ items.set i (Item.mk fn ff fo fu fs ch2), p.name = d ∧
            isDirFlag p.flags = true ∧
            chainEx p.children (z :: zs) (Item.mk leaf fl off us sz []))
          from rfl]
        exact ⟨Item.mk fn ff fo fu fs ch2, mem_set_self items i _ hilen,
          by simpa using hnamef, by simpa using hffdir,
          by simpa using hchain2b⟩
      · intro cs0 w0 hch hw0
        cases cs0 with
        | nil => exact False.elim hch
        | cons c0 cs0t =>
          cases cs0t with
          | nil =>
            rw [chainEx] at hch
            rw [chainEx]
            obtain ⟨hw0m, hw0n⟩ := hch
            refine ⟨?_, hw0n⟩
            refine mem_set_of_ne items i _ w0 hw0m ?_
            intro he
            rw [hfeq] at he
            rw [he] at hw0
            simp only [Item.flags_mk] at hw0
            rw [hffdir] at hw0
            cases hw0
          | cons c1 cs0r =>
            rw [show chainEx items (c0 :: c1 :: cs0r) w0 = (∃ p ∈ items,
              p.name = c0 ∧ isDirFlag p.flags = true ∧
              chainEx p.children (c1 :: cs0r) w0) from rfl] at hch
            obtain ⟨p, hpm, hpn, hpd, hpc⟩ := hch
            rw [show chainEx (items.set i (Item.mk fn ff fo fu fs ch2))
                (c0 :: c1 :: cs0r) w0 =
              (∃ p ∈ items.set i (Item.mk fn ff fo fu fs ch2), p.name = c0 ∧
                isDirFlag p.flags = true ∧
                chainEx p.children (c1 :: cs0r) w0) from rfl]
            by_cases hpe : p = items.getD i defaultItem
            · have hc0 : fn = c0 := by
                rw [hpe, hfeq] at hpn
                simpa using hpn
              have hpc2 : chainEx fc (c1 :: cs0r) w0 := by
                rw [hpe, hfeq] at hpc
                simpa using hpc
              exact ⟨Item.mk fn ff fo fu fs ch2, mem_set_self items i _ hilen,
                by simpa using hc0, by simpa using hffdir,
                by simpa using hpres2 (c1 :: cs0r) w0 hpc2 hw0⟩
            · exact ⟨p, mem_set_of_ne items i _ p hpm hpe, hpn, hpd, hpc⟩
      · refine (dirsHeight_le_iff _ _).mpr ?_
        intro it hit
        rcases List.mem_or_eq_of_mem_set hit with hm | rfl
        · have := itemDirHeight_mem items it hm
          simp only [List.length_cons]
          omega
        · rw [itemDirHeight, if_pos (by simpa using hffdir)]
          have hfmem := itemDirHeight_mem items _ hmemf
          rw [itemDirHeight, if_pos (by simpa using hffdir)] at hfmem
          simp only [List.length_cons]
          omega
    | none =>
      have hnone := findIdx?_none_facts _ items hf
      have hanti2 : ∀ cs2 ∈ done, ¬ cs2 <+: ((q ++ [d]) ++ ds2 ++ [leaf]) ∧
          ¬ ((q ++ [d]) ++ ds2 ++ [leaf]) <+: cs2 := by
        intro cs2 hcs2
        have := hanti cs2 hcs2
        rw [show (q ++ [d]) ++ ds2 ++ [leaf] = q ++ (d :: ds2) ++ [leaf]
          by simp]
        exact this
      obtain ⟨ch2, hrec, htree2, hnodes2, hchain2, hpres2, hh2⟩ :=
        ih (q ++ [d]) [] leaf fl off us sz done rfl trivial hanti2 hfl hszok
          hleaf (fun x hx => hdl x (List.mem_cons_of_mem _ hx))
      dsimp only
      rw [hrec]
      refine ⟨items ++ [Item.mk d flagDirectory 0 0 0 ch2], rfl,
        ?_, ?_, ?_, ?_, ?_⟩
      · refine treeForestOkB_append items _ htree ?_ ?_
        · rw [treeItemOkB, if_pos (by decide)]
          simp [hdl d (List.mem_cons_self _ _), htree2]
        · intro it hit
          have := hnone it hit
          simpa using this
      · refine nodesOk_of_mem _ _ _ ?_
        intro it hit
        rcases List.mem_append.mp hit with hm | hm
        · exact nodeOk_mono done _ q it (nodesOk_mem done q items hnodes it hm)
        · rcases List.mem_singleton.mp hm with rfl
          rw [nodeOk, if_pos (by decide)]
          constructor
          · refine ⟨q ++ (d :: ds2) ++ [leaf], List.mem_cons_self _ _,
              ⟨ds2 ++ [leaf], by simp⟩, ?_⟩
            simp only [Item.name_mk, List.length_append, List.length_cons,
              List.length_nil]
            omega
          · have hn2 := hnodes2
            rw [show (q ++ [d]) ++ ds2 ++ [leaf] = q ++ (d :: ds2) ++ [leaf]
              by simp] at hn2
            simpa using hn2
      · obtain ⟨z, zs, hz⟩ : ∃ z zs, ds2 ++ [leaf] = z :: zs := by
          cases ds2 with
          | nil => exact ⟨leaf, [], rfl⟩
          | cons e es => exact ⟨e, es ++ [leaf], rfl⟩
        have hchain2b := hchain2
        rw [hz] at hchain2b
        rw [List.cons_append, hz]
        rw [show chainEx (items ++ [Item.mk d flagDirectory 0 0 0 ch2])
            (d :: z :: zs) (Item.mk leaf fl off us sz []) =
          (∃ p ∈ items ++ [Item.mk d flagDirectory 0 0 0 ch2], p.name = d ∧
            isDirFlag p.flags = true ∧
            chainEx p.children (z :: zs) (Item.mk leaf fl off us sz []))
          from rfl]
        exact ⟨Item.mk d flagDirectory 0 0 0 ch2,
          List.mem_append.mpr (Or.inr (List.mem_singleton.mpr rfl)),
          by simp, by simp only [Item.flags_mk]; decide,
          by simpa using hchain2b⟩
      · intro cs0 w0 hch _
        exact chainEx_append cs0 items _ w0 hch
      · refine (dirsHeight_le_iff _ _).mpr ?_
        intro it hit
        rcases List.mem_append.mp hit with hm | hm
        · have := itemDirHeight_mem items it hm
          simp only [List.length_cons]
          omega
        · rcases List.mem_singleton.mp hm with rfl
          rw [itemDirHeight, if_pos (by decide)]
          rw [dirsHeight] at hh2
          simp only [List.length_cons]
          omega

/-! ## The split of a component path, and the `AddFile` wrapper -/

theorem splitSep_prepend : ∀ (c t : Bytes),
    c.all (fun ch => ! isSep ch) = true →
    splitSep (c ++ t) =
      (match splitSep t with
       | ([], leaf) => (([] : List Bytes), c ++ leaf)
       | (dd :: dds, leaf) => ((c ++ dd) :: dds, leaf))
  | [], t, _ => by
    rw [List.nil_append]
    rcases hsp : splitSep t with ⟨dl, leaf⟩
    cases dl with
    | nil => rfl
    | cons dd dds => rfl
  | x :: xs, t, hall => by
    rw [List.all_cons, Bool.and_eq_true] at hall
    have h1 := hall.1
    simp only [Bool.not_eq_true'] at h1
    rw [List.cons_append]
    rw [splitSep, if_neg (by simp [h1])]
    rw [splitSep_prepend xs t hall.2]
    rcases hsp : splitSep t with ⟨dl, leaf⟩
    cases dl with
    | nil => rfl
    | cons dd dds => rfl

theorem splitSep_join : ∀ (cs : List Bytes), cs ≠ [] →
    (∀ c ∈ cs, c.all (fun ch => ! isSep ch) = true) →
    splitSep (joinComps cs) = (cs.dropLast, cs.getLastD []) := by
  intro cs
  induction cs with
  | nil => intro h _; exact absurd rfl h
  | cons c cs2 ih =>
    intro _ hall
    cases cs2 with
    | nil =>
      rw [joinComps]
      have hpre := splitSep_prepend c [] (hall c (List.mem_cons_self _ _))
      rw [List.append_nil] at hpre
      rw [hpre, show splitSep ([] : Bytes) = (([] : List Bytes), ([] : Bytes))
        from rfl]
      simp
    | cons d ds =>
      rw [show joinComps (c :: d :: ds) = c ++ slash :: joinComps (d :: ds)
        from rfl]
      rw [splitSep_prepend c _ (hall c (List.mem_cons_self _ _))]
      rw [splitSep, if_pos (by decide)]
      rw [ih (by simp) (fun x hx => hall x (List.mem_cons_of_mem _ hx))]
      refine Prod.ext ?_ ?_
      · show (c ++ []) :: (d :: ds).dropLast = (c :: d :: ds).dropLast
        rw [List.append_nil]
        rfl
      · show (d :: ds).getLastD [] = (c :: d :: ds).getLastD []
        exact (getLastD_irrel d ds [] c).trans
          (List.getLastD_cons [] c (d :: ds)).symm

theorem addFilePayload_notdir (codecs : Codecs) (content : Bytes)
    (pc : PakPreferredCompression) :
    isDirFlag (addFilePayload codecs content pc).2.1 = false := by
  cases pc <;> (rw [addFilePayload]; dsimp only) <;> decide

theorem addFilePayload_szok (codecs : Codecs) (content : Bytes)
    (pc : PakPreferredCompression) :
    (hasCompressedSize (addFilePayload codecs content pc).2.1 ||
      decide ((addFilePayload codecs content pc).2.2.2 = 0)) = true := by
  cases pc
  · rw [addFilePayload]
    dsimp only
    decide
  · rw [addFilePayload]
    dsimp only
    rw [show hasCompressedSize flagDeflateCompressed = true from by decide]
    rfl
  · rw [addFilePayload]
    dsimp only
    rw [show hasCompressedSize flagLz4Compressed = true from by decide]
    rfl
  · rw [addFilePayload]
    dsimp only
    rw [show hasCompressedSize flagZstdCompressed = true from by decide]
    rfl

theorem sliceBytes_append (o e : Bytes) (off len : Nat)
    (h : off + len ≤ o.length) :
    sliceBytes (o ++ e) off len = sliceBytes o off len := by
  rw [sliceBytes, sliceBytes, List.drop_append_eq_append_drop,
    show off - o.length = 0 by omega, List.drop_zero]
  rw [List.take_append_of_le_length (by rw [List.length_drop]; omega)]

theorem sliceBytes_self (o e : Bytes) :
    sliceBytes (o ++ e) o.length e.length = e := by
  rw [sliceBytes, List.drop_left, List.take_length]

/-- Whether every `AddFile` call of a sequence returned `true`. -/
def addAllOk (hash : Bytes → Nat) (codecs : Codecs) :
    PakWriter → List (Bytes × Bytes × PakPreferredCompression) → Bool
  | _, [] => true
  | w, (c, p, pc) :: rest =>
    match addFile hash codecs w c p pc with
    | (w2, r) => decide (r = .added) && addAllOk hash codecs w2 rest

/-- A well-formed add request: nonempty component path of at most 64
components, each component nonempty, separator-free and short enough;
nonempty content; uncompressed and stored sizes below `UINT32_MAX`. -/
def goodAdd (codecs : Codecs)
    (a : Bytes × List Bytes × PakPreferredCompression) : Prop :=
  a.2.1 ≠ [] ∧ a.2.1.length ≤ 64 ∧ (∀ c ∈ a.2.1, compOk c = true) ∧
  a.1 ≠ [] ∧ a.1.length < uint32Max ∧
  (addFilePayload codecs a.1 a.2.2).2.2.2 < uint32Max

/-- The invariant `addAll` maintains: writer configuration, forest
invariants, and a located file record for every processed add. -/
def writerInv (codecs : Codecs) (W : PakWriter)
    (done : List (Bytes × List Bytes × PakPreferredCompression)) : Prop :=
  W.useHashIndex = false ∧ W.useCompressedIndex = false ∧ W.mountPoint = [] ∧
  8 ≤ W.output.length ∧
  treeForestOkB W.rootItems = true ∧
  nodesOk (done.map (fun a => a.2.1)) [] W.rootItems ∧
  dirsHeight W.rootItems ≤ 63 ∧
  ∀ a ∈ done, ∃ off,
    chainEx W.rootItems a.2.1
      (Item.mk (a.2.1.getLastD []) (addFilePayload codecs a.1 a.2.2).2.1 off
        a.1.length (addFilePayload codecs a.1 a.2.2).2.2.2 []) ∧
    off + (addFilePayload codecs a.1 a.2.2).1.length ≤ W.output.length ∧
    sliceBytes W.output off (addFilePayload codecs a.1 a.2.2).1.length =
      (addFilePayload codecs a.1 a.2.2).1

mutual

theorem nodeOk_congr (done done2 : List (List Bytes))
    (hmem : ∀ x, x ∈ done ↔ x ∈ done2) :
    ∀ (q : List Bytes) (it : Item), nodeOk done q it → nodeOk done2 q it
  | q, .mk n f o u s c, h => by
    rw [nodeOk] at h
    rw [nodeOk]
    by_cases hd : isDirFlag f = true
    · rw [if_pos hd] at h
      rw [if_pos hd]
      obtain ⟨⟨cs, hcs, hp, hl⟩, hrest⟩ := h
      exact ⟨⟨cs, (hmem cs).mp hcs, hp, hl⟩,
        nodesOk_congr done done2 hmem (q ++ [n]) c hrest⟩
    · rw [if_neg hd] at h
      rw [if_neg hd]
      exact (hmem _).mp h

theorem nodesOk_congr (done done2 : List (List Bytes))
    (hmem : ∀ x, x ∈ done ↔ x ∈ done2) :
    ∀ (q : List Bytes) (l : List Item), nodesOk done q l → nodesOk done2 q l
  | _, [], h => h
  | q, it :: rest, h => by
    rw [nodesOk] at h
    rw [nodesOk]
    exact ⟨nodeOk_congr done done2 hmem q it h.1,
      nodesOk_congr done done2 hmem q rest h.2⟩

end

/-- One successful tree-mode `AddFile` preserves the writer invariant and
extends the record list. -/
theorem addFile_step (hash : Bytes → Nat) (codecs : Codecs) (W : PakWriter)
    (a : Bytes × List Bytes × PakPreferredCompression)
    (done : List (Bytes × List Bytes × PakPreferredCompression))
    (hinv : writerInv codecs W done) (hga : goodAdd codecs a)
    (hanti : ∀ b ∈ done, ¬ b.2.1 <+: a.2.1 ∧ ¬ a.2.1 <+: b.2.1) :
    (addFile hash codecs W a.1 (joinComps a.2.1) a.2.2).2 = .added ∧
    writerInv codecs (addFile hash codecs W a.1 (joinComps a.2.1) a.2.2).1
      (done ++ [a]) := by
  obtain ⟨content, cs, pc⟩ := a
  obtain ⟨hcs, hcs64, hcomp, hcne, huslt, hszlt⟩ := hga
  obtain ⟨hUH, hUC, hMP, hOL, hTR, hND, hDH, hREC⟩ := hinv
  dsimp only at hanti hcs hcs64 hcomp hcne huslt hszlt
  have hallsep : ∀ c ∈ cs, c.all (fun ch => ! isSep ch) = true :=
    fun c hc => (compOk_parts c (hcomp c hc)).2.1
  have hjoin_ne : joinComps cs ≠ [] := joinComps_ne_nil cs hcs hcomp
  have hlast : isSep ((joinComps cs).getLastD 0) = false :=
    joinComps_getLastD cs hcs hcomp
  rw [addFile]
  rw [if_neg (by
    simp only [Bool.or_eq_true]
    rintro (hc | hc)
    · rw [List.isEmpty_iff] at hc
      exact hjoin_ne hc
    · rw [hlast] at hc
      cases hc)]
  rcases hp : addFilePayload codecs content pc with ⟨stored, fl, us, sz⟩
  have hus : us = content.length := by
    have := addFilePayload_uncompressed codecs content pc
    rw [hp] at this
    exact this
  have hfl : isDirFlag fl = false := by
    have := addFilePayload_notdir codecs content pc
    rw [hp] at this
    exact this
  have hszok : (hasCompressedSize fl || decide (sz = 0)) = true := by
    have := addFilePayload_szok codecs content pc
    rw [hp] at this
    exact this
  have hszlt2 : sz < uint32Max := by
    rw [hp] at hszlt
    exact hszlt
  dsimp only
  rw [if_neg (by rw [hUH]; exact Bool.false_ne_true)]
  rw [joinComps_dropWhile cs hcs hcomp]
  rw [splitSep_join cs hcs hallsep]
  dsimp only
  rw [show (if us = 0 then AddResult.copyFailed
      else if us ≥ uint32Max ∨ sz ≥ uint32Max then AddResult.tooBig
      else AddResult.added) = AddResult.added by
    rw [if_neg (by rw [hus]; intro hc; exact hcne (List.length_eq_zero.mp hc))]
    rw [if_neg (by
      rintro (hc | hc)
      · rw [hus] at hc
        omega
      · omega)]]
  have hfull : ([] : List Bytes) ++ cs.dropLast ++ [cs.getLastD []] = cs := by
    rw [List.nil_append]
    exact dropLast_getLastD cs [] hcs
  have hleaflen : (cs.getLastD ([] : Bytes)).length < int32Max :=
    (compOk_parts _ (hcomp _ (getLastD_mem cs [] hcs))).2.2
  obtain ⟨items2, hrec, htree2, hnodes2, hchain2, hpres2, hh2⟩ :=
    addFileTree_main cs.dropLast [] W.rootItems (cs.getLastD []) fl
      W.output.length us sz (done.map (fun b => b.2.1)) hTR hND
      (by
        intro cs2 hcs2
        obtain ⟨b, hb, rfl⟩ := List.mem_map.mp hcs2
        rw [hfull]
        exact hanti b hb)
      hfl hszok hleaflen
      (fun d hd => (compOk_parts d (hcomp d
        (List.dropLast_subset _ hd))).2.2)
  rw [hrec]
  dsimp only
  rw [if_neg (by decide)]
  refine ⟨rfl, hUH, hUC, hMP, ?_, htree2, ?_, ?_, ?_⟩
  · simp only [List.length_append]
    omega
  · refine nodesOk_congr (cs :: done.map (fun b => b.2.1))
      ((done ++ [(content, cs, pc)]).map (fun a => a.2.1)) ?_ [] items2 ?_
    · intro x
      rw [List.map_append]
      rw [show (List.map (fun a => a.2.1) [(content, cs, pc)] :
        List (List Bytes)) = [cs] from rfl]
      simp only [List.mem_cons, List.mem_append, List.mem_singleton]
      tauto
    · have hn2 := hnodes2
      rw [hfull] at hn2
      exact hn2
  · dsimp only
    have hdll : cs.dropLast.length = cs.length - 1 := List.length_dropLast cs
    omega
  · intro b hb
    rcases List.mem_append.mp hb with hbd | hbnew
    · obtain ⟨off, hchainb, hleb, hsliceb⟩ := hREC b hbd
      refine ⟨off, ?_, ?_, ?_⟩
      · refine hpres2 b.2.1 _ hchainb ?_
        simp only [Item.flags_mk]
        exact addFilePayload_notdir codecs b.1 b.2.2
      · simp only [List.length_append]
        omega
      · rw [sliceBytes_append _ _ _ _ hleb]
        exact hsliceb
    · rcases List.mem_singleton.mp hbnew with rfl
      refine ⟨W.output.length, ?_, ?_, ?_⟩
      · have hch := hchain2
        rw [show cs.dropLast ++ [cs.getLastD []] = cs from
          dropLast_getLastD cs [] hcs] at hch
        rw [hp]
        dsimp only
        rw [← hus]
        exact hch
      · rw [hp]
        simp only [List.length_append]
        omega
      · rw [hp]
        dsimp only
        exact sliceBytes_self W.output stored

/-- Folding `AddFile` over a list of well-formed, pairwise non-prefix adds
keeps the writer invariant and makes every call return `true`. -/
theorem addAll_inv (hash : Bytes → Nat) (codecs : Codecs) :
    ∀ (rest : List (Bytes × List Bytes × PakPreferredCompression))
      (W : PakWriter)
      (done : List (Bytes × List Bytes × PakPreferredCompression)),
      writerInv codecs W done →
      (∀ a ∈ rest, goodAdd codecs a) →
      (∀ b ∈ done, ∀ a ∈ rest, ¬ b.2.1 <+: a.2.1 ∧ ¬ a.2.1 <+: b.2.1) →
      rest.Pairwise (fun a b => ¬ a.2.1 <+: b.2.1 ∧ ¬ b.2.1 <+: a.2.1) →
      writerInv codecs
        (addAll hash codecs W
          (rest.map (fun a => (a.1, joinComps a.2.1, a.2.2))))
        (done ++ rest) ∧
      addAllOk hash codecs W
        (rest.map (fun a => (a.1, joinComps a.2.1, a.2.2))) = true := by
  intro rest
  induction rest with
  | nil =>
    intro W done hinv _ _ _
    rw [List.map_nil, List.append_nil]
    exact ⟨hinv, rfl⟩
  | cons a rest2 ih =>
    intro W done hinv hgood hcross hpw
    obtain ⟨hadded, hinv2⟩ := addFile_step hash codecs W a done hinv
      (hgood a (List.mem_cons_self _ _))
      (fun b hb => hcross b hb a (List.mem_cons_self _ _))
    obtain ⟨hhead, hpw2⟩ := List.pairwise_cons.mp hpw
    have hcross2 : ∀ b ∈ done ++ [a], ∀ a2 ∈ rest2,
        ¬ b.2.1 <+: a2.2.1 ∧ ¬ a2.2.1 <+: b.2.1 := by
      intro b hb a2 ha2
      rcases List.mem_append.mp hb with hbd | hba
      · exact hcross b hbd a2 (List.mem_cons_of_mem _ ha2)
      · rcases List.mem_singleton.mp hba with rfl
        exact hhead a2 ha2
    obtain ⟨hinv3, hok3⟩ := ih (addFile hash codecs W a.1 (joinComps a.2.1)
        a.2.2).1 (done ++ [a]) hinv2
      (fun a2 ha2 => hgood a2 (List.mem_cons_of_mem _ ha2)) hcross2 hpw2
    constructor
    · rw [List.map_cons]
      rw [show addAll hash codecs W ((a.1, joinComps a.2.1, a.2.2) ::
          rest2.map (fun a2 => (a2.1, joinComps a2.2.1, a2.2.2))) =
        addAll hash codecs (addFile hash codecs W a.1 (joinComps a.2.1)
          a.2.2).1 (rest2.map (fun a2 => (a2.1, joinComps a2.2.1, a2.2.2)))
        from rfl]
      rw [show done ++ a :: rest2 = (done ++ [a]) ++ rest2 by simp]
      exact hinv3
    · rw [List.map_cons, addAllOk]
      rcases haf : addFile hash codecs W a.1 (joinComps a.2.1) a.2.2
        with ⟨W2, r⟩
      dsimp only
      have hr : r = .added := by rw [haf] at hadded; exact hadded
      subst hr
      rw [decide_eq_true rfl, Bool.true_and]
      have hW2 : W2 = (addFile hash codecs W a.1 (joinComps a.2.1) a.2.2).1 :=
        by rw [haf]
      rw [hW2]
      exact hok3

/-- A file chain locates the file either at the root or among the children
of a directory at a nonempty address. -/
theorem chainEx_addr : ∀ (cs : List Bytes) (items : List Item) (w : Item),
    chainEx items cs w →
    (∃ i, items.get? i = some w) ∨
    (∃ a p j, a ≠ [] ∧ getItemAt items a = some p ∧
      isDirFlag p.flags = true ∧ p.children.get? j = some w)
  | [], _, _, h => False.elim h
  | [d], items, w, h => by
    rw [chainEx] at h
    obtain ⟨i, hi⟩ := List.mem_iff_get?.mp h.1
    exact Or.inl ⟨i, hi⟩
  | d :: d2 :: ds, items, w, h => by
    rw [show chainEx items (d :: d2 :: ds) w = (∃ p ∈ items, p.name = d ∧
      isDirFlag p.flags = true ∧ chainEx p.children (d2 :: ds) w)
      from rfl] at h
    obtain ⟨p, hp, _, hpd, hpc⟩ := h
    obtain ⟨i, hi⟩ := List.mem_iff_get?.mp hp
    rcases chainEx_addr (d2 :: ds) p.children w hpc with ⟨j, hj⟩ |
      ⟨a, p2, j, hane, hget, hp2d, hj⟩
    · exact Or.inr ⟨[i], p, j, by simp, hi, hpd, hj⟩
    · refine Or.inr ⟨i :: a, p2, j, by simp, ?_, hp2d, hj⟩
      rw [show (i :: a : List Nat) = [i] ++ a from rfl,
        getItemAt_append a hane [i] items (by simp)]
      rw [show getItemAt items [i] = items.get? i from rfl, hi]
      exact hget

/-- A file chain makes `hasFiles` true. -/
theorem hasFilesB_of_chain (items : List Item)
    (htree : treeForestOkB items = true) (cs : List Bytes) (w : Item)
    (hch : chainEx items cs w) (hw : isDirFlag w.flags = false) :
    hasFilesB items = true := by
  rw [hasFilesB, Bool.or_eq_true]
  rcases chainEx_addr cs items w hch with ⟨i, hi⟩ |
    ⟨a, p, j, hane, hget, hpd, hj⟩
  · refine Or.inl (List.any_eq_true.mpr ⟨w, List.get?_mem hi, ?_⟩)
    rw [hw]
    rfl
  · refine Or.inr (List.any_eq_true.mpr ⟨a, ?_, ?_⟩)
    · exact dirQueue_complete items htree a p hane hget hpd
    · rw [hget]
      refine List.any_eq_true.mpr ⟨w, List.get?_mem hj, ?_⟩
      rw [hw]
      rfl

/-- `OpenFile` on a path that resolves to a file item: the result is the
compression dispatch of the source. -/
theorem openFile_found (hash : Bytes → Nat) (codecs : Codecs) (b : Bytes)
    (s : PakState) (path : Bytes) (w : Item)
    (hne : path ≠ []) (hlast : isSep (path.getLastD 0) = false)
    (hfind : findItem hash s path = FindOutcome.found w)
    (hw : isDirFlag w.flags = false) :
    openFile hash codecs b s path =
      (if w.flags &&& flagDeflateCompressed == flagDeflateCompressed then
        OpenResult.opened w.uncompressedSize
          (codecs.deflate.decompress (sliceBytes b w.offset w.size))
      else if w.flags &&& flagLz4Compressed == flagLz4Compressed then
        OpenResult.opened w.uncompressedSize
          (codecs.lz4.decompress (sliceBytes b w.offset w.size))
      else if w.flags &&& flagZstdCompressed == flagZstdCompressed then
        OpenResult.opened w.uncompressedSize
          (codecs.zstd.decompress (sliceBytes b w.offset w.size))
      else OpenResult.opened w.uncompressedSize
        (sliceBytes b w.offset w.uncompressedSize)) := by
  rw [openFile, if_neg (by
    simp only [Bool.or_eq_true]
    rintro (hc | hc)
    · rw [List.isEmpty_iff] at hc
      exact hne hc
    · rw [hlast] at hc
      cases hc)]
  rw [hfind]
  dsimp only
  rw [if_neg (by simp [hw])]

/-- C1 (amended) — Round-trip for the tree-mode writer under the conditions
the code actually requires: every add uses a nonempty component path (each
component nonempty, separator-free and shorter than `INT32_MAX`) of at most
64 components, nonempty content with uncompressed and stored sizes below
`UINT32_MAX`, no added component path is a prefix of another (in
particular, no duplicates), the compressing and decompressing codec
collaborators invert each other, and the final archive is addressable in 64
bits. Then every `AddFile` returns `true`, `Finalize` produces an archive,
and on the reopened archive every added path has `FileExists` true and
`OpenFile` yields a stream with exactly the original length and bytes —
including paths nested two or more directory levels deep. (As stated the
claim is false: without the prefix condition, adding `"a"` then `"a/b"`
both succeed, but the reopened archive reports `FileExists("a/b") ==
false` — the file item `"a"` is silently reused as the parent of `"b"`,
and children of files are never serialized. Empty content also fails, see
C10.) -/
theorem C1_roundtrip_amended (hash : Bytes → Nat) (codecs : Codecs)
    (hdefl : ∀ x, codecs.deflate.decompress (codecs.deflate.compress x) = x)
    (hlz4 : ∀ x, codecs.lz4.decompress (codecs.lz4.compress x) = x)
    (hzstd : ∀ x, codecs.zstd.decompress (codecs.zstd.compress x) = x)
    (adds : List (Bytes × List Bytes × PakPreferredCompression))
    (hne : adds ≠ [])
    (hgood : ∀ a ∈ adds, goodAdd codecs a)
    (hanti : adds.Pairwise
      (fun a b => ¬ a.2.1 <+: b.2.1 ∧ ¬ b.2.1 <+: a.2.1)) :
    addAllOk hash codecs (pakWriterNew false false false)
      (adds.map (fun a => (a.1, joinComps a.2.1, a.2.2))) = true ∧
    ∃ b, finalize (addAll hash codecs (pakWriterNew false false false)
        (adds.map (fun a => (a.1, joinComps a.2.1, a.2.2)))) = some b ∧
      (b.length < 18446744073709551616 →
        ∀ a ∈ adds,
          fileExists hash (pakOpen b) (joinComps a.2.1) = some true ∧
          openFile hash codecs b (pakOpen b) (joinComps a.2.1) =
            OpenResult.opened a.1.length a.1) := by
  have hinv0 : writerInv codecs (pakWriterNew false false false) [] := by
    refine ⟨rfl, rfl, rfl, by decide, rfl, trivial, by decide, ?_⟩
    intro a ha
    simp at ha
  obtain ⟨hinvW, hok⟩ := addAll_inv hash codecs adds
    (pakWriterNew false false false) [] hinv0 hgood
    (by intro b hb; simp at hb) hanti
  rw [List.nil_append] at hinvW
  obtain ⟨hUH, hUC, hMP, hOL, hTR, hND, hDH, hREC⟩ := hinvW
  refine ⟨hok, ?_⟩
  obtain ⟨a0, ha0⟩ : ∃ a0, a0 ∈ adds := by
    cases adds with
    | nil => exact absurd rfl hne
    | cons x xs => exact ⟨x, List.mem_cons_self _ _⟩
  obtain ⟨off0, hchain0, _, _⟩ := hREC a0 ha0
  have hhf : hasFilesB (addAll hash codecs (pakWriterNew false false false)
      (adds.map (fun a => (a.1, joinComps a.2.1, a.2.2)))).rootItems = true :=
    hasFilesB_of_chain _ hTR a0.2.1 _ hchain0
      (by simp only [Item.flags_mk]
          exact addFilePayload_notdir codecs a0.1 a0.2.2)
  obtain ⟨b, t', hfeq, hfin, hokb, ⟨tl, htl⟩, hopen⟩ :=
    pakOpen_finalize_tree _ hUH hUC hMP hOL hTR hhf hDH
  refine ⟨b, hfeq, ?_⟩
  intro hblen a ha
  have hopened := hopen hblen
  obtain ⟨off, hchain, hle, hslice⟩ := hREC a ha
  obtain ⟨hcs, _, hcomp, hcne, _, _⟩ := hgood a ha
  have hwfile : isDirFlag (Item.mk (a.2.1.getLastD [])
      (addFilePayload codecs a.1 a.2.2).2.1 off a.1.length
      (addFilePayload codecs a.1 a.2.2).2.2.2 []).flags = false := by
    simp only [Item.flags_mk]
    exact addFilePayload_notdir codecs a.1 a.2.2
  have hfok : findOkForest (sortByName t') :=
    findOkForest_of_fin _ t' hTR hfin
  have hchainS := chainEx_fin a.2.1 _ t' _ hfin hchain hwfile
  have hfind : findItem hash (pakOpen b) (joinComps a.2.1) =
      FindOutcome.found (Item.mk (a.2.1.getLastD [])
        (addFilePayload codecs a.1 a.2.2).2.1 off a.1.length
        (addFilePayload codecs a.1 a.2.2).2.2.2 []) := by
    rw [hopened]
    exact findItem_tree hash ⟨true, false, [], sortByName t'⟩ rfl hfok
      a.2.1 hcs hcomp _ hchainS
  constructor
  · rw [fileExists, hfind]
    have hnd := addFilePayload_notdir codecs a.1 a.2.2
    simp [hnd]
  · rw [openFile_found hash codecs b (pakOpen b) (joinComps a.2.1) _
      (joinComps_ne_nil a.2.1 hcs hcomp) (joinComps_getLastD a.2.1 hcs hcomp)
      hfind hwfile]
    have hsliceb : ∀ len, off + len ≤ len → True := fun _ _ => trivial
    obtain ⟨content, cs, pc⟩ := a
    dsimp only at hchain hle hslice hcne ⊢
    have hout : ∀ L, off + L ≤ (addAll hash codecs
        (pakWriterNew false false false)
        (adds.map (fun a => (a.1, joinComps a.2.1, a.2.2)))).output.length →
        sliceBytes b off L = sliceBytes (addAll hash codecs
          (pakWriterNew false false false)
          (adds.map (fun a => (a.1, joinComps a.2.1, a.2.2)))).output off L := by
      intro L hL
      rw [htl]
      exact sliceBytes_append _ _ _ _ hL
    cases pc with
    | none =>
      rw [addFilePayload] at hle hslice ⊢
      dsimp only at hle hslice ⊢
      simp only [Item.flags_mk, Item.offset_mk, Item.uncompressedSize_mk,
        Item.size_mk]
      rw [if_neg (by decide), if_neg (by decide), if_neg (by decide)]
      rw [hout content.length hle, hslice]
    | deflate =>
      rw [addFilePayload] at hle hslice ⊢
      dsimp only at hle hslice ⊢
      simp only [Item.flags_mk, Item.offset_mk, Item.uncompressedSize_mk,
        Item.size_mk]
      rw [if_pos (by decide)]
      rw [hout (codecs.deflate.compress content).length hle, hslice,
        hdefl content]
    | lz4 =>
      rw [addFilePayload] at hle hslice ⊢
      dsimp only at hle hslice ⊢
      simp only [Item.flags_mk, Item.offset_mk, Item.uncompressedSize_mk,
        Item.size_mk]
      rw [if_neg (by decide), if_pos (by decide)]
      rw [hout (codecs.lz4.compress content).length hle, hslice,
        hlz4 content]
    | zstd =>
      rw [addFilePayload] at hle hslice ⊢
      dsimp only at hle hslice ⊢
      simp only [Item.flags_mk, Item.offset_mk, Item.uncompressedSize_mk,
        Item.size_mk]
      rw [if_neg (by decide), if_neg (by decide), if_pos (by decide)]
      rw [hout (codecs.zstd.compress content).length hle, hslice,
        hzstd content]

/-- Counterexample for C1 as stated: the tree-mode adds of `"a"` (content
`[1]`) and then `"a/b"` (content `[2]`) both report success and `Finalize`
produces an archive, yet on the reopened archive `FileExists("a/b")` is
`false`: `FindOrCreateParentItem` matches items by name without checking
the directory flag, so the FILE item `"a"` is silently reused as the parent
of `"b"`, and a file's children are never serialized by `Finalize`. -/
theorem C1_roundtrip_counterexample :
    (addFileB sampleHash idCodecs (pakWriterNew false false false) [1] [97]
      PakPreferredCompression.none).2 = true ∧
    (addFileB sampleHash idCodecs
      (addFileB sampleHash idCodecs (pakWriterNew false false false) [1] [97]
        PakPreferredCompression.none).1 [2] [97, 47, 98]
      PakPreferredCompression.none).2 = true ∧
    (finalize (addFileB sampleHash idCodecs
      (addFileB sampleHash idCodecs (pakWriterNew false false false) [1] [97]
        PakPreferredCompression.none).1 [2] [97, 47, 98]
      PakPreferredCompression.none).1).isSome = true ∧
    fileExists sampleHash
      (pakOpen ((finalize (addFileB sampleHash idCodecs
        (addFileB sampleHash idCodecs (pakWriterNew false false false) [1]
          [97] PakPreferredCompression.none).1 [2] [97, 47, 98]
        PakPreferredCompression.none).1).getD []))
      [97, 47, 98] = some false := by
  refine ⟨?_, ?_, ?_, ?_⟩ <;> decide

/-- Witness for the amended C1 at a concrete input: one add of content `[5]`
at the two-directory-deep path `"a/b/c"`, uncompressed, identity codecs. -/
theorem C1_roundtrip_amended_witness :
    addAllOk sampleHash idCodecs (pakWriterNew false false false)
      ([(([5] : Bytes), [[97], [98], [99]],
        PakPreferredCompression.none)].map
        (fun a => (a.1, joinComps a.2.1, a.2.2))) = true ∧
    ∃ b, finalize (addAll sampleHash idCodecs
        (pakWriterNew false false false)
        ([(([5] : Bytes), [[97], [98], [99]],
          PakPreferredCompression.none)].map
          (fun a => (a.1, joinComps a.2.1, a.2.2)))) = some b ∧
      (b.length < 18446744073709551616 →
        ∀ a ∈ [(([5] : Bytes), [[97], [98], [99]],
            PakPreferredCompression.none)],
          fileExists sampleHash (pakOpen b) (joinComps a.2.1) = some true ∧
          openFile sampleHash idCodecs b (pakOpen b) (joinComps a.2.1) =
            OpenResult.opened a.1.length a.1) :=
  C1_roundtrip_amended sampleHash idCodecs (fun x => rfl) (fun x => rfl)
    (fun x => rfl) _ (by decide)
    (by
      intro a ha
      rcases List.mem_singleton.mp ha with rfl
      exact ⟨by decide, by decide, by decide, by decide, by decide,
        by decide⟩)
    (by decide)

/-! ## C3: the sorted invariant of finalized archives -/

mutual

/-- The claim's sorted invariant as a predicate on a parsed archive: every
items array — the root array and, recursively, every directory's
`ChildItems` — is sorted strictly ascending by `Name` at adjacent
indices. -/
def sortedStrictDeepB : List Item → Bool
  | [] => true
  | [it] => sortedStrictChildB it
  | a :: b :: rest =>
    ltBytes a.name b.name && sortedStrictChildB a &&
    sortedStrictDeepB (b :: rest)

/-- Strict deep sortedness below one item. -/
def sortedStrictChildB : Item → Bool
  | .mk _ _ _ _ _ c => sortedStrictDeepB c

end

theorem lt_of_le_ne (a b : Bytes) (hle : leBytes a b = true) (hne : a ≠ b) :
    ltBytes a b = true := by
  rw [leBytes] at hle
  have h2 : ltBytes b a = false := by
    revert hle
    cases ltBytes b a <;> simp
  by_contra hc
  have h1 : ltBytes a b = false := by
    revert hc
    cases ltBytes a b <;> simp
  exact hne (ltBytes_connex a b h1 h2)

mutual

theorem sortedStrict_of_findOk : ∀ (l : List Item),
    l.Pairwise (fun a b => leBytes a.name b.name = true) →
    l.Pairwise (fun a b => a.name ≠ b.name) → findOkL l →
    sortedStrictDeepB l = true
  | [], _, _, _ => rfl
  | [it], _, _, hL => by
    rw [sortedStrictDeepB]
    exact sortedStrictChild_of it
      (findOkL_mem [it] hL it (List.mem_cons_self _ _))
  | a :: b :: rest, hle, hne, hL => by
    rw [sortedStrictDeepB]
    simp only [Bool.and_eq_true]
    obtain ⟨hlea, hlet⟩ := List.pairwise_cons.mp hle
    obtain ⟨hnea, hnet⟩ := List.pairwise_cons.mp hne
    rw [findOkL] at hL
    refine ⟨⟨?_, sortedStrictChild_of a hL.1⟩,
      sortedStrict_of_findOk (b :: rest) hlet hnet hL.2⟩
    exact lt_of_le_ne a.name b.name (hlea b (List.mem_cons_self _ _))
      (hnea b (List.mem_cons_self _ _))

theorem sortedStrictChild_of : ∀ (it : Item), findOkI it →
    sortedStrictChildB it = true
  | .mk n f o u s c, h => by
    rw [sortedStrictChildB]
    rw [findOkI] at h
    exact sortedStrict_of_findOk c h.1 h.2.1 h.2.2

end

/-- C3 (amended) — In a finalized TREE-mode archive (writer in the state
tree-mode `AddFile` calls produce: invariant-respecting forest, empty mount
point, uncompressed index, something added) the sorted invariant holds
STRICTLY: on reopening, the root array and every directory's `ChildItems`
satisfy `Name[i] < Name[i+1]` under lexicographic byte comparison. In flat
mode only NON-strict sortedness holds: the writer sorts with `<` but a
duplicate add (not caught — see C2) or a hash collision stores two items
with EQUAL 8-byte names, which `std::sort` places adjacently — see the
counterexample. -/
theorem C3_sorted_amended (w : PakWriter)
    (hhash : w.useHashIndex = false) (hcomp : w.useCompressedIndex = false)
    (hmp : w.mountPoint = []) (hout : 8 ≤ w.output.length)
    (htree : treeForestOkB w.rootItems = true)
    (hhf : hasFilesB w.rootItems = true)
    (hdh : dirsHeight w.rootItems ≤ 63) :
    ∃ b, finalize w = some b ∧
      (b.length < 18446744073709551616 →
        sortedStrictDeepB (pakOpen b).rootItems = true) := by
  obtain ⟨b, t', hfeq, hfin, _, _, hopen⟩ :=
    pakOpen_finalize_tree w hhash hcomp hmp hout htree hhf hdh
  refine ⟨b, hfeq, ?_⟩
  intro hblen
  rw [hopen hblen]
  have hfok := findOkForest_of_fin w.rootItems t' htree hfin
  exact sortedStrict_of_findOk (sortByName t') hfok.1 hfok.2.1 hfok.2.2

/-- Counterexample for C3 as stated: a flat-mode archive built by adding
the path `"a"` twice (the duplicate check compares the stored 8 hash bytes
against the raw path bytes, so the second add succeeds — see C2) finalizes
into an archive whose root array holds two items with EQUAL names: the
array is sorted, but not STRICTLY. -/
theorem C3_sorted_counterexample :
    (finalize (addFile sampleHash idCodecs
      (addFile sampleHash idCodecs (pakWriterNew true false false) [1] [97]
        PakPreferredCompression.none).1 [2] [97]
      PakPreferredCompression.none).1).isSome = true ∧
    sortedStrictDeepB
      (pakOpen ((finalize (addFile sampleHash idCodecs
        (addFile sampleHash idCodecs (pakWriterNew true false false) [1]
          [97] PakPreferredCompression.none).1 [2] [97]
        PakPreferredCompression.none).1).getD [])).rootItems = false := by
  refine ⟨?_, ?_⟩ <;> decide

/-- Witness for the amended C3 at a concrete tree-mode writer: one add of
`"a"` with content `[1]`. -/
theorem C3_sorted_amended_witness :
    ∃ b, finalize (addFile sampleHash idCodecs
        (pakWriterNew false false false) [1] [97]
        PakPreferredCompression.none).1 = some b ∧
      (b.length < 18446744073709551616 →
        sortedStrictDeepB (pakOpen b).rootItems = true) :=
  C3_sorted_amended _ (by decide) (by decide) (by decide) (by decide)
    (by decide) (by decide) (by decide)

end Pak
